import Mathlib

/-!
# templatex: a shallow embedding of `template.go`

Go strings are byte sequences.  A byte is a natural number below 256 and a
string is a list of bytes; every concrete string below stays in that range.

The standard-library routines the program calls (`regexp`, `strings`, `fmt`,
`unicode/utf8`) are embedded next to the program's own functions, byte for
byte where the program depends on them.
-/

namespace Templatex

/-- A byte of a Go string (a number below 256). -/
abbrev Byte := Nat

/-- A Go string: its bytes in order. -/
abbrev Str := List Nat

/-- The bytes of an ASCII literal. -/
def bytes (s : String) : Str := s.toList.map Char.toNat

/-! ## `regexp`: leftmost-first matching with submatches -/

/-- State of one matching attempt: the offset reached, the input that is
left, and the submatch slots (`-1` while a group has not taken part). -/
structure MState where
  pos : Nat
  rest : Str
  caps : List Int

/-- What remains to be matched after a sub-expression: it either yields the
final slot array or fails, and failure makes the caller backtrack. -/
abbrev Cont := MState → Option (List Int)

/-- The fragment of regular-expression syntax that `placeholderPattern` uses:
one-byte classes, concatenation, ordered alternation, greedy repetition and
capturing groups.  Go's `regexp` reads the input rune by rune; every class of
the pattern is a set of ASCII bytes or the complement of a single ASCII byte,
and each complemented class is followed by an ASCII byte, so matching byte by
byte gives the same matches and the same offsets. -/
inductive Regex where
  | eps
  | cls (p : Nat → Bool)
  | seq (r s : Regex)
  | alt (r s : Regex)
  | star (r : Regex)
  | cap (i : Nat) (r : Regex)

/-- Greedy repetition: one more round of `step` is preferred to leaving the
loop.  A round has to consume input; the counter starts above the length of
the input that is left, so it never decides the outcome. -/
def starLoop (step : Cont → Cont) (k : Cont) : Nat → Cont
  | 0, st => k st
  | fuel + 1, st =>
    match step (fun st' => if st.pos < st'.pos then starLoop step k fuel st' else none) st with
    | some m => some m
    | none => k st

/-- Backtracking matcher in continuation-passing style.  The first success in
priority order (left alternative first, longer repetition first) is the match,
which is the leftmost-first rule of Go's `regexp`. -/
def Regex.run : Regex → Cont → Cont
  | .eps, k, st => k st
  | .cls p, k, st =>
    match st.rest with
    | c :: cs => if p c then k ⟨st.pos + 1, cs, st.caps⟩ else none
    | [] => none
  | .seq r s, k, st => r.run (s.run k) st
  | .alt r s, k, st =>
    match r.run k st with
    | some m => some m
    | none => s.run k st
  | .star r, k, st => starLoop r.run k (st.rest.length + 1) st
  | .cap i r, k, st =>
    r.run (fun st' => k ⟨st'.pos, st'.rest,
      (st'.caps.set (2 * i) (st.pos : Int)).set (2 * i + 1) (st'.pos : Int)⟩) st

/-- A single literal byte. -/
def lit (b : Nat) : Regex := .cls (fun c => c == b)

/-- A literal string. -/
def litStr : Str → Regex
  | [] => .eps
  | b :: bs => .seq (lit b) (litStr bs)

/-- One or more, greedy: `r+`. -/
def plus (r : Regex) : Regex := .seq r (.star r)

/-- The class `\s` of Go's regexp syntax: `[\t\n\f\r ]`. -/
def isReSpace (c : Nat) : Bool := c == 9 || c == 10 || c == 12 || c == 13 || c == 32

/-- The class `\w`: `[0-9A-Za-z_]`. -/
def isWord (c : Nat) : Bool :=
  (48 ≤ c && c ≤ 57) || (65 ≤ c && c ≤ 90) || c == 95 || (97 ≤ c && c ≤ 122)

/-- The class `[\w\.-]` of a key. -/
def isKeyChar (c : Nat) : Bool := isWord c || c == 46 || c == 45

/-- One line of `placeholderVariants`:
`OPEN \s* ([\w\.-]+) ((\s*\|[^STOP]+)*) \s* CLOSE`, its three groups numbered
`g`, `g+1`, `g+2`. -/
def variantRe (g : Nat) (opener : Str) (stop : Nat) (closer : Str) : Regex :=
  .seq (litStr opener)
  (.seq (.star (.cls isReSpace))
  (.seq (.cap g (plus (.cls isKeyChar)))
  (.seq (.cap (g + 1) (.star (.cap (g + 2)
      (.seq (.star (.cls isReSpace)) (.seq (lit 124) (plus (.cls (fun c => c != stop))))))))
  (.seq (.star (.cls isReSpace))
  (litStr closer)))))

/-- The five lines of `placeholderVariants`, in source order. -/
def placeholderVariants : List Regex :=
  [ variantRe 1 [123, 123] 125 [125, 125]   -- {{ key | filters }}
  , variantRe 4 [91, 91] 93 [93, 93]        -- [[ key | filters ]]
  , variantRe 7 [36, 123] 125 [125]         -- ${ key | filters }
  , variantRe 10 [60, 60] 62 [62, 62]       -- << key | filters >>
  , variantRe 13 [37, 37] 37 [37, 37] ]     -- %% key | filters %%

/-- The alternatives joined with `|`, as `strings.Join(placeholderVariants, "|")`
does. -/
def joinAlt : List Regex → Regex
  | [] => .eps
  | [r] => r
  | r :: rs => .alt r (joinAlt rs)

/-- The compiled `placeholderPattern`. -/
def placeholderPattern : Regex := joinAlt placeholderVariants

/-- Number of slots of a match: two per group, group 0 being the whole match
(the pattern has fifteen groups). -/
def numSlots : Nat := 32

/-- One attempt at offset `pos` with `rest` the input from there on. -/
def matchAt (re : Regex) (pos : Nat) (rest : Str) : Option (List Int) :=
  re.run (fun st => some ((st.caps.set 0 (pos : Int)).set 1 (st.pos : Int)))
    ⟨pos, rest, List.replicate numSlots (-1)⟩

/-- The scan behind `FindAllStringSubmatchIndex(tpl, -1)`: the leftmost match at
or after the end of the previous one, repeatedly.  `resume` is the end of the
previous match; offsets before it are skipped.  (No match of
`placeholderPattern` is empty, so the rule for empty matches never applies.) -/
def scanFrom (re : Regex) : Nat → Nat → Str → List (List Int)
  | _, _, [] => []
  | pos, resume, c :: cs =>
    if pos < resume then scanFrom re (pos + 1) resume cs
    else
      match matchAt re pos (c :: cs) with
      | some m => m :: scanFrom re (pos + 1) (m.getD 1 0).toNat cs
      | none => scanFrom re (pos + 1) resume cs

/-- Model of `re.FindAllStringSubmatchIndex(tpl, -1)`. -/
def FindAllStringSubmatchIndex (re : Regex) (tpl : Str) : List (List Int) :=
  scanFrom re 0 0 tpl

/-! ## `unicode/utf8` and `unicode` -/

/-- The rune `utf8.RuneError`, U+FFFD. -/
def RuneError : Nat := 0xFFFD

/-- Model of `utf8.DecodeRuneInString`: the first rune of `s` and its width in
bytes; `(RuneError, 1)` for a byte that starts no valid encoding and
`(RuneError, 0)` for the empty string. -/
def DecodeRuneInString : Str → Nat × Nat
  | [] => (RuneError, 0)
  | s0 :: t =>
    if s0 < 0x80 then (s0, 1)
    else if s0 < 0xC2 then (RuneError, 1)
    else if s0 < 0xE0 then
      match t with
      | s1 :: _ =>
        if 0x80 ≤ s1 ∧ s1 ≤ 0xBF then ((s0 % 32) * 64 + s1 % 64, 2) else (RuneError, 1)
      | _ => (RuneError, 1)
    else if s0 < 0xF0 then
      match t with
      | s1 :: s2 :: _ =>
        if (if s0 = 0xE0 then 0xA0 else 0x80) ≤ s1 ∧ s1 ≤ (if s0 = 0xED then 0x9F else 0xBF)
            ∧ 0x80 ≤ s2 ∧ s2 ≤ 0xBF then
          ((s0 % 16) * 4096 + (s1 % 64) * 64 + s2 % 64, 3)
        else (RuneError, 1)
      | _ => (RuneError, 1)
    else if s0 < 0xF5 then
      match t with
      | s1 :: s2 :: s3 :: _ =>
        if (if s0 = 0xF0 then 0x90 else 0x80) ≤ s1 ∧ s1 ≤ (if s0 = 0xF4 then 0x8F else 0xBF)
            ∧ 0x80 ≤ s2 ∧ s2 ≤ 0xBF ∧ 0x80 ≤ s3 ∧ s3 ≤ 0xBF then
          ((s0 % 8) * 262144 + (s1 % 64) * 4096 + (s2 % 64) * 64 + s3 % 64, 4)
        else (RuneError, 1)
      | _ => (RuneError, 1)
    else (RuneError, 1)

/-- Model of `utf8.RuneStart`: the byte is not a continuation byte. -/
def RuneStart (b : Nat) : Bool := b / 64 % 4 != 2

/-- The backward search of `utf8.DecodeLastRuneInString` for the byte that
starts the last rune: `rev` holds the bytes before the last one, nearest
first, and at most three of them are inspected.  The result is how many of
them belong to the candidate, or `none` when the search runs past its limit. -/
def lastRuneStart : Nat → Str → Option Nat
  | 0, _ => none
  | _, [] => none
  | n + 1, b :: rev =>
    if RuneStart b then some 1 else (lastRuneStart n rev).map (· + 1)

/-- Model of `utf8.DecodeLastRuneInString`: the last rune of `s` and its
width. -/
def DecodeLastRuneInString (s : Str) : Nat × Nat :=
  match s.reverse with
  | [] => (RuneError, 0)
  | l :: rev =>
    if l < 0x80 then (l, 1)
    else
      match lastRuneStart 3 rev with
      | none => (RuneError, 1)
      | some j =>
        let cand := (l :: rev.take j).reverse
        if (DecodeRuneInString cand).2 = cand.length then DecodeRuneInString cand
        else (RuneError, 1)

/-- Model of `utf8.AppendRune` on the empty buffer: the UTF-8 encoding of a
rune; surrogates and values above U+10FFFF are encoded as U+FFFD. -/
def EncodeRune (r : Nat) : Str :=
  if r ≤ 0x7F then [r]
  else if r ≤ 0x7FF then [0xC0 + r / 64, 0x80 + r % 64]
  else if r > 0x10FFFF ∨ (0xD800 ≤ r ∧ r ≤ 0xDFFF) then [0xEF, 0xBF, 0xBD]
  else if r ≤ 0xFFFF then [0xE0 + r / 4096, 0x80 + r / 64 % 64, 0x80 + r % 64]
  else [0xF0 + r / 262144, 0x80 + r / 4096 % 64, 0x80 + r / 64 % 64, 0x80 + r % 64]

/-- The table `asciiSpace` of package `strings`: tab, line feed, vertical tab,
form feed, carriage return, space. -/
def asciiSpace (c : Nat) : Bool :=
  c == 9 || c == 10 || c == 11 || c == 12 || c == 13 || c == 32

/-- Model of `unicode.IsSpace`: the white-space runes of Unicode. -/
def IsSpace (r : Nat) : Bool :=
  asciiSpace r || r == 0x85 || r == 0xA0 || r == 0x1680 || (0x2000 ≤ r && r ≤ 0x200A)
    || r == 0x2028 || r == 0x2029 || r == 0x202F || r == 0x205F || r == 0x3000

/-- The case mappings of package `unicode` above ASCII (`unicode.To`), which
the embedding takes as given. -/
structure CaseTable where
  upper : Nat → Nat
  lower : Nat → Nat

/-- Model of `unicode.ToUpper`. -/
def unicodeToUpper (T : CaseTable) (r : Nat) : Nat :=
  if r ≤ 0x7F then (if 97 ≤ r ∧ r ≤ 122 then r - 32 else r) else T.upper r

/-- Model of `unicode.ToLower`. -/
def unicodeToLower (T : CaseTable) (r : Nat) : Nat :=
  if r ≤ 0x7F then (if 65 ≤ r ∧ r ≤ 90 then r + 32 else r) else T.lower r

/-! ## `strings` -/

/-- The runes of `for _, r := range s`, each byte that starts no valid encoding
counting as `RuneError`.  The first argument is the number of bytes still
belonging to the rune just read. -/
def runesFrom : Nat → Str → List Nat
  | _, [] => []
  | skip + 1, _ :: t => runesFrom skip t
  | 0, c :: t =>
    (DecodeRuneInString (c :: t)).1 :: runesFrom ((DecodeRuneInString (c :: t)).2 - 1) t

/-- Model of `strings.Map`: every rune is mapped and encoded again, so a byte
that is not valid UTF-8 comes out as U+FFFD. -/
def Map (f : Nat → Nat) (s : Str) : Str :=
  ((runesFrom 0 s).map (fun r => EncodeRune (f r))).flatten

/-- Model of `strings.ToUpper`. -/
def ToUpper (T : CaseTable) (s : Str) : Str :=
  if s.all (fun c => c < 0x80) then s.map (fun c => if 97 ≤ c ∧ c ≤ 122 then c - 32 else c)
  else Map (unicodeToUpper T) s

/-- Model of `strings.ToLower`. -/
def ToLower (T : CaseTable) (s : Str) : Str :=
  if s.all (fun c => c < 0x80) then s.map (fun c => if 65 ≤ c ∧ c ≤ 90 then c + 32 else c)
  else Map (unicodeToLower T) s

/-- Model of `strings.TrimLeftFunc(s, unicode.IsSpace)`. -/
def trimLeftSpace : Nat → Str → Str
  | _, [] => []
  | skip + 1, _ :: t => trimLeftSpace skip t
  | 0, c :: t =>
    if IsSpace (DecodeRuneInString (c :: t)).1 then
      trimLeftSpace ((DecodeRuneInString (c :: t)).2 - 1) t
    else c :: t

/-- The loop of `lastIndexFunc` inside `strings.TrimRightFunc(s, unicode.IsSpace)`:
`rev` is the prefix still to inspect, last byte first.  On the last rune that
is not white space the result is `s` cut after that rune. -/
def trimRightLoop (s : Str) : Nat → Str → Str
  | _, [] => []
  | skip + 1, _ :: rev => trimRightLoop s skip rev
  | 0, c :: rev =>
    let d := DecodeLastRuneInString (c :: rev).reverse
    if IsSpace d.1 then trimRightLoop s (d.2 - 1) rev
    else
      let i := (c :: rev).length - d.2
      if s.getD i 0 ≥ 0x80 then s.take (i + (DecodeRuneInString (s.drop i)).2)
      else s.take (i + 1)

/-- Model of `strings.TrimRightFunc(s, unicode.IsSpace)`. -/
def trimRightSpace (s : Str) : Str := trimRightLoop s 0 s.reverse

/-- Second loop of `strings.TrimSpace`: drop ASCII white space from the end of
`s`, handing over to `TrimRightFunc` at the first byte that is not ASCII.
`rev` is what is left of `s`, last byte first. -/
def trimSpaceRight : Str → Str
  | [] => []
  | c :: rev =>
    if c ≥ 0x80 then trimRightSpace (c :: rev).reverse
    else if asciiSpace c then trimSpaceRight rev
    else (c :: rev).reverse

/-- First loop of `strings.TrimSpace`: drop ASCII white space from the start,
handing over to `TrimFunc` at the first byte that is not ASCII. -/
def TrimSpace : Str → Str
  | [] => []
  | c :: t =>
    if c ≥ 0x80 then trimRightSpace (trimLeftSpace 0 (c :: t))
    else if asciiSpace c then TrimSpace t
    else trimSpaceRight (c :: t).reverse

/-- Model of `strings.Split(s, sep)` for a separator of one byte. -/
def Split (s : Str) (sep : Nat) : List Str :=
  match s with
  | [] => [[]]
  | c :: t =>
    if c = sep then [] :: Split t sep
    else
      match Split t sep with
      | [] => [[c]]
      | h :: r => (c :: h) :: r

/-- Model of `strings.HasPrefix`. -/
def HasPrefix (s pre : Str) : Bool := pre.isPrefixOf s

/-- The loop of `strings.FieldsFunc(s, unicode.IsSpace)`: `cur` is the field
being read, if any, last byte first. -/
def fieldsLoop : Nat → Option Str → Str → List Str
  | _, none, [] => []
  | _, some w, [] => [w.reverse]
  | skip + 1, cur, c :: t => fieldsLoop skip (cur.map (c :: ·)) t
  | 0, cur, c :: t =>
    if IsSpace (DecodeRuneInString (c :: t)).1 then
      match cur with
      | some w => w.reverse :: fieldsLoop ((DecodeRuneInString (c :: t)).2 - 1) none t
      | none => fieldsLoop ((DecodeRuneInString (c :: t)).2 - 1) none t
    else
      fieldsLoop ((DecodeRuneInString (c :: t)).2 - 1) (some (c :: cur.getD [])) t

/-- Model of `strings.Fields`. -/
def Fields (s : Str) : List Str := fieldsLoop 0 none s

/-- Model of `strings.Join`. -/
def Join (parts : List Str) (sep : Str) : Str := sep.intercalate parts

/-! ## `fmt` -/

/-- Decimal text of a natural number. -/
def formatNat (n : Nat) : Str := (Nat.toDigits 10 n).map Char.toNat

/-- Model of `fmt.Sprintf("%v", n)` for an integer: decimal digits, with a
leading minus sign for a negative number. -/
def formatInt : Int → Str
  | .ofNat n => formatNat n
  | .negSucc n => 45 :: formatNat (n + 1)

/-- Model of `fmt.Sprintf("%v", b)` for a boolean. -/
def formatBool (b : Bool) : Str := if b then bytes "true" else bytes "false"

/-! ## The program: `template.go` -/

/-- Model of `type FilterFunc func(input string) string`: what a call of the
function gives on each input; `none` is a call that panics, as every call of
the nil function value does. -/
abbrev FilterFunc := Str → Option Str

/-- A Go function that returns on every input, as a `FilterFunc`. -/
def returning (f : Str → Str) : FilterFunc := fun s => some (f s)

/-- Model of `type engine struct`: the map from filter name to function. -/
structure engine where
  filters : Str → Option FilterFunc

/-- Model of `type filter struct`. -/
structure filter where
  name : Str
  args : Str
deriving DecidableEq, Repr

/-- Model of `type placeholderDef struct`. -/
structure placeholderDef where
  keyIndex : Nat
  filterRawIndex : Nat

/-- Model of `placeholderGroups`. -/
def placeholderGroups : List placeholderDef :=
  [⟨1, 2⟩, ⟨4, 5⟩, ⟨7, 8⟩, ⟨10, 11⟩, ⟨13, 14⟩]

/-- A value of type `interface{}` as `lookupValue` can tell values apart: a
string, a `fmt.Stringer` (given by what its `String` method returns, `none`
when the call panics, as on a nil `*strings.Builder`), an `int`, an `int64`, a
`float64` (given by the text `%v` prints for it), a `bool`, a
`map[string]interface{}` (its entries; the first entry of a key is the
binding), an integer of another integer type (`int8`, `int16`, `int32`,
`uint`, `uint8`, `uint16`, `uint32`, `uint64`, `uintptr`) that is no
`fmt.Stringer`, or anything else (nil, slices, other types). -/
inductive Value where
  | str (s : Str)
  | stringer (text : Option Str)
  | int (n : Int)
  | int64 (n : Int)
  | float64 (text : Str)
  | bool (b : Bool)
  | map (entries : List (Str × Value))
  | otherInt (n : Int)
  | other

/-- Model of `map[string]interface{}`. -/
abbrev Data := List (Str × Value)

/-- The index expression `m[part]` with its `ok` result. -/
def mapGet : Data → Str → Option Value
  | [], _ => none
  | (k, v) :: rest, key => if k = key then some v else mapGet rest key

/-- The loop of `lookupValue` over the path segments; `none` stands for the
early `return ""`. -/
def lookupLoop : List Str → Value → Option Value
  | [], current => some current
  | part :: parts, current =>
    match current with
    | .map m =>
      match mapGet m part with
      | some v => lookupLoop parts v
      | none => none
    | _ => none

/-- The type switch of `lookupValue`; `none` is a panic inside the call
`v.String()`. -/
def stringify : Value → Option Str
  | .str v => some v
  | .stringer text => text
  | .int n => some (formatInt n)
  | .int64 n => some (formatInt n)
  | .float64 text => some text
  | .bool b => some (formatBool b)
  | _ => some []

/-- Model of `lookupValue`; `none` is a panic inside a `String` method. -/
def lookupValue (data : Data) (path : Str) : Option Str :=
  match lookupLoop (Split path 46) (.map data) with
  | some current => stringify current
  | none => some []

/-- The slice expression `arg[1 : len(arg)-1]` guarded as in `parseFilterChain`. -/
def stripQuotes (arg : Str) : Str :=
  if arg.length ≥ 2 then
    if (arg.head? = some 34 ∧ arg.getLast? = some 34)
        ∨ (arg.head? = some 39 ∧ arg.getLast? = some 39) then
      (arg.take (arg.length - 1)).drop 1
    else arg
  else arg

/-- The loop of `parseFilterChain` over the parts. -/
def parseParts : List Str → List filter
  | [] => []
  | part :: parts =>
    if TrimSpace part = [] then parseParts parts
    else if HasPrefix (TrimSpace part) (bytes "default:") then
      ⟨bytes "default", stripQuotes (TrimSpace ((TrimSpace part).drop 8))⟩ :: parseParts parts
    else ⟨TrimSpace part, []⟩ :: parseParts parts

/-- Model of `parseFilterChain`. -/
def parseFilterChain (raw : Str) : List filter :=
  if raw = [] then [] else parseParts (Split raw 124)

/-- Model of `(*engine).AddFilter`. -/
def engine.AddFilter (e : engine) (name : Str) (fn : FilterFunc) : engine :=
  ⟨fun n => if n = name then some fn else e.filters n⟩

/-- The index expression `e.filters[name]` with one result: the function
registered, or the nil function value, every call of which panics. -/
def engine.get (e : engine) (name : Str) : FilterFunc :=
  match e.filters name with
  | some fn => fn
  | none => fun _ => none

/-- The conversion `string(b)` of a byte: the encoding of the rune with that
value. -/
def byteToString (b : Nat) : Str := EncodeRune b

/-- The closure `capitalize` of `NewTemplateEngine`. -/
def capitalize (T : CaseTable) (input : Str) : Str :=
  match input with
  | [] => []
  | c :: t => ToUpper T (byteToString c) ++ t

/-- The closure registered as `title`. -/
def title (T : CaseTable) (s : Str) : Str :=
  Join ((Fields s).map (fun w =>
    match w with
    | [] => []
    | c :: t => ToUpper T (byteToString c) ++ t)) (bytes " ")

/-- The closure registered as `sentencecase`. -/
def sentencecase (T : CaseTable) (s : Str) : Str :=
  if TrimSpace s = [] then []
  else ToUpper T ((TrimSpace s).take 1) ++ ToLower T ((TrimSpace s).drop 1)

/-- Model of `NewTemplateEngine`. -/
def NewTemplateEngine (T : CaseTable) : engine :=
  let e : engine := ⟨fun _ => none⟩
  let e := e.AddFilter (bytes "uppercase") (returning (ToUpper T))
  let e := e.AddFilter (bytes "lowercase") (returning (ToLower T))
  let e := e.AddFilter (bytes "trim") (returning TrimSpace)
  let e := e.AddFilter (bytes "capitalize") (returning (capitalize T))
  let e := e.AddFilter (bytes "title") (returning (title T))
  let e := e.AddFilter (bytes "titlecase") (e.get (bytes "title"))
  let e := e.AddFilter (bytes "sentencecase") (returning (sentencecase T))
  let e := e.AddFilter (bytes "sentence") (e.get (bytes "sentencecase"))
  e

/-- The slice expression `s[a:b]`; `none` is the run-time panic for bounds
out of range. -/
def slice (s : Str) (a b : Int) : Option Str :=
  if 0 ≤ a ∧ a ≤ b ∧ b ≤ (s.length : Int) then some ((s.take b.toNat).drop a.toNat) else none

/-- The loop of `Render` over `placeholderGroups`: the key and the raw filter
text of the first group pair that took part in the match `m`; `none` is an
index or slice panic. -/
def pickGroups (tpl : Str) (m : List Int) : List placeholderDef → Option (Str × Str)
  | [] => some ([], [])
  | d :: ds =>
    let ki := d.keyIndex * 2
    let fi := d.filterRawIndex * 2
    if ki < m.length then
      match m[ki]? with
      | none => none
      | some a =>
        if a ≠ -1 then
          match m[ki + 1]? with
          | none => none
          | some b =>
            if b ≠ -1 then
              match slice tpl a b with
              | none => none
              | some key =>
                if fi < m.length then
                  match m[fi]? with
                  | none => none
                  | some c =>
                    if c ≠ -1 then
                      match m[fi + 1]? with
                      | none => none
                      | some d =>
                        if d ≠ -1 ∧ c < d then (slice tpl c d).map (fun raw => (key, raw))
                        else some (key, [])
                    else some (key, [])
                else some (key, [])
            else pickGroups tpl m ds
        else pickGroups tpl m ds
    else pickGroups tpl m ds

/-- One step of the filter loop of `Render`; `none` is a panic in the call
`fn(val)`. -/
def applyFilter (e : engine) (val : Str) (f : filter) : Option Str :=
  if f.name = bytes "default" ∧ val = [] then some f.args
  else
    match e.filters f.name with
    | some fn => fn val
    | none => some val

/-- The filter loop of `Render`: the invocations in order, up to the first
call that panics. -/
def applyChain (e : engine) : List filter → Str → Option Str
  | [], val => some val
  | f :: fs, val =>
    match applyFilter e val f with
    | some v => applyChain e fs v
    | none => none

/-- The value of one occurrence: `lookupValue`, then the parsed chain; `none`
is a panic in a `String` method or in a filter. -/
def occurrenceValue (e : engine) (data : Data) (key rawFilters : Str) : Option Str :=
  match lookupValue data key with
  | some v => applyChain e (parseFilterChain rawFilters) v
  | none => none

/-- The loop of `Render` over the matches, with the builder `b` and the offset
`last`; the result is the final `b.String()`, or `none` for a panic. -/
def renderLoop (e : engine) (tpl : Str) (data : Data) :
    List (List Int) → Int → Str → Option Str
  | [], last, b => (slice tpl last tpl.length).map (fun tail => b ++ tail)
  | m :: ms, last, b =>
    match m[0]?, m[1]? with
    | some start, some stop =>
      match slice tpl last start with
      | none => none
      | some gap =>
        match pickGroups tpl m placeholderGroups with
        | none => none
        | some (key, rawFilters) =>
          match occurrenceValue e data key rawFilters with
          | none => none
          | some val =>
            if val ≠ [] then renderLoop e tpl data ms stop (b ++ gap ++ val)
            else
              match slice tpl start stop with
              | none => none
              | some src => renderLoop e tpl data ms stop (b ++ gap ++ src)
    | _, _ => none

/-- Model of `(*engine).Render`.  The error result is `nil` on every path and
is left out; `none` stands for a run-time panic. -/
def engine.Render (e : engine) (tpl : Str) (data : Data) : Option Str :=
  match FindAllStringSubmatchIndex placeholderPattern tpl with
  | [] => some tpl
  | m :: ms => renderLoop e tpl data (m :: ms) 0 []

/-- Model of `RenderTemplate`; `none` stands for a run-time panic. -/
def RenderTemplate (T : CaseTable) (tpl : Str) (data : Data) : Option Str :=
  (NewTemplateEngine T).Render tpl data

/-! ## Specification vocabulary -/

/-- Declarative reading of the matcher: `Sem r a b` says that `r` can take the
attempt from state `a` to state `b`. -/
inductive Sem : Regex → MState → MState → Prop
  | eps (a : MState) : Sem .eps a a
  | cls (p : Nat → Bool) (pos c : Nat) (cs : Str) (caps : List Int) (h : p c = true) :
      Sem (.cls p) ⟨pos, c :: cs, caps⟩ ⟨pos + 1, cs, caps⟩
  | seq {r s : Regex} {a b c : MState} : Sem r a b → Sem s b c → Sem (.seq r s) a c
  | altL {r : Regex} (s : Regex) {a b : MState} : Sem r a b → Sem (.alt r s) a b
  | altR (r : Regex) {s : Regex} {a b : MState} : Sem s a b → Sem (.alt r s) a b
  | starNil (r : Regex) (a : MState) : Sem (.star r) a a
  | starCons {r : Regex} {a b c : MState} :
      Sem r a b → a.pos < b.pos → Sem (.star r) b c → Sem (.star r) a c
  | cap {r : Regex} (i : Nat) {a b : MState} : Sem r a b →
      Sem (.cap i r) a ⟨b.pos, b.rest, (b.caps.set (2 * i) (a.pos : Int)).set (2 * i + 1) (b.pos : Int)⟩

/-- The slot array of a match over an input of `n` bytes is well formed: it has
`numSlots` entries, and every group's pair of slots is either unset or a span
inside the input. -/
def SlotsOK (n : Nat) (caps : List Int) : Prop :=
  caps.length = numSlots ∧
  ∀ j a b, caps[2 * j]? = some a → caps[2 * j + 1]? = some b →
    (a = -1 ∧ b = -1) ∨ (0 ≤ a ∧ a ≤ b ∧ b ≤ (n : Int))

/-- The matches `ms` over an input of `n` bytes come in order without overlap,
the first one starting at or after `last`, each inside the input and with well
formed slots. -/
inductive Ordered (n : Nat) : Nat → List (List Int) → Prop
  | nil (last : Nat) : last ≤ n → Ordered n last []
  | cons (last s e : Nat) (m : List Int) (ms : List (List Int)) :
      m[0]? = some (s : Int) → m[1]? = some (e : Int) → last ≤ s → s ≤ e → e ≤ n →
      SlotsOK n m → Ordered n e ms → Ordered n last (m :: ms)

/-- The opening bytes: `{`, `[`, `$`, `<`, `%`. -/
def isOpenerByte (c : Nat) : Bool := c == 123 || c == 91 || c == 36 || c == 60 || c == 37

/-- The mapping that nests `v` under the given segments, outermost first. -/
def nest : List Str → Str → Value
  | [], v => .str v
  | s :: ss, v => .map [(s, nest ss v)]

/-- The value is a `map[string]interface{}`. -/
def Value.isMap : Value → Bool
  | .map _ => true
  | _ => false

/-- The part of one alternative after the key:
`((\s*\|[^STOP]+)*) \s* CLOSE`. -/
def tailRe (g stop : Nat) (closer : Str) : Regex :=
  .seq (.cap (g + 1) (.star (.cap (g + 2)
      (.seq (.star (.cls isReSpace)) (.seq (lit 124) (plus (.cls (fun c => c != stop))))))))
  (.seq (.star (.cls isReSpace))
  (litStr closer))

/-- The five delimiter pairs, in the order of `placeholderVariants`:
`{{ }}`, `[[ ]]`, `${ }`, `<< >>`, `%% %%`. -/
def delimiters : List (Str × Str) :=
  [ ([123, 123], [125, 125]), ([91, 91], [93, 93]), ([36, 123], [125]),
    ([60, 60], [62, 62]), ([37, 37], [37, 37]) ]

/-- The slots of a match of the alternative with groups `g`, `g+1`, `g+2` from
`s` to `e`, with key span `a..b` and filter span `c..d`; `inner` says whether
a filter segment (group `g+2`) took part. -/
def slotsOf (g s e a b d : Nat) (inner : Bool) : List Int :=
  let caps := ((List.replicate numSlots (-1 : Int)).set (2 * g) (a : Int)).set (2 * g + 1) (b : Int)
  let caps := if inner then (caps.set (2 * (g + 2)) (b : Int)).set (2 * (g + 2) + 1) (d : Int)
    else caps
  (((caps.set (2 * (g + 1)) (b : Int)).set (2 * (g + 1) + 1) (d : Int)).set 0 (s : Int)).set 1
    (e : Int)

/-- The parameters of the five lines of `placeholderVariants`: first group
number, opening delimiter, byte excluded from filter text, closing delimiter. -/
def syntaxTable : List (Nat × Str × Nat × Str) :=
  [ (1, [123, 123], 125, [125, 125]), (4, [91, 91], 93, [93, 93]), (7, [36, 123], 125, [125]),
    (10, [60, 60], 62, [62, 62]), (13, [37, 37], 37, [37, 37]) ]

/-- The string is white space only: each of its runes is white space. -/
def isBlank (v : Str) : Bool := (runesFrom 0 v).all IsSpace

/-- The number that a string of decimal digits denotes. -/
def decimalValue (s : Str) : Nat := s.foldl (fun acc c => acc * 10 + (c - 48)) 0

/-- Least number of bytes a match of the expression consumes. -/
def Regex.minLen : Regex → Nat
  | .eps => 0
  | .cls _ => 1
  | .seq r s => r.minLen + s.minLen
  | .alt r s => min r.minLen s.minLen
  | .star _ => 0
  | .cap _ r => r.minLen

/-- The spans of the matches `ms` over an input of `n` bytes are not empty, lie
inside the input and come in order without overlap, the first one starting at
or after `last`. -/
def spansOK (n : Nat) : Int → List (List Int) → Bool
  | last, [] => decide (last ≤ (n : Int))
  | last, m :: ms =>
    match m[0]?, m[1]? with
    | some s, some e => decide (0 ≤ s ∧ last ≤ s ∧ s < e ∧ e ≤ (n : Int)) && spansOK n e ms
    | _, _ => false

/-- The capturing groups of an expression. -/
def Regex.groups : Regex → List Nat
  | .eps => []
  | .cls _ => []
  | .seq r s => r.groups ++ s.groups
  | .alt r s => r.groups ++ s.groups
  | .star r => r.groups
  | .cap i r => i :: r.groups

/-- Every class of the expression lies inside `P`. -/
def Regex.charsIn (P : Nat → Prop) : Regex → Prop
  | .eps => True
  | .cls p => ∀ c, p c = true → P c
  | .seq r s => r.charsIn P ∧ s.charsIn P
  | .alt r s => r.charsIn P ∧ s.charsIn P
  | .star r => r.charsIn P
  | .cap _ r => r.charsIn P

/-- The filter `capitalize` as the specification words it: the first character
(rune) of the input in upper case, followed by the rest of the input; the
empty input gives the empty string. -/
def capitalizeFirstRune (T : CaseTable) (input : Str) : Str :=
  match input with
  | [] => []
  | c :: t =>
    EncodeRune (unicodeToUpper T (DecodeRuneInString (c :: t)).1)
      ++ (c :: t).drop (DecodeRuneInString (c :: t)).2

/-- The argument of a `default:` segment as the specification words it:
everything after the prefix, trimmed; when that is wrapped in one pair of the
same straight quote character (so it is at least two characters long), the
pair is removed. -/
def parsedArgument (seg : Str) : Str :=
  match TrimSpace (seg.drop 8) with
  | [] => []
  | q :: r => if (q = 34 ∨ q = 39) ∧ r.getLast? = some q then r.dropLast else q :: r

/-- The invocation the specification gives for a trimmed segment that is not
empty: the filter `default` with its parsed argument when the segment starts
with `default:`, a bare invocation of the segment as a name otherwise. -/
def invocationOf (seg : Str) : filter :=
  if HasPrefix seg (bytes "default:") then ⟨bytes "default", parsedArgument seg⟩ else ⟨seg, []⟩

/-- The filter chain as the specification words it: the segments of the raw
text between `|`, each trimmed, those that are empty dropped, one invocation
for each of the others in source order. -/
def chainOfSegments (raw : Str) : List filter :=
  (((Split raw 124).map TrimSpace).filter (fun seg => !seg.isEmpty)).map invocationOf

/-- The raw text consists of `|` and white space only. -/
def onlyBarsAndSpace (raw : Str) : Bool := (runesFrom 0 raw).all (fun r => r == 124 || IsSpace r)

/-! ## The matcher: soundness and invariants -/

theorem starLoop_sound (r : Regex) (step : Cont → Cont)
    (hstep : ∀ k st m, step k st = some m → ∃ st', Sem r st st' ∧ k st' = some m) :
    ∀ fuel k st m, starLoop step k fuel st = some m →
      ∃ st', Sem (.star r) st st' ∧ k st' = some m := by
  intro fuel
  induction fuel with
  | zero =>
    intro k st m h
    exact ⟨st, Sem.starNil r st, by simpa [starLoop] using h⟩
  | succ n ih =>
    intro k st m h
    rw [starLoop] at h
    split at h
    · rename_i m' hm'
      obtain ⟨st1, hs1, hk1⟩ := hstep _ _ _ hm'
      by_cases hlt : st.pos < st1.pos
      · simp only [hlt, if_true] at hk1
        obtain ⟨st2, hs2, hk2⟩ := ih k st1 m' hk1
        refine ⟨st2, Sem.starCons hs1 hlt hs2, ?_⟩
        rw [hk2]; exact h
      · simp [hlt] at hk1
    · exact ⟨st, Sem.starNil r st, h⟩

theorem run_sound (r : Regex) : ∀ (k : Cont) (st : MState) (m : List Int),
    r.run k st = some m → ∃ st', Sem r st st' ∧ k st' = some m := by
  induction r with
  | eps => intro k st m h; exact ⟨st, Sem.eps st, by simpa [Regex.run] using h⟩
  | cls p =>
    intro k st m h
    obtain ⟨pos, rest, caps⟩ := st
    cases rest with
    | nil => simp [Regex.run] at h
    | cons c cs =>
      simp only [Regex.run] at h
      by_cases hp : p c = true
      · simp only [hp, if_true] at h
        exact ⟨_, Sem.cls p pos c cs caps hp, h⟩
      · simp [hp] at h
  | seq r s ihr ihs =>
    intro k st m h
    simp only [Regex.run] at h
    obtain ⟨st1, h1, hk1⟩ := ihr _ _ _ h
    obtain ⟨st2, h2, hk2⟩ := ihs _ _ _ hk1
    exact ⟨st2, Sem.seq h1 h2, hk2⟩
  | alt r s ihr ihs =>
    intro k st m h
    simp only [Regex.run] at h
    split at h
    · rename_i m' hm'
      obtain ⟨st1, h1, hk1⟩ := ihr _ _ _ hm'
      exact ⟨st1, Sem.altL s h1, by rw [hk1]; exact h⟩
    · obtain ⟨st1, h1, hk1⟩ := ihs _ _ _ h
      exact ⟨st1, Sem.altR r h1, hk1⟩
  | star r ih =>
    intro k st m h
    simp only [Regex.run] at h
    exact starLoop_sound r r.run ih _ k st m h
  | cap i r ih =>
    intro k st m h
    simp only [Regex.run] at h
    obtain ⟨st1, h1, hk1⟩ := ih _ _ _ h
    exact ⟨_, Sem.cap i h1, hk1⟩

theorem slotsOK_set {n : Nat} {caps : List Int} (i x y : Nat) (hxy : x ≤ y) (hy : y ≤ n)
    (h : SlotsOK n caps) :
    SlotsOK n ((caps.set (2 * i) (x : Int)).set (2 * i + 1) (y : Int)) := by
  obtain ⟨hlen, hp⟩ := h
  refine ⟨by simp [hlen], ?_⟩
  intro j a b ha hb
  by_cases hji : j = i
  · subst hji
    rw [List.getElem?_set] at ha hb
    simp only [List.length_set] at ha hb
    have h1 : ¬ (2 * j + 1 = 2 * j) := by omega
    simp only [h1, if_false, if_true] at ha hb
    rw [List.getElem?_set] at ha
    simp only [if_true] at ha
    split at ha
    · split at hb
      · simp only [Option.some.injEq] at ha hb
        right; omega
      · simp at hb
    · simp at ha
  · rw [List.getElem?_set, List.getElem?_set] at ha hb
    have h1 : ¬ (2 * i + 1 = 2 * j) := by omega
    have h2 : ¬ (2 * i = 2 * j) := by omega
    have h3 : ¬ (2 * i + 1 = 2 * j + 1) := by omega
    have h4 : ¬ (2 * i = 2 * j + 1) := by omega
    simp only [h1, h2, h3, h4, if_false] at ha hb
    exact hp j a b ha hb

theorem slotsOK_replicate (n : Nat) : SlotsOK n (List.replicate numSlots (-1)) := by
  refine ⟨by simp, ?_⟩
  intro j a b ha hb
  left
  rw [List.getElem?_replicate] at ha hb
  split at ha
  · split at hb
    · simp only [Option.some.injEq] at ha hb
      exact ⟨ha.symm, hb.symm⟩
    · simp at hb
  · simp at ha

/-- A step of the matcher consumes a prefix of the input and advances the
offset by its length. -/
theorem Sem.consumes {r : Regex} {a b : MState} (h : Sem r a b) :
    ∃ xs, a.rest = xs ++ b.rest ∧ b.pos = a.pos + xs.length := by
  induction h with
  | eps a => exact ⟨[], by simp⟩
  | cls p pos c cs caps h => exact ⟨[c], by simp⟩
  | seq _ _ ih1 ih2 =>
    obtain ⟨xs, h1, h2⟩ := ih1
    obtain ⟨ys, h3, h4⟩ := ih2
    exact ⟨xs ++ ys, by simp [h1, h3], by simp [h2, h4]; omega⟩
  | altL s _ ih => exact ih
  | altR r _ ih => exact ih
  | starNil r a => exact ⟨[], by simp⟩
  | starCons _ _ _ ih1 ih2 =>
    obtain ⟨xs, h1, h2⟩ := ih1
    obtain ⟨ys, h3, h4⟩ := ih2
    exact ⟨xs ++ ys, by simp [h1, h3], by simp [h2, h4]; omega⟩
  | cap i _ ih => exact ih

theorem Sem.slotsOK {r : Regex} {a b : MState} (h : Sem r a b) (n : Nat)
    (hn : a.pos + a.rest.length = n) (hc : SlotsOK n a.caps) : SlotsOK n b.caps := by
  induction h with
  | eps a => exact hc
  | cls p pos c cs caps h => exact hc
  | seq h1 _ ih1 ih2 =>
    obtain ⟨xs, e1, e2⟩ := h1.consumes
    exact ih2 (by rw [e2]; rw [e1] at hn; simp at hn; omega) (ih1 hn hc)
  | altL s _ ih => exact ih hn hc
  | altR r _ ih => exact ih hn hc
  | starNil r a => exact hc
  | starCons h1 _ _ ih1 ih2 =>
    obtain ⟨xs, e1, e2⟩ := h1.consumes
    exact ih2 (by rw [e2]; rw [e1] at hn; simp at hn; omega) (ih1 hn hc)
  | cap i h1 ih =>
    obtain ⟨xs, e1, e2⟩ := h1.consumes
    exact slotsOK_set i _ _ (by omega) (by rw [e1] at hn; simp at hn; omega) (ih hn hc)

/-- What a successful attempt returns: slots 0 and 1 hold the offsets where the
match starts and ends, the end lies inside the input, and all slots are well
formed. -/
theorem matchAt_spec (re : Regex) (pos : Nat) (rest : Str) (m : List Int)
    (h : matchAt re pos rest = some m) :
    ∃ stop : Nat, m[0]? = some (pos : Int) ∧ m[1]? = some (stop : Int) ∧ pos ≤ stop ∧
      stop ≤ pos + rest.length ∧ SlotsOK (pos + rest.length) m := by
  unfold matchAt at h
  obtain ⟨st', hs, hk⟩ := run_sound re _ _ _ h
  obtain ⟨xs, e1, e2⟩ := hs.consumes
  have hc := hs.slotsOK (pos + rest.length) rfl (slotsOK_replicate _)
  simp only [Option.some.injEq] at hk
  simp only at e1 e2
  have hle : st'.pos ≤ pos + rest.length := by rw [e1, e2]; simp
  have hok : SlotsOK (pos + rest.length) m := by
    rw [← hk]
    have := slotsOK_set 0 pos st'.pos (by omega) hle hc
    simpa using this
  refine ⟨st'.pos, ?_, ?_, by omega, hle, hok⟩
  · rw [← hk]
    rw [List.getElem?_set, List.getElem?_set]
    simp [hc.1, numSlots]
  · rw [← hk]
    rw [List.getElem?_set]
    simp [hc.1, numSlots]

theorem scanFrom_ordered (re : Regex) (n : Nat) : ∀ (rest : Str) (pos resume : Nat),
    pos + rest.length = n → resume ≤ n → Ordered n resume (scanFrom re pos resume rest) := by
  intro rest
  induction rest with
  | nil => intro pos resume _ hr; exact Ordered.nil resume hr
  | cons c cs ih =>
    intro pos resume hn hr
    simp only [List.length_cons] at hn
    rw [scanFrom]
    split
    · exact ih (pos + 1) resume (by omega) hr
    · rename_i hlt
      split
      · rename_i m hm
        obtain ⟨stop, h0, h1, h2, h3, h4⟩ := matchAt_spec re pos (c :: cs) m hm
        simp only [List.length_cons] at h3 h4
        have hn' : pos + (cs.length + 1) = n := by omega
        rw [hn'] at h3 h4
        have hd : (m.getD 1 0).toNat = stop := by
          rw [List.getD_eq_getElem?_getD, h1]; simp
        rw [hd]
        exact Ordered.cons resume pos stop m _ h0 h1 (by omega) h2 h3 h4
          (ih (pos + 1) stop (by omega) h3)
      · exact ih (pos + 1) resume (by omega) hr

theorem slice_nat (s : Str) (a b : Nat) (hab : a ≤ b) (hb : b ≤ s.length) :
    slice s (a : Int) (b : Int) = some ((s.take b).drop a) := by
  unfold slice
  have : (0 : Int) ≤ a ∧ (a : Int) ≤ b ∧ (b : Int) ≤ s.length := by omega
  simp [this]

theorem take_drop_append_drop (s : Str) (a b : Nat) (hab : a ≤ b) :
    (s.take b).drop a ++ s.drop b = s.drop a := by
  have h1 : (s.take b).drop a = (s.drop a).take (b - a) := by
    rw [List.drop_take]
  have h2 : s.drop b = (s.drop a).drop (b - a) := by
    rw [List.drop_drop]; congr 1; omega
  rw [h1, h2, List.take_append_drop]

/-- On well formed slots the group loop of `Render` raises no panic. -/
theorem pickGroups_some (tpl : Str) (m : List Int) (hm : SlotsOK tpl.length m) :
    ∀ ds : List placeholderDef, ∃ kr, pickGroups tpl m ds = some kr := by
  intro ds
  induction ds with
  | nil => exact ⟨_, rfl⟩
  | cons d ds ih =>
    obtain ⟨hlen, hp⟩ := hm
    rw [pickGroups]
    split
    · rename_i hki
      have hki1 : d.keyIndex * 2 + 1 < m.length := by rw [hlen, numSlots] at *; omega
      rw [List.getElem?_eq_getElem hki, List.getElem?_eq_getElem hki1]
      simp only
      split
      · rename_i ha
        split
        · rename_i hb
          have hab := hp d.keyIndex _ _
            (by rw [Nat.mul_comm]; exact List.getElem?_eq_getElem hki)
            (by rw [Nat.mul_comm]; exact List.getElem?_eq_getElem hki1)
          rcases hab with ⟨h1, _⟩ | ⟨h1, h2, h3⟩
          · exact absurd h1 ha
          · have hs : slice tpl m[d.keyIndex * 2] m[d.keyIndex * 2 + 1]
                = some ((tpl.take (m[d.keyIndex * 2 + 1]).toNat).drop (m[d.keyIndex * 2]).toNat) := by
              unfold slice; simp [h1, h2, h3]
            rw [hs]
            simp only
            split
            · rename_i hfi
              have hfi1 : d.filterRawIndex * 2 + 1 < m.length := by rw [hlen, numSlots] at *; omega
              rw [List.getElem?_eq_getElem hfi, List.getElem?_eq_getElem hfi1]
              simp only
              split
              · rename_i hc
                split
                · rename_i hd
                  have hcd := hp d.filterRawIndex _ _
                    (by rw [Nat.mul_comm]; exact List.getElem?_eq_getElem hfi)
                    (by rw [Nat.mul_comm]; exact List.getElem?_eq_getElem hfi1)
                  rcases hcd with ⟨h1, _⟩ | ⟨g1, g2, g3⟩
                  · exact absurd h1 hc
                  · have hs2 : slice tpl m[d.filterRawIndex * 2] m[d.filterRawIndex * 2 + 1]
                        = some ((tpl.take (m[d.filterRawIndex * 2 + 1]).toNat).drop
                            (m[d.filterRawIndex * 2]).toNat) := by
                      unfold slice; simp [g1, g2, g3]
                    rw [hs2]
                    exact ⟨_, rfl⟩
                · exact ⟨_, rfl⟩
              · exact ⟨_, rfl⟩
            · exact ⟨_, rfl⟩
        · exact ih
      · exact ih
    · exact ih

/-- When every occurrence ends with the empty value, the loop of `Render`
copies the input from `last` on. -/
theorem renderLoop_unresolved (e : engine) (tpl : Str) (data : Data) :
    ∀ (ms : List (List Int)) (last : Nat) (b : Str),
      Ordered tpl.length last ms →
      (∀ m ∈ ms, ∀ key raw, pickGroups tpl m placeholderGroups = some (key, raw) →
        occurrenceValue e data key raw = some []) →
      renderLoop e tpl data ms (last : Int) b = some (b ++ tpl.drop last) := by
  intro ms
  induction ms with
  | nil =>
    intro last b ho _
    cases ho with
    | nil _ hl =>
      rw [renderLoop, slice_nat tpl last tpl.length hl (le_refl _)]
      simp
  | cons m ms ih =>
    intro last b ho hv
    cases ho with
    | cons _ s e _ _ h0 h1 hls hse hen hok hrest =>
      obtain ⟨⟨key, raw⟩, hkr⟩ := pickGroups_some tpl m hok placeholderGroups
      have hval := hv m (List.mem_cons_self _ _) key raw hkr
      rw [renderLoop]
      simp only [h0, h1]
      rw [slice_nat tpl last s hls (by omega)]
      simp only [hkr, hval, ne_eq, not_true_eq_false, if_false]
      rw [slice_nat tpl s e hse hen]
      simp only
      rw [ih e _ hrest (fun m' hm' => hv m' (List.mem_cons_of_mem _ hm'))]
      rw [List.append_assoc, List.append_assoc,
        take_drop_append_drop tpl s e hse, take_drop_append_drop tpl last s hls]

theorem findAll_ordered (re : Regex) (tpl : Str) :
    Ordered tpl.length 0 (FindAllStringSubmatchIndex re tpl) :=
  scanFrom_ordered re tpl.length tpl 0 0 (by simp) (Nat.zero_le _)

theorem starLoop_cls_stuck (p : Nat → Bool) (k : Cont) (fuel pos : Nat) (rest : Str)
    (caps : List Int) (h : ∀ c ∈ rest.head?, p c = false) :
    starLoop (Regex.cls p).run k fuel ⟨pos, rest, caps⟩ = k ⟨pos, rest, caps⟩ := by
  cases fuel with
  | zero => rfl
  | succ n =>
    rw [starLoop]
    cases rest with
    | nil => simp [Regex.run]
    | cons c cs =>
      have hc : p c = false := h c (by simp)
      simp [Regex.run, hc]

/-- An attempt fails at once on an input that does not start with the first
byte of one of the five opening delimiters. -/
theorem matchAt_none_of_head (pos c : Nat) (cs : Str)
    (h : c ≠ 123 ∧ c ≠ 91 ∧ c ≠ 36 ∧ c ≠ 60 ∧ c ≠ 37) :
    matchAt placeholderPattern pos (c :: cs) = none := by
  obtain ⟨h1, h2, h3, h4, h5⟩ := h
  simp [matchAt, placeholderPattern, placeholderVariants, joinAlt, variantRe, litStr, lit,
    Regex.run, h1, h2, h3, h4, h5]

theorem matchAt_nil (pos : Nat) : matchAt placeholderPattern pos [] = none := by
  simp [matchAt, placeholderPattern, placeholderVariants, joinAlt, variantRe, litStr, lit,
    Regex.run]

/-- A scan finds nothing when every attempt fails. -/
theorem scanFrom_eq_nil (re : Regex) : ∀ (rest : Str) (pos resume : Nat),
    (∀ i, i < rest.length → matchAt re (pos + i) (rest.drop i) = none) →
    scanFrom re pos resume rest = [] := by
  intro rest
  induction rest with
  | nil => intro pos resume _; rfl
  | cons c cs ih =>
    intro pos resume h
    have h0 := h 0 (by simp)
    simp only [Nat.add_zero, List.drop_zero] at h0
    have hrec : ∀ r, scanFrom re (pos + 1) r cs = [] := fun r =>
      ih (pos + 1) r (fun i hi => by
        have := h (i + 1) (by simp; omega)
        simpa [Nat.add_assoc, Nat.add_comm 1 i] using this)
    rw [scanFrom]
    split
    · exact hrec _
    · rw [h0]; exact hrec _

theorem scanFrom_no_opener (rest : Str) (pos resume : Nat)
    (h : ∀ c ∈ rest, isOpenerByte c = false) :
    scanFrom placeholderPattern pos resume rest = [] := by
  apply scanFrom_eq_nil
  intro i hi
  have hd : rest.drop i = rest[i] :: rest.drop (i + 1) := List.drop_eq_getElem_cons hi
  rw [hd]
  apply matchAt_none_of_head
  have := h rest[i] (List.getElem_mem hi)
  simp only [isOpenerByte, Bool.or_eq_false_iff, beq_eq_false_iff_ne, ne_eq] at this
  tauto

/-- C1.  For every engine, template and data mapping: when the value of every
placeholder occurrence, after lookup and filters, is the empty string, `Render`
returns the template unchanged (each occurrence is emitted as its own matched
source text between the verbatim gaps and tail), and it does not panic. -/
theorem render_unresolved_verbatim (e : engine) (tpl : Str) (data : Data)
    (h : ∀ m ∈ FindAllStringSubmatchIndex placeholderPattern tpl, ∀ key raw,
      pickGroups tpl m placeholderGroups = some (key, raw) →
      occurrenceValue e data key raw = some []) :
    e.Render tpl data = some tpl := by
  unfold engine.Render
  have ho := findAll_ordered placeholderPattern tpl
  split
  · rfl
  · rename_i m ms heq
    rw [heq] at ho h
    have := renderLoop_unresolved e tpl data (m :: ms) 0 [] ho h
    simpa using this

theorem render_of_findAll_nil (e : engine) (tpl : Str) (data : Data)
    (h : FindAllStringSubmatchIndex placeholderPattern tpl = []) :
    e.Render tpl data = some tpl := by
  unfold engine.Render
  rw [h]

/-- C2.  A template in which the matcher finds no occurrence is returned
unchanged by `Render`, for every registry and data mapping; and the matcher
finds no occurrence in a template without any of the bytes `{`, `[`, `$`, `<`,
`%`. -/
theorem render_no_occurrence (e : engine) (tpl : Str) (data : Data) :
    (FindAllStringSubmatchIndex placeholderPattern tpl = [] → e.Render tpl data = some tpl) ∧
    ((∀ c ∈ tpl, c ≠ 123 ∧ c ≠ 91 ∧ c ≠ 36 ∧ c ≠ 60 ∧ c ≠ 37) →
      FindAllStringSubmatchIndex placeholderPattern tpl = [] ∧ e.Render tpl data = some tpl) := by
  refine ⟨render_of_findAll_nil e tpl data, fun h => ?_⟩
  have h0 : FindAllStringSubmatchIndex placeholderPattern tpl = [] := by
    apply scanFrom_no_opener
    intro c hc
    have := h c hc
    simp [isOpenerByte, this]
  exact ⟨h0, render_of_findAll_nil e tpl data h0⟩

/-- Witness for C1: `a {{x}} b` over the empty mapping, with no filter
registered. -/
theorem render_unresolved_verbatim_witness :
    (⟨fun _ => none⟩ : engine).Render (bytes "a \x7b\x7bx\x7d\x7d b") []
      = some (bytes "a \x7b\x7bx\x7d\x7d b") :=
  render_unresolved_verbatim ⟨fun _ => none⟩ (bytes "a \x7b\x7bx\x7d\x7d b") [] (by
    have hf : FindAllStringSubmatchIndex placeholderPattern (bytes "a \x7b\x7bx\x7d\x7d b")
        = [[2, 7, 4, 5, 5, 5, -1, -1, -1, -1, -1, -1, -1, -1, -1, -1, -1, -1, -1, -1, -1, -1,
            -1, -1, -1, -1, -1, -1, -1, -1, -1, -1]] := by decide
    intro m hm key raw hp
    rw [hf] at hm
    simp only [List.mem_singleton] at hm
    subst hm
    have hg : pickGroups (bytes "a \x7b\x7bx\x7d\x7d b")
        [2, 7, 4, 5, 5, 5, -1, -1, -1, -1, -1, -1, -1, -1, -1, -1, -1, -1, -1, -1, -1, -1,
            -1, -1, -1, -1, -1, -1, -1, -1, -1, -1] placeholderGroups = some ([120], []) := by
      decide
    rw [hg] at hp
    simp only [Option.some.injEq, Prod.mk.injEq] at hp
    obtain ⟨rfl, rfl⟩ := hp
    decide)

theorem Split_ne_nil (s : Str) (sep : Nat) : Split s sep ≠ [] := by
  induction s with
  | nil => simp [Split]
  | cons c t ih =>
    rw [Split]
    split
    · simp
    · split <;> simp

theorem Split_append (a b : Str) (sep : Nat) :
    Split (a ++ sep :: b) sep = Split a sep ++ Split b sep := by
  induction a with
  | nil => simp [Split]
  | cons c t ih =>
    rw [List.cons_append, Split, Split, ih]
    by_cases hc : c = sep
    · simp [hc]
    · simp only [hc, if_false]
      cases hs : Split t sep with
      | nil => exact absurd hs (Split_ne_nil t sep)
      | cons h r => simp

theorem Split_no_sep (s : Str) (sep : Nat) (h : sep ∉ s) : Split s sep = [s] := by
  induction s with
  | nil => rfl
  | cons c t ih =>
    have hc : ¬ c = sep := fun e => h (by simp [e])
    have ht : sep ∉ t := fun e => h (by simp [e])
    rw [Split, ih ht]
    simp [hc]

theorem Split_Join (segs : List Str) (sep : Nat) (hne : segs ≠ [])
    (h : ∀ s ∈ segs, sep ∉ s) : Split (Join segs [sep]) sep = segs := by
  induction segs with
  | nil => exact absurd rfl hne
  | cons s ss ih =>
    cases ss with
    | nil =>
      have : Join [s] [sep] = s := by simp [Join, List.intercalate]
      rw [this]
      exact Split_no_sep s sep (h s (by simp))
    | cons s' rest =>
      have hj : Join (s :: s' :: rest) [sep] = s ++ sep :: Join (s' :: rest) [sep] := by
        simp [Join, List.intercalate]
      rw [hj, Split_append, Split_no_sep s sep (h s (by simp)),
        ih (by simp) (fun x hx => h x (List.mem_cons_of_mem _ hx))]
      rfl

theorem parseParts_append (xs ys : List Str) :
    parseParts (xs ++ ys) = parseParts xs ++ parseParts ys := by
  induction xs with
  | nil => rfl
  | cons p ps ih =>
    rw [List.cons_append, parseParts, parseParts, ih]
    split
    · rfl
    · split <;> rfl

theorem TrimSpace_nil : TrimSpace [] = [] := rfl

theorem parseFilterChain_eq (raw : Str) : parseFilterChain raw = parseParts (Split raw 124) := by
  unfold parseFilterChain
  split
  · rename_i h
    subst h
    rfl
  · rfl

theorem lookupLoop_append (pre post : List Str) : ∀ cur : Value,
    lookupLoop (pre ++ post) cur = (lookupLoop pre cur).bind (lookupLoop post) := by
  induction pre with
  | nil => intro cur; rfl
  | cons p ps ih =>
    intro cur
    cases cur with
    | map m =>
      simp only [List.cons_append, lookupLoop]
      cases mapGet m p with
      | none => rfl
      | some v => exact ih v
    | _ => simp [lookupLoop]

theorem lookupLoop_nest (ss : List Str) (v : Str) :
    lookupLoop ss (nest ss v) = some (.str v) := by
  induction ss with
  | nil => rfl
  | cons s ss ih => simp [lookupLoop, nest, mapGet, ih]

theorem applyChain_append (e : engine) (xs ys : List filter) : ∀ v : Str,
    applyChain e (xs ++ ys) v = (applyChain e xs v).bind (applyChain e ys) := by
  induction xs with
  | nil => intro v; rfl
  | cons f fs ih =>
    intro v
    rw [List.cons_append, applyChain, applyChain]
    cases applyFilter e v f with
    | none => rfl
    | some w => exact ih w

/-- C5.  Filter order is preserved from source text to application: the chain
of `a|b` is the chain of `a` followed by the chain of `b`, and applying it to
a value is applying the chain of `a` and then, when no call has panicked, the
chain of `b` to its result, for every registry; with the built-in filters,
` | default:'Friend' | uppercase` turns the empty value into `FRIEND`. -/
theorem filter_order_preserved (e : engine) (v a b : Str) :
    parseFilterChain (a ++ bytes "|" ++ b) = parseFilterChain a ++ parseFilterChain b ∧
    applyChain e (parseFilterChain (a ++ bytes "|" ++ b)) v
      = (applyChain e (parseFilterChain a) v).bind (applyChain e (parseFilterChain b)) ∧
    (∀ T : CaseTable,
      applyChain (NewTemplateEngine T) (parseFilterChain (bytes " | default:'Friend' | uppercase"))
        [] = some (bytes "FRIEND")) := by
  have h : parseFilterChain (a ++ bytes "|" ++ b) = parseFilterChain a ++ parseFilterChain b := by
    have hb : bytes "|" = [124] := by decide
    rw [hb, List.append_assoc, List.singleton_append, parseFilterChain_eq, parseFilterChain_eq,
      parseFilterChain_eq, Split_append, parseParts_append]
  refine ⟨h, ?_, fun T => rfl⟩
  rw [h]
  exact applyChain_append e _ _ v

/-- C9.  Nested key paths resolve through mappings of any depth: on the mapping
that nests the string `v` under the segments `s, ss...` (none containing a
dot), `lookupValue` with the dotted path returns `v`. -/
theorem lookupValue_nested (s : Str) (ss : List Str) (v : Str)
    (h : ∀ x ∈ s :: ss, 46 ∉ x) :
    lookupValue [(s, nest ss v)] (Join (s :: ss) (bytes ".")) = some v := by
  have hb : bytes "." = [46] := by decide
  unfold lookupValue
  rw [hb, Split_Join (s :: ss) 46 (by simp) h]
  have := lookupLoop_nest (s :: ss) v
  rw [nest] at this
  rw [this]
  rfl

/-- Witness for C9: the path `user.name.first` of the repository's test
`nested_key`, and the rendering of that test. -/
theorem lookupValue_nested_witness :
    lookupValue [(bytes "user", nest [bytes "name", bytes "first"] (bytes "Alice"))]
      (Join [bytes "user", bytes "name", bytes "first"] (bytes ".")) = some (bytes "Alice") ∧
    (⟨fun _ => none⟩ : engine).Render (bytes "First name: \x7b\x7buser.name.first\x7d\x7d")
        [(bytes "user", nest [bytes "name", bytes "first"] (bytes "Alice"))]
      = some (bytes "First name: Alice") :=
  ⟨lookupValue_nested (bytes "user") [bytes "name", bytes "first"] (bytes "Alice") (by decide),
    by decide⟩

/-- C10.  Resolution failure at any depth yields the empty string: if the
segments of the path split as `pre ++ seg :: post`, the segments `pre` lead to
a value `cur`, and `cur` is not a mapping or is a mapping without `seg`, then
`lookupValue` returns the empty string; and so it does when the whole path
leads to a mapping or to a value of an unsupported type (a sequence, nil). -/
theorem lookupValue_failure (data : Data) (path : Str) :
    (∀ pre seg post cur, Split path 46 = pre ++ seg :: post →
      lookupLoop pre (.map data) = some cur →
      (cur.isMap = false ∨ ∃ m, cur = .map m ∧ mapGet m seg = none) →
      lookupValue data path = some []) ∧
    (∀ t, lookupLoop (Split path 46) (.map data) = some t →
      (t.isMap = true ∨ t = .other) → lookupValue data path = some []) := by
  constructor
  · intro pre seg post cur hs hpre hcur
    unfold lookupValue
    rw [hs, lookupLoop_append, hpre]
    show (match lookupLoop (seg :: post) cur with
      | some current => stringify current
      | none => some []) = some []
    rcases hcur with hnm | ⟨m, rfl, hm⟩
    · cases cur <;> simp_all [Value.isMap, lookupLoop]
    · simp [lookupLoop, hm]
  · intro t ht hty
    unfold lookupValue
    rw [ht]
    rcases hty with hm | rfl
    · cases t <;> simp_all [Value.isMap, stringify]
    · rfl

theorem run_cls_cons (p : Nat → Bool) (k : Cont) (pos c : Nat) (cs : Str) (caps : List Int) :
    (Regex.cls p).run k ⟨pos, c :: cs, caps⟩
      = if p c = true then k ⟨pos + 1, cs, caps⟩ else none := by
  simp [Regex.run]

theorem run_cls_nil (p : Nat → Bool) (k : Cont) (pos : Nat) (caps : List Int) :
    (Regex.cls p).run k ⟨pos, [], caps⟩ = none := by
  simp [Regex.run]

theorem run_seq (r s : Regex) (k : Cont) (st : MState) :
    (Regex.seq r s).run k st = r.run (s.run k) st := by
  simp [Regex.run]

theorem run_litStr (xs : Str) : ∀ (k : Cont) (pos : Nat) (rest : Str) (caps : List Int),
    (litStr xs).run k ⟨pos, xs ++ rest, caps⟩ = k ⟨pos + xs.length, rest, caps⟩ := by
  induction xs with
  | nil => intro k pos rest caps; simp [litStr, Regex.run]
  | cons b bs ih =>
    intro k pos rest caps
    rw [litStr, run_seq, lit, List.cons_append, run_cls_cons]
    simp only [beq_self_eq_true, if_true]
    rw [ih]
    simp only [List.length_cons]
    congr 2
    omega

theorem run_litStr_none (xs : Str) : ∀ (k : Cont) (pos : Nat) (rest : Str) (caps : List Int),
    ¬ xs <+: rest → (litStr xs).run k ⟨pos, rest, caps⟩ = none := by
  induction xs with
  | nil => intro k pos rest caps h; exact absurd (List.nil_prefix) h
  | cons b bs ih =>
    intro k pos rest caps h
    cases rest with
    | nil => simp [litStr, lit, Regex.run]
    | cons c cs =>
      by_cases hcb : c = b
      · subst hcb
        have h' : ¬ bs <+: cs := fun hp => h ((List.prefix_cons_inj c).mpr hp)
        rw [litStr, run_seq, lit, run_cls_cons]
        simp only [beq_self_eq_true, if_true]
        exact ih _ _ _ _ h'
      · simp [litStr, lit, Regex.run, hcb]

/-- Zero rounds: a repetition of a class stops at once on a byte outside the
class. -/
theorem run_star_cls_stuck (p : Nat → Bool) (k : Cont) (pos : Nat) (rest : Str)
    (caps : List Int) (h : ∀ c ∈ rest.head?, p c = false) :
    (Regex.star (.cls p)).run k ⟨pos, rest, caps⟩ = k ⟨pos, rest, caps⟩ := by
  rw [Regex.run]
  exact starLoop_cls_stuck p k _ pos rest caps h

theorem starLoop_cls_greedy (p : Nat → Bool) (k : Cont) (rest : Str) (caps : List Int)
    (m : List Int) (hrest : ∀ c ∈ rest.head?, p c = false) :
    ∀ (xs : Str) (fuel pos : Nat), xs.length < fuel → (∀ x ∈ xs, p x = true) →
      k ⟨pos + xs.length, rest, caps⟩ = some m →
      starLoop (Regex.cls p).run k fuel ⟨pos, xs ++ rest, caps⟩ = some m := by
  intro xs
  induction xs with
  | nil =>
    intro fuel pos _ _ hk
    rw [List.nil_append, starLoop_cls_stuck p k fuel pos rest caps hrest]
    simpa using hk
  | cons x xs ih =>
    intro fuel pos hf hx hk
    cases fuel with
    | zero => simp at hf
    | succ n =>
      have hpx : p x = true := hx x (by simp)
      have := ih n (pos + 1) (by simp at hf; omega) (fun y hy => hx y (by simp [hy]))
        (by rw [← hk]; simp only [List.length_cons]; congr 2; omega)
      rw [starLoop, List.cons_append, run_cls_cons]
      simp only [hpx, if_true, Nat.lt_succ_self]
      rw [this]

/-- The greedy path: a repetition of a class takes the whole run of bytes of
the class when what follows then succeeds. -/
theorem run_star_cls_greedy (p : Nat → Bool) (k : Cont) (xs rest : Str) (pos : Nat)
    (caps : List Int) (m : List Int) (hxs : ∀ x ∈ xs, p x = true)
    (hrest : ∀ c ∈ rest.head?, p c = false)
    (hk : k ⟨pos + xs.length, rest, caps⟩ = some m) :
    (Regex.star (.cls p)).run k ⟨pos, xs ++ rest, caps⟩ = some m := by
  rw [Regex.run]
  exact starLoop_cls_greedy p k rest caps m hrest xs _ pos (by simp; omega) hxs hk

theorem starLoop_cls_none (p : Nat → Bool) (k : Cont) (r0 : Str) (caps : List Int)
    (R : Str → Prop) (hk : ∀ pos rest, R rest → k ⟨pos, rest, caps⟩ = none)
    (hr0 : ∀ c ∈ r0.head?, p c = false) :
    ∀ (xs : Str) (fuel pos : Nat), (∀ ys zs, xs = ys ++ zs → R (zs ++ r0)) →
      starLoop (Regex.cls p).run k fuel ⟨pos, xs ++ r0, caps⟩ = none := by
  intro xs
  induction xs with
  | nil =>
    intro fuel pos hR
    rw [List.nil_append, starLoop_cls_stuck p k fuel pos r0 caps hr0]
    exact hk pos r0 (by simpa using hR [] [] rfl)
  | cons x xs ih =>
    intro fuel pos hR
    have h0 : k ⟨pos, x :: xs ++ r0, caps⟩ = none := hk pos _ (hR [] (x :: xs) rfl)
    cases fuel with
    | zero => exact h0
    | succ n =>
      rw [starLoop, List.cons_append, run_cls_cons]
      by_cases hpx : p x = true
      · simp only [hpx, if_true, Nat.lt_succ_self]
        rw [ih n (pos + 1) (fun ys zs e => hR (x :: ys) zs (by simp [e]))]
        exact h0
      · simp only [hpx]
        exact h0

/-- Every way of splitting a run of bytes of a class fails when what follows
fails after each of them. -/
theorem run_star_cls_none (p : Nat → Bool) (k : Cont) (xs r0 : Str) (pos : Nat)
    (caps : List Int) (R : Str → Prop) (hk : ∀ pos rest, R rest → k ⟨pos, rest, caps⟩ = none)
    (hr0 : ∀ c ∈ r0.head?, p c = false) (hR : ∀ ys zs, xs = ys ++ zs → R (zs ++ r0)) :
    (Regex.star (.cls p)).run k ⟨pos, xs ++ r0, caps⟩ = none := by
  rw [Regex.run]
  exact starLoop_cls_none p k r0 caps R hk hr0 xs _ pos hR

/-- A repetition whose body fails outright makes no round. -/
theorem run_star_stuck (r : Regex) (k : Cont) (st : MState)
    (h : ∀ K : Cont, r.run K st = none) : (Regex.star r).run k st = k st := by
  rw [Regex.run, starLoop, h]

theorem variantRe_eq (g : Nat) (opener : Str) (stop : Nat) (closer : Str) :
    variantRe g opener stop closer
      = .seq (litStr opener) (.seq (.star (.cls isReSpace))
          (.seq (.cap g (plus (.cls isKeyChar))) (tailRe g stop closer))) := rfl

theorem run_cap (i : Nat) (r : Regex) (k : Cont) (st : MState) :
    (Regex.cap i r).run k st = r.run (fun st' => k ⟨st'.pos, st'.rest,
      (st'.caps.set (2 * i) (st.pos : Int)).set (2 * i + 1) (st'.pos : Int)⟩) st := by
  simp [Regex.run]

theorem starLoop_stuck (step : Cont → Cont) (k : Cont) (fuel : Nat) (st : MState)
    (h : ∀ K : Cont, step K st = none) : starLoop step k fuel st = k st := by
  cases fuel with
  | zero => rfl
  | succ n => rw [starLoop, h]

theorem isKeyChar_not_space {c : Nat} (h : isKeyChar c = true) : isReSpace c = false := by
  simp only [isKeyChar, isWord, Bool.or_eq_true, Bool.and_eq_true, decide_eq_true_eq,
    beq_iff_eq] at h
  simp only [isReSpace, Bool.or_eq_false_iff, beq_eq_false_iff_ne, ne_eq]
  omega

theorem isKeyChar_ne {c : Nat} (h : isKeyChar c = true) :
    c ≠ 124 ∧ c ≠ 123 ∧ c ≠ 91 ∧ c ≠ 36 ∧ c ≠ 60 ∧ c ≠ 37 ∧ c ≠ 125 ∧ c ≠ 93 ∧ c ≠ 62 := by
  simp only [isKeyChar, isWord, Bool.or_eq_true, Bool.and_eq_true, decide_eq_true_eq,
    beq_iff_eq] at h
  omega

theorem isReSpace_ne {c : Nat} (h : isReSpace c = true) :
    c ≠ 124 ∧ isKeyChar c = false := by
  simp only [isReSpace, Bool.or_eq_true, beq_iff_eq] at h
  refine ⟨by omega, ?_⟩
  rcases h with (((h | h) | h) | h) | h <;> subst h <;> decide

/-- A filter segment `\s*\|[^STOP]+` fails when, after white space, the input
does not continue with `|`. -/
theorem filterSeg_none (stop : Nat) (K : Cont) (w r0 : Str) (pos : Nat) (caps : List Int)
    (hw : ∀ c ∈ w, isReSpace c = true)
    (hr0 : ∀ c ∈ r0.head?, isReSpace c = false ∧ c ≠ 124) :
    (Regex.seq (.star (.cls isReSpace))
        (.seq (lit 124) (plus (.cls (fun c => c != stop))))).run K ⟨pos, w ++ r0, caps⟩
      = none := by
  rw [run_seq]
  apply run_star_cls_none isReSpace _ w r0 pos caps (fun rest => ∀ c ∈ rest.head?, c ≠ 124)
  · intro pos' rest hR
    cases rest with
    | nil => simp [Regex.run, lit]
    | cons c cs =>
      have : c ≠ 124 := hR c (by simp)
      simp [Regex.run, lit, this]
  · intro c hc; exact (hr0 c hc).1
  · intro ys zs e
    cases zs with
    | nil => intro c hc; exact (hr0 c (by simpa using hc)).2
    | cons z zs' =>
      intro c hc
      simp only [List.cons_append, List.head?_cons, Option.mem_def, Option.some.injEq] at hc
      rw [← hc]
      exact (isReSpace_ne (hw z (by simp [e]))).1

/-- The key group on the greedy path: the whole run of key bytes is taken. -/
theorem run_key_greedy (g : Nat) (K : Cont) (x : Nat) (xs rest : Str) (pos : Nat)
    (caps : List Int) (m : List Int) (hx : ∀ c ∈ x :: xs, isKeyChar c = true)
    (hrest : ∀ c ∈ rest.head?, isKeyChar c = false)
    (hk : K ⟨pos + 1 + xs.length, rest,
      (caps.set (2 * g) (pos : Int)).set (2 * g + 1) ((pos + 1 + xs.length : Nat) : Int)⟩ = some m) :
    (Regex.cap g (plus (.cls isKeyChar))).run K ⟨pos, x :: xs ++ rest, caps⟩ = some m := by
  rw [run_cap, plus, run_seq, List.cons_append, run_cls_cons]
  simp only [hx x (by simp), if_true]
  apply run_star_cls_greedy isKeyChar _ xs rest (pos + 1) caps m
    (fun y hy => hx y (by simp [hy])) hrest
  exact hk

/-- The part after the key when no filter text follows: the filter group
matches the empty string at the end of the key. -/
theorem run_tail_plain (g stop : Nat) (closer : Str) (k : Cont) (w2 s : Str) (ch : Nat)
    (ct : Str) (pos : Nat) (caps : List Int) (m : List Int)
    (hcl : closer = ch :: ct) (hch : isReSpace ch = false ∧ ch ≠ 124)
    (hw2 : ∀ c ∈ w2, isReSpace c = true)
    (hk : k ⟨pos + w2.length + closer.length, s,
      (caps.set (2 * (g + 1)) (pos : Int)).set (2 * (g + 1) + 1) (pos : Int)⟩ = some m) :
    (tailRe g stop closer).run k ⟨pos, w2 ++ (closer ++ s), caps⟩ = some m := by
  have hhead : ∀ c ∈ (closer ++ s).head?, isReSpace c = false ∧ c ≠ 124 := by
    intro c hc
    rw [hcl] at hc
    simp only [List.cons_append, List.head?_cons, Option.mem_def, Option.some.injEq] at hc
    rw [← hc]
    exact hch
  rw [tailRe, run_seq, run_cap, run_star_stuck]
  · simp only
    rw [run_seq]
    apply run_star_cls_greedy isReSpace _ w2 (closer ++ s) pos _ m hw2
      (fun c hc => (hhead c hc).1)
    rw [run_litStr]
    exact hk
  · intro K
    rw [run_cap]
    exact filterSeg_none stop _ w2 (closer ++ s) pos caps hw2 hhead

theorem run_star (r : Regex) (k : Cont) (st : MState) :
    (Regex.star r).run k st = starLoop r.run k (st.rest.length + 1) st := by
  simp [Regex.run]

theorem run_lit_cons (b : Nat) (k : Cont) (pos c : Nat) (cs : Str) (caps : List Int) :
    (lit b).run k ⟨pos, c :: cs, caps⟩ = if c = b then k ⟨pos + 1, cs, caps⟩ else none := by
  simp [lit, Regex.run]

theorem run_plus (r : Regex) (k : Cont) (st : MState) :
    (plus r).run k st = r.run ((Regex.star r).run k) st := by
  simp [plus, Regex.run]

/-- The part after the key when one filter segment `w | y ys` follows: the
greedy path takes the whole text up to the closing delimiter as the filter
group. -/
theorem run_tail_filtered (g stop : Nat) (closer : Str) (k : Cont) (w : Str) (y : Nat)
    (ys s ct : Str) (pos : Nat) (caps : List Int) (m : List Int)
    (hcl : closer = stop :: ct) (hstop : isReSpace stop = false ∧ stop ≠ 124)
    (hw : ∀ c ∈ w, isReSpace c = true) (hy : ∀ c ∈ y :: ys, c ≠ stop)
    (hk : k ⟨pos + w.length + 1 + 1 + ys.length + closer.length, s,
      (((caps.set (2 * (g + 2)) (pos : Int)).set (2 * (g + 2) + 1)
          ((pos + w.length + 1 + 1 + ys.length : Nat) : Int)).set (2 * (g + 1)) (pos : Int)).set
        (2 * (g + 1) + 1) ((pos + w.length + 1 + 1 + ys.length : Nat) : Int)⟩ = some m) :
    (tailRe g stop closer).run k ⟨pos, w ++ (124 :: (y :: ys ++ (closer ++ s))), caps⟩
      = some m := by
  have hhead : ∀ c ∈ (closer ++ s).head?, isReSpace c = false ∧ c ≠ 124 := by
    intro c hc
    rw [hcl] at hc
    simp only [List.cons_append, List.head?_cons, Option.mem_def, Option.some.injEq] at hc
    rw [← hc]
    exact hstop
  have hstuck : ∀ (p : Nat) (cs : List Int) (K : Cont),
      (Regex.cap (g + 2) (.seq (.star (.cls isReSpace))
        (.seq (lit 124) (plus (.cls (fun c => c != stop)))))).run K ⟨p, closer ++ s, cs⟩
        = none := by
    intro p cs K
    rw [run_cap]
    exact filterSeg_none stop _ [] (closer ++ s) p cs (by simp) hhead
  rw [tailRe, run_seq, run_cap, run_star, starLoop]
  have hbody : (Regex.cap (g + 2) (.seq (.star (.cls isReSpace))
        (.seq (lit 124) (plus (.cls (fun c => c != stop)))))).run
      (fun st' =>
        if (⟨pos, w ++ (124 :: (y :: ys ++ (closer ++ s))), caps⟩ : MState).pos < st'.pos then
          starLoop (Regex.cap (g + 2) (.seq (.star (.cls isReSpace))
              (.seq (lit 124) (plus (.cls (fun c => c != stop)))))).run
            (fun st' => (Regex.seq (.star (.cls isReSpace)) (litStr closer)).run k
              ⟨st'.pos, st'.rest, (st'.caps.set (2 * (g + 1)) (pos : Int)).set (2 * (g + 1) + 1)
                (st'.pos : Int)⟩)
            (w ++ (124 :: (y :: ys ++ (closer ++ s)))).length st'
        else none)
      ⟨pos, w ++ (124 :: (y :: ys ++ (closer ++ s))), caps⟩ = some m := by
    rw [run_cap, run_seq]
    apply run_star_cls_greedy isReSpace _ w _ pos caps m hw (by simp [isReSpace])
    rw [run_seq, run_lit_cons]
    simp only [if_true]
    rw [run_plus, List.cons_append, run_cls_cons]
    have hys : (y != stop) = true := by simpa using hy y (by simp)
    simp only [hys, if_true]
    apply run_star_cls_greedy (fun c => c != stop) _ ys (closer ++ s) _ caps m
      (fun c hc => by simpa using hy c (by simp [hc]))
      (by intro c hc; rw [hcl] at hc; simp at hc; simp [hc])
    have hlt : pos < pos + w.length + 1 + 1 + ys.length := by omega
    simp only [hlt, if_true]
    rw [starLoop_stuck _ _ _ _ (hstuck _ _)]
    simp only
    rw [run_seq, run_star_cls_stuck isReSpace _ _ _ _ (fun c hc => (hhead c hc).1), run_litStr]
    exact hk
  simp only at hbody ⊢
  rw [hbody]

theorem variant_none_of_opener (g : Nat) (opener : Str) (stop : Nat) (closer : Str) (k : Cont)
    (pos : Nat) (rest : Str) (caps : List Int) (h : ¬ opener <+: rest) :
    (variantRe g opener stop closer).run k ⟨pos, rest, caps⟩ = none := by
  rw [variantRe_eq, run_seq]
  exact run_litStr_none opener _ pos rest caps h

theorem run_alt (r s : Regex) (k : Cont) (st : MState) :
    (Regex.alt r s).run k st = match r.run k st with
      | some m => some m
      | none => s.run k st := by
  simp [Regex.run]

theorem placeholderPattern_eq :
    placeholderPattern =
      .alt (variantRe 1 [123, 123] 125 [125, 125])
      (.alt (variantRe 4 [91, 91] 93 [93, 93])
      (.alt (variantRe 7 [36, 123] 125 [125])
      (.alt (variantRe 10 [60, 60] 62 [62, 62])
        (variantRe 13 [37, 37] 37 [37, 37])))) := rfl

/-- The pattern tries the alternative whose opening delimiter the input starts
with; the other four fail on their first or second byte. -/
theorem pattern_run_select (k : Cont) (pos a b : Nat) (t : Str) (caps : List Int) :
    placeholderPattern.run k ⟨pos, a :: b :: t, caps⟩ =
      if a = 123 ∧ b = 123 then
        (variantRe 1 [123, 123] 125 [125, 125]).run k ⟨pos, a :: b :: t, caps⟩
      else if a = 91 ∧ b = 91 then
        (variantRe 4 [91, 91] 93 [93, 93]).run k ⟨pos, a :: b :: t, caps⟩
      else if a = 36 ∧ b = 123 then
        (variantRe 7 [36, 123] 125 [125]).run k ⟨pos, a :: b :: t, caps⟩
      else if a = 60 ∧ b = 60 then
        (variantRe 10 [60, 60] 62 [62, 62]).run k ⟨pos, a :: b :: t, caps⟩
      else if a = 37 ∧ b = 37 then
        (variantRe 13 [37, 37] 37 [37, 37]).run k ⟨pos, a :: b :: t, caps⟩
      else none := by
  have hpre : ∀ x y : Nat, ([x, y] <+: a :: b :: t) ↔ (a = x ∧ b = y) := by
    intro x y
    constructor
    · intro h
      obtain ⟨r, hr⟩ := h
      simp only [List.cons_append, List.nil_append, List.cons.injEq] at hr
      exact ⟨hr.1.symm, hr.2.1.symm⟩
    · rintro ⟨rfl, rfl⟩
      exact ⟨t, rfl⟩
  have hnone : ∀ (g x y stop : Nat) (closer : Str), ¬ (a = x ∧ b = y) →
      (variantRe g [x, y] stop closer).run k ⟨pos, a :: b :: t, caps⟩ = none :=
    fun g x y stop closer h =>
      variant_none_of_opener g [x, y] stop closer k pos _ caps (fun hp => h ((hpre x y).mp hp))
  rw [placeholderPattern_eq, run_alt, run_alt, run_alt, run_alt]
  by_cases h1 : a = 123 ∧ b = 123
  · have h2 : ¬ (a = 91 ∧ b = 91) := by omega
    have h3 : ¬ (a = 36 ∧ b = 123) := by omega
    have h4 : ¬ (a = 60 ∧ b = 60) := by omega
    have h5 : ¬ (a = 37 ∧ b = 37) := by omega
    rw [hnone 4 _ _ _ _ h2, hnone 7 _ _ _ _ h3, hnone 10 _ _ _ _ h4, hnone 13 _ _ _ _ h5]
    generalize (variantRe 1 [123, 123] 125 [125, 125]).run k ⟨pos, a :: b :: t, caps⟩ = o
    cases o <;> simp [h1]
  · rw [hnone 1 _ _ _ _ h1]
    simp only [h1, if_false]
    by_cases h2 : a = 91 ∧ b = 91
    · have h3 : ¬ (a = 36 ∧ b = 123) := by omega
      have h4 : ¬ (a = 60 ∧ b = 60) := by omega
      have h5 : ¬ (a = 37 ∧ b = 37) := by omega
      rw [hnone 7 _ _ _ _ h3, hnone 10 _ _ _ _ h4, hnone 13 _ _ _ _ h5]
      generalize (variantRe 4 [91, 91] 93 [93, 93]).run k ⟨pos, a :: b :: t, caps⟩ = o
      cases o <;> simp [h2]
    · rw [hnone 4 _ _ _ _ h2]
      simp only [h2, if_false]
      by_cases h3 : a = 36 ∧ b = 123
      · have h4 : ¬ (a = 60 ∧ b = 60) := by omega
        have h5 : ¬ (a = 37 ∧ b = 37) := by omega
        rw [hnone 10 _ _ _ _ h4, hnone 13 _ _ _ _ h5]
        generalize (variantRe 7 [36, 123] 125 [125]).run k ⟨pos, a :: b :: t, caps⟩ = o
        cases o <;> simp [h3]
      · rw [hnone 7 _ _ _ _ h3]
        simp only [h3, if_false]
        by_cases h4 : a = 60 ∧ b = 60
        · have h5 : ¬ (a = 37 ∧ b = 37) := by omega
          rw [hnone 13 _ _ _ _ h5]
          generalize (variantRe 10 [60, 60] 62 [62, 62]).run k ⟨pos, a :: b :: t, caps⟩ = o
          cases o <;> simp [h4]
        · rw [hnone 10 _ _ _ _ h4]
          simp only [h4, if_false]
          by_cases h5 : a = 37 ∧ b = 37
          · simp [h5]
          · rw [hnone 13 _ _ _ _ h5]
            simp only [h5, if_false]

/-- One alternative on `OPEN w1 key w2 CLOSE`: it matches that text, the key
group is `key` and the filter group is empty. -/
theorem variant_run_plain (g stop : Nat) (opener closer : Str) (k : Cont) (w1 : Str) (x : Nat)
    (xs w2 s : Str) (ch : Nat) (ct : Str) (pos : Nat) (caps : List Int) (m : List Int)
    (hcl : closer = ch :: ct)
    (hch : isReSpace ch = false ∧ ch ≠ 124 ∧ isKeyChar ch = false)
    (hw1 : ∀ c ∈ w1, isReSpace c = true) (hx : ∀ c ∈ x :: xs, isKeyChar c = true)
    (hw2 : ∀ c ∈ w2, isReSpace c = true)
    (hk : k ⟨pos + opener.length + w1.length + 1 + xs.length + w2.length + closer.length, s,
      (((caps.set (2 * g) ((pos + opener.length + w1.length : Nat) : Int)).set (2 * g + 1)
          ((pos + opener.length + w1.length + 1 + xs.length : Nat) : Int)).set (2 * (g + 1))
          ((pos + opener.length + w1.length + 1 + xs.length : Nat) : Int)).set (2 * (g + 1) + 1)
          ((pos + opener.length + w1.length + 1 + xs.length : Nat) : Int)⟩ = some m) :
    (variantRe g opener stop closer).run k
      ⟨pos, opener ++ (w1 ++ (x :: xs ++ (w2 ++ (closer ++ s)))), caps⟩ = some m := by
  rw [variantRe_eq, run_seq, run_litStr, run_seq]
  apply run_star_cls_greedy isReSpace _ w1 _ _ caps m hw1
    (by intro c hc; simp at hc; rw [← hc]; exact isKeyChar_not_space (hx x (by simp)))
  rw [run_seq]
  apply run_key_greedy g _ x xs _ _ caps m hx
  · intro c hc
    cases w2 with
    | nil =>
      rw [hcl] at hc; simp at hc; rw [← hc]; exact hch.2.2
    | cons z zs =>
      simp at hc; rw [← hc]; exact (isReSpace_ne (hw2 z (by simp))).2
  · exact run_tail_plain g stop closer k w2 s ch ct _ _ m hcl ⟨hch.1, hch.2.1⟩ hw2 hk

/-- One alternative on `OPEN w1 key w | y ys CLOSE`: it matches that text, the
key group is `key` and the filter group is `w | y ys`. -/
theorem variant_run_filtered (g stop : Nat) (opener closer : Str) (k : Cont) (w1 : Str)
    (x : Nat) (xs w : Str) (y : Nat) (ys s ct : Str) (pos : Nat) (caps : List Int)
    (m : List Int) (hcl : closer = stop :: ct) (hstop : isReSpace stop = false ∧ stop ≠ 124)
    (hw1 : ∀ c ∈ w1, isReSpace c = true) (hx : ∀ c ∈ x :: xs, isKeyChar c = true)
    (hw : ∀ c ∈ w, isReSpace c = true) (hy : ∀ c ∈ y :: ys, c ≠ stop)
    (hk : k ⟨pos + opener.length + w1.length + 1 + xs.length + w.length + 1 + 1 + ys.length
        + closer.length, s,
      (((((caps.set (2 * g) ((pos + opener.length + w1.length : Nat) : Int)).set (2 * g + 1)
          ((pos + opener.length + w1.length + 1 + xs.length : Nat) : Int)).set (2 * (g + 2))
          ((pos + opener.length + w1.length + 1 + xs.length : Nat) : Int)).set (2 * (g + 2) + 1)
          ((pos + opener.length + w1.length + 1 + xs.length + w.length + 1 + 1 + ys.length : Nat)
            : Int)).set (2 * (g + 1))
          ((pos + opener.length + w1.length + 1 + xs.length : Nat) : Int)).set (2 * (g + 1) + 1)
          ((pos + opener.length + w1.length + 1 + xs.length + w.length + 1 + 1 + ys.length : Nat)
            : Int)⟩ = some m) :
    (variantRe g opener stop closer).run k
      ⟨pos, opener ++ (w1 ++ (x :: xs ++ (w ++ (124 :: (y :: ys ++ (closer ++ s)))))), caps⟩
      = some m := by
  rw [variantRe_eq, run_seq, run_litStr, run_seq]
  apply run_star_cls_greedy isReSpace _ w1 _ _ caps m hw1
    (by intro c hc; simp at hc; rw [← hc]; exact isKeyChar_not_space (hx x (by simp)))
  rw [run_seq]
  apply run_key_greedy g _ x xs _ _ caps m hx
  · intro c hc
    cases w with
    | nil => simp at hc; rw [← hc]; decide
    | cons z zs =>
      simp at hc; rw [← hc]; exact (isReSpace_ne (hw z (by simp))).2
  · exact run_tail_filtered g stop closer k w y ys s ct _ _ m hcl hstop hw hy hk

theorem scanFrom_skip_no_opener (xs : Str) (h : ∀ c ∈ xs, isOpenerByte c = false) :
    ∀ (pos resume : Nat) (r : Str),
      scanFrom placeholderPattern pos resume (xs ++ r)
        = scanFrom placeholderPattern (pos + xs.length) resume r := by
  induction xs with
  | nil => intro pos resume r; rfl
  | cons c cs ih =>
    intro pos resume r
    have hc := h c (by simp)
    simp only [isOpenerByte, Bool.or_eq_false_iff, beq_eq_false_iff_ne, ne_eq] at hc
    have hnone : matchAt placeholderPattern pos (c :: (cs ++ r)) = none :=
      matchAt_none_of_head pos c _ (by tauto)
    have hrec := ih (fun y hy => h y (by simp [hy])) (pos + 1) resume r
    have hlen : pos + (c :: cs).length = pos + 1 + cs.length := by simp; omega
    rw [List.cons_append, scanFrom, hnone, hlen]
    split <;> exact hrec

theorem scanFrom_skip_resume (re : Regex) (xs : Str) :
    ∀ (pos resume : Nat) (r : Str), pos + xs.length ≤ resume →
      scanFrom re pos resume (xs ++ r) = scanFrom re (pos + xs.length) resume r := by
  induction xs with
  | nil => intro pos resume r _; rfl
  | cons c cs ih =>
    intro pos resume r hle
    simp only [List.length_cons] at hle
    have hlt : pos < resume := by omega
    have hlen : pos + (c :: cs).length = pos + 1 + cs.length := by simp; omega
    rw [List.cons_append, scanFrom, hlen]
    simp only [hlt, if_true]
    exact ih (pos + 1) resume r (by omega)

/-- The scan of `p ++ occ ++ suf` finds exactly one match when `p` and `suf`
hold no opening byte and an attempt at the start of `occ` matches `occ`. -/
theorem findAll_single (p occ suf : Str) (M : List Int)
    (hp : ∀ c ∈ p, isOpenerByte c = false) (hs : ∀ c ∈ suf, isOpenerByte c = false)
    (hocc : occ ≠ [])
    (hm : matchAt placeholderPattern p.length (occ ++ suf) = some M)
    (hend : M[1]? = some ((p.length + occ.length : Nat) : Int)) :
    FindAllStringSubmatchIndex placeholderPattern (p ++ (occ ++ suf)) = [M] := by
  unfold FindAllStringSubmatchIndex
  rw [scanFrom_skip_no_opener p hp]
  cases occ with
  | nil => exact absurd rfl hocc
  | cons c cs =>
    rw [List.cons_append] at hm ⊢
    rw [scanFrom]
    simp only [Nat.zero_add, Nat.not_lt_zero, if_false, hm]
    have hd : (M.getD 1 0).toNat = p.length + (c :: cs).length := by
      rw [List.getD_eq_getElem?_getD, hend]
      simp only [Option.getD_some, Int.toNat_ofNat]
    rw [hd, scanFrom_skip_resume _ cs _ _ suf (by simp; omega),
      scanFrom_no_opener suf _ _ hs]

/-- `Render` on a template with a single occurrence whose value is not empty:
the text before it, the value, the text after it. -/
theorem render_single (e : engine) (tpl : Str) (data : Data) (M : List Int) (s t : Nat)
    (key raw : Str)
    (hf : FindAllStringSubmatchIndex placeholderPattern tpl = [M])
    (h0 : M[0]? = some (s : Int)) (h1 : M[1]? = some (t : Int)) (hst : s ≤ t)
    (ht : t ≤ tpl.length)
    (hp : pickGroups tpl M placeholderGroups = some (key, raw)) (val : Str)
    (hv : occurrenceValue e data key raw = some val) (hne : val ≠ []) :
    e.Render tpl data = some (tpl.take s ++ val ++ tpl.drop t) := by
  unfold engine.Render
  rw [hf]
  simp only
  rw [renderLoop]
  simp only [h0, h1]
  have hs0 : slice tpl 0 (s : Int) = some ((tpl.take s).drop 0) := by
    have := slice_nat tpl 0 s (Nat.zero_le _) (by omega)
    simpa using this
  rw [hs0]
  simp only [hp, hv, hne, ne_eq, not_false_eq_true, if_true]
  rw [renderLoop, slice_nat tpl t tpl.length ht (le_refl _)]
  simp

theorem take_drop_mid (pre mid post : Str) :
    ((pre ++ (mid ++ post)).take (pre.length + mid.length)).drop pre.length = mid := by
  have h1 : (pre ++ (mid ++ post)).take (pre.length + mid.length) = pre ++ mid := by
    rw [← List.append_assoc]
    have : pre.length + mid.length = (pre ++ mid).length := by simp
    rw [this, List.take_left']
    rfl
  rw [h1, List.drop_left]

theorem slotsOf_zero_one (g s e a b d : Nat) (inner : Bool) :
    (slotsOf g s e a b d inner)[0]? = some (s : Int) ∧
    (slotsOf g s e a b d inner)[1]? = some (e : Int) := by
  cases inner <;> simp [slotsOf, List.getElem?_set, numSlots]

theorem pickGroups_slotsOf (tpl : Str) (g : Nat)
    (hg : g = 1 ∨ g = 4 ∨ g = 7 ∨ g = 10 ∨ g = 13) (s e a b d : Nat) (inner : Bool)
    (hab : a ≤ b) (hbd : b ≤ d) (hd : d ≤ tpl.length) :
    pickGroups tpl (slotsOf g s e a b d inner) placeholderGroups
      = some ((tpl.take b).drop a, if b < d then (tpl.take d).drop b else []) := by
  have ha1 : (a : Int) ≠ -1 := by omega
  have hb1 : (b : Int) ≠ -1 := by omega
  have hd1 : (d : Int) ≠ -1 := by omega
  have hs1 := slice_nat tpl a b hab (by omega)
  have hs2 := slice_nat tpl b d hbd hd
  rcases hg with rfl | rfl | rfl | rfl | rfl <;> cases inner <;>
    simp [slotsOf, numSlots, List.replicate, pickGroups, placeholderGroups, hs1, hs2, ha1, hb1,
      hd1] <;> split <;> simp_all

theorem placeholderVariants_eq :
    placeholderVariants = syntaxTable.map (fun q => variantRe q.1 q.2.1 q.2.2.1 q.2.2.2) := rfl

theorem delimiters_eq : delimiters = syntaxTable.map (fun q => (q.2.1, q.2.2.2)) := rfl

theorem syntax_select {g : Nat} {opener : Str} {stop : Nat} {closer : Str}
    (h : (g, opener, stop, closer) ∈ syntaxTable) (k : Cont) (pos : Nat) (t : Str)
    (caps : List Int) :
    placeholderPattern.run k ⟨pos, opener ++ t, caps⟩
      = (variantRe g opener stop closer).run k ⟨pos, opener ++ t, caps⟩ := by
  simp only [syntaxTable, List.mem_cons, Prod.mk.injEq, List.mem_singleton, List.not_mem_nil,
    or_false] at h
  rcases h with ⟨rfl, rfl, rfl, rfl⟩ | ⟨rfl, rfl, rfl, rfl⟩ | ⟨rfl, rfl, rfl, rfl⟩ |
    ⟨rfl, rfl, rfl, rfl⟩ | ⟨rfl, rfl, rfl, rfl⟩ <;>
    (rw [List.cons_append, List.cons_append, List.nil_append, pattern_run_select]; simp)

theorem syntax_facts {g : Nat} {opener : Str} {stop : Nat} {closer : Str}
    (h : (g, opener, stop, closer) ∈ syntaxTable) :
    (g = 1 ∨ g = 4 ∨ g = 7 ∨ g = 10 ∨ g = 13) ∧ opener.length = 2 ∧
    (∃ ct, closer = stop :: ct) ∧ isReSpace stop = false ∧ stop ≠ 124 ∧
    isKeyChar stop = false := by
  simp only [syntaxTable, List.mem_cons, Prod.mk.injEq, List.mem_singleton, List.not_mem_nil,
    or_false] at h
  rcases h with ⟨rfl, rfl, rfl, rfl⟩ | ⟨rfl, rfl, rfl, rfl⟩ | ⟨rfl, rfl, rfl, rfl⟩ |
    ⟨rfl, rfl, rfl, rfl⟩ | ⟨rfl, rfl, rfl, rfl⟩ <;>
    exact ⟨by simp, rfl, ⟨_, rfl⟩, by decide, by decide, by decide⟩

/-- An attempt at `OPEN w1 key w2 CLOSE` matches it; the key group is `key`
and the filter group is empty. -/
theorem matchAt_plain {g : Nat} {opener : Str} {stop : Nat} {closer : Str}
    (h : (g, opener, stop, closer) ∈ syntaxTable) (w1 : Str) (x : Nat) (xs w2 s : Str)
    (pos : Nat) (hw1 : ∀ c ∈ w1, isReSpace c = true) (hx : ∀ c ∈ x :: xs, isKeyChar c = true)
    (hw2 : ∀ c ∈ w2, isReSpace c = true) :
    matchAt placeholderPattern pos (opener ++ (w1 ++ (x :: xs ++ (w2 ++ (closer ++ s)))))
      = some (slotsOf g pos
          (pos + opener.length + w1.length + 1 + xs.length + w2.length + closer.length)
          (pos + opener.length + w1.length) (pos + opener.length + w1.length + 1 + xs.length)
          (pos + opener.length + w1.length + 1 + xs.length) false) := by
  obtain ⟨_, _, ⟨ct, hcl⟩, hs1, hs2, hs3⟩ := syntax_facts h
  unfold matchAt
  rw [syntax_select h]
  apply variant_run_plain g stop opener closer _ w1 x xs w2 s stop ct pos _ _ hcl
    ⟨hs1, hs2, hs3⟩ hw1 hx hw2
  simp [slotsOf]

/-- An attempt at `OPEN w1 key w | y ys CLOSE` matches it; the key group is
`key` and the filter group is `w | y ys`. -/
theorem matchAt_filtered {g : Nat} {opener : Str} {stop : Nat} {closer : Str}
    (h : (g, opener, stop, closer) ∈ syntaxTable) (w1 : Str) (x : Nat) (xs w : Str) (y : Nat)
    (ys s : Str) (pos : Nat) (hw1 : ∀ c ∈ w1, isReSpace c = true)
    (hx : ∀ c ∈ x :: xs, isKeyChar c = true) (hw : ∀ c ∈ w, isReSpace c = true)
    (hy : ∀ c ∈ y :: ys, c ≠ stop) :
    matchAt placeholderPattern pos
        (opener ++ (w1 ++ (x :: xs ++ (w ++ (124 :: (y :: ys ++ (closer ++ s)))))))
      = some (slotsOf g pos
          (pos + opener.length + w1.length + 1 + xs.length + w.length + 1 + 1 + ys.length
            + closer.length)
          (pos + opener.length + w1.length) (pos + opener.length + w1.length + 1 + xs.length)
          (pos + opener.length + w1.length + 1 + xs.length + w.length + 1 + 1 + ys.length)
          true) := by
  obtain ⟨_, _, ⟨ct, hcl⟩, hs1, hs2, _⟩ := syntax_facts h
  unfold matchAt
  rw [syntax_select h]
  apply variant_run_filtered g stop opener closer _ w1 x xs w y ys s ct pos _ _ hcl
    ⟨hs1, hs2⟩ hw1 hx hw hy
  simp [slotsOf]

theorem take_drop_mid' (tpl pre mid post : Str) (a b : Nat) (ht : tpl = pre ++ (mid ++ post))
    (ha : a = pre.length) (hb : b = pre.length + mid.length) :
    (tpl.take b).drop a = mid := by
  rw [ht, ha, hb]; exact take_drop_mid pre mid post

theorem drop_eq_of (tpl pre post : Str) (n : Nat) (ht : tpl = pre ++ post)
    (hn : n = pre.length) : tpl.drop n = post := by
  rw [ht, hn, List.drop_left]

/-- `Render` on a template with one occurrence `OPEN w1 key w2 CLOSE` between
texts without opening bytes, when the value of the key is not empty. -/
theorem render_plain (e : engine) (data : Data) {g : Nat} {opener : Str} {stop : Nat}
    {closer : Str} (h : (g, opener, stop, closer) ∈ syntaxTable) (p w1 : Str) (x : Nat)
    (xs w2 s : Str) (hp : ∀ c ∈ p, isOpenerByte c = false)
    (hs : ∀ c ∈ s, isOpenerByte c = false) (hw1 : ∀ c ∈ w1, isReSpace c = true)
    (hx : ∀ c ∈ x :: xs, isKeyChar c = true) (hw2 : ∀ c ∈ w2, isReSpace c = true)
    (val : Str) (hv : occurrenceValue e data (x :: xs) [] = some val) (hval : val ≠ []) :
    e.Render (p ++ (opener ++ (w1 ++ (x :: xs ++ (w2 ++ (closer ++ s)))))) data
      = some (p ++ val ++ s) := by
  obtain ⟨hg, hol, _, _, _, _⟩ := syntax_facts h
  have hm := matchAt_plain h w1 x xs w2 s p.length hw1 hx hw2
  have hocc : opener ++ (w1 ++ (x :: xs ++ (w2 ++ (closer ++ s))))
      = (opener ++ (w1 ++ (x :: xs ++ (w2 ++ closer)))) ++ s := by simp
  have hne : opener ++ (w1 ++ (x :: xs ++ (w2 ++ closer))) ≠ [] := by
    intro h0
    have := congrArg List.length h0
    simp at this
  obtain ⟨h0, h1⟩ := slotsOf_zero_one g p.length
    (p.length + opener.length + w1.length + 1 + xs.length + w2.length + closer.length)
    (p.length + opener.length + w1.length) (p.length + opener.length + w1.length + 1 + xs.length)
    (p.length + opener.length + w1.length + 1 + xs.length) false
  rw [hocc] at hm ⊢
  have hf := findAll_single p _ s _ hp hs hne hm (by
    rw [h1]; congr 2; simp; omega)
  have hpk := pickGroups_slotsOf
    (p ++ (opener ++ (w1 ++ (x :: xs ++ (w2 ++ closer))) ++ s)) g hg p.length
    (p.length + opener.length + w1.length + 1 + xs.length + w2.length + closer.length)
    (p.length + opener.length + w1.length) (p.length + opener.length + w1.length + 1 + xs.length)
    (p.length + opener.length + w1.length + 1 + xs.length) false (by omega) (by omega)
    (by simp; omega)
  rw [take_drop_mid' _ (p ++ (opener ++ w1)) (x :: xs) (w2 ++ (closer ++ s)) _ _ (by simp)
    (by simp; omega) (by simp; omega)] at hpk
  simp only [lt_self_iff_false, if_false] at hpk
  rw [render_single e _ data _ p.length
    (p.length + opener.length + w1.length + 1 + xs.length + w2.length + closer.length)
    (x :: xs) [] hf h0 h1 (by omega) (by simp; omega) hpk val hv hval]
  congr 1
  have e1 : (p ++ (opener ++ (w1 ++ (x :: xs ++ (w2 ++ closer))) ++ s)).take p.length = p := by
    simp
  have e2 : (p ++ (opener ++ (w1 ++ (x :: xs ++ (w2 ++ closer))) ++ s)).drop
      (p.length + opener.length + w1.length + 1 + xs.length + w2.length + closer.length) = s :=
    drop_eq_of _ (p ++ (opener ++ (w1 ++ (x :: xs ++ (w2 ++ closer))))) s _ (by simp)
      (by simp; omega)
  rw [e1, e2]

/-- `Render` on a template with one occurrence `OPEN w1 key w | y ys CLOSE`
between texts without opening bytes, when the value of the occurrence is not
empty: the raw filter text is `w | y ys`. -/
theorem render_filtered (e : engine) (data : Data) {g : Nat} {opener : Str} {stop : Nat}
    {closer : Str} (h : (g, opener, stop, closer) ∈ syntaxTable) (p w1 : Str) (x : Nat)
    (xs w : Str) (y : Nat) (ys s : Str) (hp : ∀ c ∈ p, isOpenerByte c = false)
    (hs : ∀ c ∈ s, isOpenerByte c = false) (hw1 : ∀ c ∈ w1, isReSpace c = true)
    (hx : ∀ c ∈ x :: xs, isKeyChar c = true) (hw : ∀ c ∈ w, isReSpace c = true)
    (hy : ∀ c ∈ y :: ys, c ≠ stop) (val : Str)
    (hv : occurrenceValue e data (x :: xs) (w ++ 124 :: y :: ys) = some val) (hval : val ≠ []) :
    e.Render (p ++ (opener ++ (w1 ++ (x :: xs ++ (w ++ (124 :: (y :: ys ++ (closer ++ s))))))))
        data
      = some (p ++ val ++ s) := by
  obtain ⟨hg, hol, _, _, _, _⟩ := syntax_facts h
  have hm := matchAt_filtered h w1 x xs w y ys s p.length hw1 hx hw hy
  have hocc : opener ++ (w1 ++ (x :: xs ++ (w ++ (124 :: (y :: ys ++ (closer ++ s))))))
      = (opener ++ (w1 ++ (x :: xs ++ (w ++ (124 :: (y :: ys ++ closer)))))) ++ s := by simp
  have hne : opener ++ (w1 ++ (x :: xs ++ (w ++ (124 :: (y :: ys ++ closer))))) ≠ [] := by
    intro h0
    have := congrArg List.length h0
    simp at this
  obtain ⟨h0, h1⟩ := slotsOf_zero_one g p.length
    (p.length + opener.length + w1.length + 1 + xs.length + w.length + 1 + 1 + ys.length
      + closer.length)
    (p.length + opener.length + w1.length) (p.length + opener.length + w1.length + 1 + xs.length)
    (p.length + opener.length + w1.length + 1 + xs.length + w.length + 1 + 1 + ys.length) true
  rw [hocc] at hm ⊢
  have hf := findAll_single p _ s _ hp hs hne hm (by
    rw [h1]; congr 2; simp; omega)
  have hpk := pickGroups_slotsOf
    (p ++ (opener ++ (w1 ++ (x :: xs ++ (w ++ (124 :: (y :: ys ++ closer))))) ++ s)) g hg
    p.length
    (p.length + opener.length + w1.length + 1 + xs.length + w.length + 1 + 1 + ys.length
      + closer.length)
    (p.length + opener.length + w1.length) (p.length + opener.length + w1.length + 1 + xs.length)
    (p.length + opener.length + w1.length + 1 + xs.length + w.length + 1 + 1 + ys.length) true
    (by omega) (by omega) (by simp; omega)
  rw [take_drop_mid' _ (p ++ (opener ++ w1)) (x :: xs)
      (w ++ (124 :: (y :: ys ++ (closer ++ s)))) _ _ (by simp) (by simp; omega) (by simp; omega),
    take_drop_mid' _ (p ++ (opener ++ (w1 ++ (x :: xs)))) (w ++ 124 :: y :: ys) (closer ++ s)
      _ _ (by simp) (by simp; omega) (by simp; omega)] at hpk
  have hlt : p.length + opener.length + w1.length + 1 + xs.length
      < p.length + opener.length + w1.length + 1 + xs.length + w.length + 1 + 1 + ys.length := by
    omega
  simp only [hlt, if_true] at hpk
  rw [render_single e _ data _ p.length
    (p.length + opener.length + w1.length + 1 + xs.length + w.length + 1 + 1 + ys.length
      + closer.length)
    (x :: xs) (w ++ 124 :: y :: ys) hf h0 h1 (by omega) (by simp; omega) hpk val hv hval]
  congr 1
  have e1 : (p ++ (opener ++ (w1 ++ (x :: xs ++ (w ++ (124 :: (y :: ys ++ closer))))) ++ s)).take
      p.length = p := by simp
  have e2 : (p ++ (opener ++ (w1 ++ (x :: xs ++ (w ++ (124 :: (y :: ys ++ closer))))) ++ s)).drop
      (p.length + opener.length + w1.length + 1 + xs.length + w.length + 1 + 1 + ys.length
        + closer.length) = s :=
    drop_eq_of _ (p ++ (opener ++ (w1 ++ (x :: xs ++ (w ++ (124 :: (y :: ys ++ closer)))))))
      s _ (by simp) (by simp; omega)
  rw [e1, e2]

theorem isOpenerByte_of_key {c : Nat} (h : isKeyChar c = true) : isOpenerByte c = false := by
  have := isKeyChar_ne h
  simp only [isOpenerByte, Bool.or_eq_false_iff, beq_eq_false_iff_ne, ne_eq]
  omega

theorem lookupValue_top (k v : Str) (hk : 46 ∉ k) : lookupValue [(k, .str v)] k = some v := by
  unfold lookupValue
  rw [Split_no_sep k 46 hk]
  simp [lookupLoop, mapGet, stringify]

theorem occurrenceValue_plain (e : engine) (data : Data) (key : Str) :
    occurrenceValue e data key [] = lookupValue data key := by
  unfold occurrenceValue
  cases lookupValue data key <;> rfl

/-- C8.  Each of the five syntaxes substitutes a resolved key and tolerates
white space inside the delimiters: for a delimiter pair `d`, a non-empty key
`k` of letters, digits, `_` and `-`, a non-empty value `v`, white space `w1`
and `w2` (bytes of `\s`), and texts `p` and `s` without `{`, `[`, `$`, `<`,
`%`, `Render` turns `p d.1 w1 k w2 d.2 s` over `{k: v}` into `p v s`. -/
theorem render_each_syntax (e : engine) (d : Str × Str) (k v w1 w2 p s : Str)
    (hd : d ∈ delimiters) (hk : k ≠ []) (hkc : ∀ c ∈ k, isWord c = true ∨ c = 45)
    (hv : v ≠ []) (hw1 : ∀ c ∈ w1, isReSpace c = true) (hw2 : ∀ c ∈ w2, isReSpace c = true)
    (hp : ∀ c ∈ p, isOpenerByte c = false) (hs : ∀ c ∈ s, isOpenerByte c = false) :
    e.Render (p ++ d.1 ++ w1 ++ k ++ w2 ++ d.2 ++ s) [(k, .str v)] = some (p ++ v ++ s) := by
  rw [delimiters_eq, List.mem_map] at hd
  obtain ⟨⟨g, opener, stop, closer⟩, hq, rfl⟩ := hd
  cases k with
  | nil => exact absurd rfl hk
  | cons x xs =>
    have hx : ∀ c ∈ x :: xs, isKeyChar c = true := by
      intro c hc
      rcases hkc c hc with h | h
      · simp [isKeyChar, h]
      · subst h; decide
    have hdot : 46 ∉ x :: xs := by
      intro h46
      rcases hkc 46 h46 with h | h
      · exact absurd h (by decide)
      · exact absurd h (by decide)
    have hval : occurrenceValue e [(x :: xs, .str v)] (x :: xs) [] = some v := by
      rw [occurrenceValue_plain, lookupValue_top _ _ hdot]
    have := render_plain e [(x :: xs, .str v)] hq p w1 x xs w2 s hp hs hw1 hx hw2 v hval hv
    rw [← this]
    simp [List.append_assoc]

/-- Witness for C8: `Hello {{ name }}` over `{name: "Alice"}`. -/
theorem render_each_syntax_witness :
    (⟨fun _ => none⟩ : engine).Render
        (bytes "Hello " ++ ([123, 123], [125, 125]).1 ++ bytes " " ++ bytes "name" ++ bytes " "
          ++ ([123, 123], [125, 125]).2 ++ [])
        [(bytes "name", .str (bytes "Alice"))]
      = some (bytes "Hello " ++ bytes "Alice" ++ []) :=
  render_each_syntax ⟨fun _ => none⟩ ([123, 123], [125, 125]) (bytes "name") (bytes "Alice")
    (bytes " ") (bytes " ") (bytes "Hello ") [] (by decide) (by decide) (by decide) (by decide)
    (by decide) (by decide) (by decide) (by decide)

theorem TrimSpace_ascii_space (c : Nat) (t : Str) (hc : asciiSpace c = true) :
    TrimSpace (c :: t) = TrimSpace t := by
  have hlt : ¬ c ≥ 0x80 := by
    simp only [asciiSpace, Bool.or_eq_true, beq_iff_eq] at hc
    omega
  rw [TrimSpace]
  simp [hlt, hc]

/-- `TrimSpace` leaves alone a string that starts and ends with ASCII bytes
that are not white space. -/
theorem TrimSpace_fixed (c d : Nat) (t : Str) (hc : c < 0x80) (hcs : asciiSpace c = false)
    (hd : d < 0x80) (hds : asciiSpace d = false) :
    TrimSpace (c :: (t ++ [d])) = c :: (t ++ [d]) := by
  have hrev : (c :: (t ++ [d])).reverse = d :: (c :: t).reverse := by simp
  rw [TrimSpace]
  have h1 : ¬ c ≥ 0x80 := by omega
  have h2 : ¬ d ≥ 0x80 := by omega
  simp only [h1, hcs, if_false, hrev, trimSpaceRight, h2, hds]
  simp

theorem trimLeftSpace_blank : ∀ (s : Str) (skip : Nat),
    (runesFrom skip s).all IsSpace = true → trimLeftSpace skip s = [] := by
  intro s
  induction s with
  | nil => intro skip _; cases skip <;> rfl
  | cons c t ih =>
    intro skip h
    cases skip with
    | zero =>
      rw [runesFrom] at h
      simp only [List.all_cons, Bool.and_eq_true] at h
      rw [trimLeftSpace]
      simp only [h.1, if_true]
      exact ih _ h.2
    | succ n =>
      rw [runesFrom] at h
      rw [trimLeftSpace]
      exact ih _ h

/-- `TrimSpace` empties a string that is white space only. -/
theorem TrimSpace_blank : ∀ v : Str, isBlank v = true → TrimSpace v = [] := by
  intro v
  induction v with
  | nil => intro _; rfl
  | cons c t ih =>
    intro h
    by_cases hc : c ≥ 0x80
    · rw [TrimSpace]
      simp only [hc, if_true]
      rw [trimLeftSpace_blank _ 0 h]
      rfl
    · have hlt : c < 0x80 := by omega
      have hdec : DecodeRuneInString (c :: t) = (c, 1) := by
        simp [DecodeRuneInString, hlt]
      unfold isBlank at h
      rw [runesFrom, hdec] at h
      simp only [List.all_cons, Bool.and_eq_true] at h
      have hsp : asciiSpace c = true := by
        have h1 := h.1
        simp only [IsSpace, Bool.or_eq_true, beq_iff_eq, Bool.and_eq_true,
          decide_eq_true_eq] at h1
        rcases h1 with ((((((((h1 | h1) | h1) | h1) | h1) | h1) | h1) | h1) | h1) | h1
        · exact h1
        all_goals omega
      rw [TrimSpace_ascii_space c t hsp]
      exact ih h.2

theorem stripQuotes_single (X : Str) : stripQuotes (39 :: (X ++ [39])) = X := by
  unfold stripQuotes
  have h1 : (39 :: (X ++ [39])).length ≥ 2 := by simp
  have h2 : (39 :: (X ++ [39])).getLast? = some 39 := by
    rw [← List.cons_append, List.getLast?_append]; simp
  simp only [h1, if_true, List.head?_cons, h2, and_self, or_true]
  simp

/-- The segment ` default:'X'` parses to the `default` invocation with
argument `X`. -/
theorem parseParts_default (X : Str) :
    parseParts [bytes " default:'" ++ X ++ bytes "'"] = [⟨bytes "default", X⟩] := by
  have hb1 : bytes " default:'" = [32, 100, 101, 102, 97, 117, 108, 116, 58, 39] := by decide
  have hb2 : bytes "'" = [39] := by decide
  have hb3 : bytes "default:" = [100, 101, 102, 97, 117, 108, 116, 58] := by decide
  have ht : TrimSpace (bytes " default:'" ++ X ++ bytes "'")
      = 100 :: ([101, 102, 97, 117, 108, 116, 58, 39] ++ X ++ [39]) := by
    rw [hb1, hb2]
    simp only [List.cons_append, List.nil_append]
    rw [TrimSpace_ascii_space 32 _ (by decide)]
    have := TrimSpace_fixed 100 39 ([101, 102, 97, 117, 108, 116, 58, 39] ++ X) (by decide)
      (by decide) (by decide) (by decide)
    simpa using this
  have hq : TrimSpace (39 :: (X ++ [39])) = 39 :: (X ++ [39]) :=
    TrimSpace_fixed 39 39 X (by decide) (by decide) (by decide) (by decide)
  rw [parseParts, ht, hb3]
  simp only [List.cons_append, List.nil_append, List.drop_succ_cons, List.drop_zero, hq,
    stripQuotes_single, parseParts]
  simp [HasPrefix, List.isPrefixOf]

theorem parseFilterChain_default (X : Str) (hX : 124 ∉ X) :
    parseFilterChain (bytes " | default:'" ++ X ++ bytes "'") = [⟨bytes "default", X⟩] := by
  have hb : bytes " | default:'" = bytes " " ++ 124 :: bytes " default:'" := by decide
  have hsep : 124 ∉ bytes " default:'" ++ X ++ bytes "'" := by
    have h1 : 124 ∉ bytes " default:'" := by decide
    have h2 : 124 ∉ bytes "'" := by decide
    simp only [List.mem_append, not_or]
    exact ⟨⟨h1, hX⟩, h2⟩
  rw [parseFilterChain_eq, hb]
  have : bytes " " ++ 124 :: bytes " default:'" ++ X ++ bytes "'"
      = bytes " " ++ 124 :: (bytes " default:'" ++ X ++ bytes "'") := by simp
  rw [this, Split_append, Split_no_sep _ 124 hsep, Split_no_sep (bytes " ") 124 (by decide),
    parseParts_append, parseParts_default]
  rfl

theorem parseFilterChain_trim_default (X : Str) (hX : 124 ∉ X) :
    parseFilterChain (bytes " | trim | default:'" ++ X ++ bytes "'")
      = [⟨bytes "trim", []⟩, ⟨bytes "default", X⟩] := by
  have hb : bytes " | trim | default:'" = bytes " | trim " ++ 124 :: bytes " default:'" := by
    decide
  have hsep : 124 ∉ bytes " default:'" ++ X ++ bytes "'" := by
    have h1 : 124 ∉ bytes " default:'" := by decide
    have h2 : 124 ∉ bytes "'" := by decide
    simp only [List.mem_append, not_or]
    exact ⟨⟨h1, hX⟩, h2⟩
  rw [parseFilterChain_eq, hb]
  have : bytes " | trim " ++ 124 :: bytes " default:'" ++ X ++ bytes "'"
      = bytes " | trim " ++ 124 :: (bytes " default:'" ++ X ++ bytes "'") := by simp
  rw [this, Split_append, Split_no_sep _ 124 hsep, parseParts_append, parseParts_default]
  rfl

theorem curly_mem_syntaxTable : (1, [123, 123], 125, [125, 125]) ∈ syntaxTable := by
  simp [syntaxTable]

/-- `Render` on the template `{{key | F}}` when the value of the occurrence is not
empty: the raw filter text is ` | F`. -/
theorem render_curly_filtered (e : engine) (data : Data) (x : Nat) (xs F : Str)
    (hx : ∀ c ∈ x :: xs, isKeyChar c = true) (hF : ∀ c ∈ F, c ≠ 125) (val : Str)
    (hv : occurrenceValue e data (x :: xs) (32 :: 124 :: 32 :: F) = some val) (hval : val ≠ []) :
    e.Render ([123, 123] ++ (x :: xs) ++ (32 :: 124 :: 32 :: F) ++ [125, 125]) data
      = some val := by
  have := render_filtered e data curly_mem_syntaxTable [] [] x xs [32] 32 F []
    (by simp) (by simp) (by simp) hx (by decide)
    (by
      intro c hc
      rcases List.mem_cons.mp hc with h | h
      · subst h; decide
      · exact hF c h)
    val (by simpa using hv) hval
  simpa using this

/-- C3 as amended.  On an engine with no filter registered under the name
`default`, for a key `k` (one or more bytes of `[\w.-]`) that resolves to a
non-empty string `v` and a default argument `X` without `}` and `|`, the
`default:'X'` invocation does not override the value:
`Render("{{k | default:'X'}}", data) = v`. -/
theorem default_keeps_value (e : engine) (data : Data) (k v X : Str)
    (he : e.filters (bytes "default") = none) (hk : k ≠ [])
    (hkc : ∀ c ∈ k, isKeyChar c = true) (hres : lookupValue data k = some v) (hv : v ≠ [])
    (hX : ∀ c ∈ X, c ≠ 125 ∧ c ≠ 124) :
    e.Render (bytes "\x7b\x7b" ++ k ++ bytes " | default:'" ++ X ++ bytes "'\x7d\x7d") data
      = some v := by
  cases k with
  | nil => exact absurd rfl hk
  | cons x xs =>
    have hb1 : bytes "\x7b\x7b" = [123, 123] := by decide
    have hb2 : bytes "'\x7d\x7d" = bytes "'" ++ [125, 125] := by decide
    have hraw : bytes " | default:'" ++ X ++ bytes "'"
        = 32 :: 124 :: 32 :: (bytes "default:'" ++ X ++ bytes "'") := by
      have : bytes " | default:'" = 32 :: 124 :: 32 :: bytes "default:'" := by decide
      rw [this]; simp
    have hF : ∀ c ∈ bytes "default:'" ++ X ++ bytes "'", c ≠ 125 := by
      intro c hc
      simp only [List.mem_append] at hc
      rcases hc with (h | h) | h
      · intro h'; subst h'; revert h; decide
      · exact (hX c h).1
      · intro h'; subst h'; revert h; decide
    have hval : occurrenceValue e data (x :: xs) (bytes " | default:'" ++ X ++ bytes "'")
        = some v := by
      unfold occurrenceValue
      rw [parseFilterChain_default X (fun h => (hX 124 h).2 rfl), hres]
      simp [applyChain, applyFilter, hv, he]
    have := render_curly_filtered e data x xs (bytes "default:'" ++ X ++ bytes "'") hkc hF v
      (by rw [← hraw, hval]) hv
    rw [← hraw] at this
    rw [← this, hb1, hb2]
    simp [List.append_assoc]

/-- Witness for C3: the repository's test `fallback_not_used_if_key_exists`. -/
theorem default_keeps_value_witness :
    (⟨fun _ => none⟩ : engine).Render
        (bytes "\x7b\x7b" ++ bytes "name" ++ bytes " | default:'" ++ bytes "User"
          ++ bytes "'\x7d\x7d")
        [(bytes "name", .str (bytes "John"))]
      = some (bytes "John") :=
  default_keeps_value ⟨fun _ => none⟩ [(bytes "name", .str (bytes "John"))] (bytes "name")
    (bytes "John") (bytes "User") rfl (by decide) (by decide) (by decide) (by decide)
    (by decide)

/-- Counterexample to C3 as stated: with the argument `}` the template
`{{k | default:'}'}}` holds no placeholder, and `Render` returns it unchanged
instead of `v`; with the argument `a|b` the text after `|` is a filter of its own, and an
engine on which `b'` is registered renders what that filter returns. -/
theorem default_keeps_value_counterexample :
    (⟨fun _ => none⟩ : engine).Render (bytes "\x7b\x7bk | default:'\x7d'\x7d\x7d")
        [(bytes "k", .str (bytes "v"))]
      = some (bytes "\x7b\x7bk | default:'\x7d'\x7d\x7d") ∧
    (⟨fun _ => none⟩ : engine).Render (bytes "\x7b\x7bk | default:'\x7d'\x7d\x7d")
        [(bytes "k", .str (bytes "v"))] ≠ some (bytes "v") ∧
    ((⟨fun _ => none⟩ : engine).AddFilter (bytes "b'") (fun _ => some (bytes "Z"))).Render
        (bytes "\x7b\x7bk | default:'a|b'\x7d\x7d") [(bytes "k", .str (bytes "v"))]
      = some (bytes "Z") ∧
    ((⟨fun _ => none⟩ : engine).AddFilter (bytes "b'") (fun _ => some (bytes "Z"))).Render
        (bytes "\x7b\x7bk | default:'a|b'\x7d\x7d") [(bytes "k", .str (bytes "v"))]
      ≠ some (bytes "v") := by
  refine ⟨?_, ?_, ?_, ?_⟩ <;> decide

/-- The name `default` is also looked up in the registry: when the current
value is not empty, a `default:'X'` invocation calls a filter registered under
the name `default`. -/
theorem default_name_in_registry :
    ((⟨fun _ => none⟩ : engine).AddFilter (bytes "default") (fun _ => some (bytes "Z"))).Render
        (bytes "\x7b\x7bk | default:'X'\x7d\x7d") [(bytes "k", .str (bytes "v"))]
      = some (bytes "Z") := by
  decide

theorem applyFilter_default_empty (e : engine) (X : Str) :
    applyFilter e [] ⟨bytes "default", X⟩ = some X := by
  simp [applyFilter]

theorem newEngine_trim (T : CaseTable) :
    (NewTemplateEngine T).filters (bytes "trim") = some (returning TrimSpace) := rfl

/-- C4.  A `default:'X'` invocation replaces the value with `X` whenever the
value is empty at the point of the chain where it occurs.  With the engine of
`NewTemplateEngine`, a key `k` (one or more bytes of `[\w.-]`) and a non-empty
`X` without `|` and `}`: `Render("{{k | default:'X'}}", data) = X` when `k` does
not resolve, and `Render("{{k | trim | default:'X'}}", data) = X` when `k`
resolves to a non-empty string `v` of white space only. -/
theorem default_fills_empty (T : CaseTable) (data : Data) (k X : Str) (hk : k ≠ [])
    (hkc : ∀ c ∈ k, isKeyChar c = true) (hXne : X ≠ [])
    (hX : ∀ c ∈ X, c ≠ 124 ∧ c ≠ 125) :
    (∀ e : engine, applyFilter e [] ⟨bytes "default", X⟩ = some X) ∧
    (lookupValue data k = some [] →
      (NewTemplateEngine T).Render
          (bytes "\x7b\x7b" ++ k ++ bytes " | default:'" ++ X ++ bytes "'\x7d\x7d") data
        = some X) ∧
    (∀ v : Str, lookupValue data k = some v → v ≠ [] → isBlank v = true →
      (NewTemplateEngine T).Render
          (bytes "\x7b\x7b" ++ k ++ bytes " | trim | default:'" ++ X ++ bytes "'\x7d\x7d") data
        = some X) := by
  have hb1 : bytes "\x7b\x7b" = [123, 123] := by decide
  have hb2 : bytes "'\x7d\x7d" = bytes "'" ++ [125, 125] := by decide
  have hX124 : 124 ∉ X := fun h => (hX 124 h).1 rfl
  refine ⟨fun e => applyFilter_default_empty e X, ?_, ?_⟩
  · intro hres
    cases k with
    | nil => exact absurd rfl hk
    | cons x xs =>
      have hraw : bytes " | default:'" ++ X ++ bytes "'"
          = 32 :: 124 :: 32 :: (bytes "default:'" ++ X ++ bytes "'") := by
        have : bytes " | default:'" = 32 :: 124 :: 32 :: bytes "default:'" := by decide
        rw [this]; simp
      have hF : ∀ c ∈ bytes "default:'" ++ X ++ bytes "'", c ≠ 125 := by
        intro c hc
        simp only [List.mem_append] at hc
        rcases hc with (h | h) | h
        · intro h'; subst h'; revert h; decide
        · exact (hX c h).2
        · intro h'; subst h'; revert h; decide
      have hval : occurrenceValue (NewTemplateEngine T) data (x :: xs)
          (bytes " | default:'" ++ X ++ bytes "'") = some X := by
        unfold occurrenceValue
        rw [parseFilterChain_default X hX124, hres]
        simp [applyChain, applyFilter]
      have := render_curly_filtered (NewTemplateEngine T) data x xs
        (bytes "default:'" ++ X ++ bytes "'") hkc hF X (by rw [← hraw, hval]) hXne
      rw [← hraw] at this
      rw [← this, hb1, hb2]
      simp [List.append_assoc]
  · intro v hres hv hblank
    cases k with
    | nil => exact absurd rfl hk
    | cons x xs =>
      have hraw : bytes " | trim | default:'" ++ X ++ bytes "'"
          = 32 :: 124 :: 32 :: (bytes "trim | default:'" ++ X ++ bytes "'") := by
        have : bytes " | trim | default:'" = 32 :: 124 :: 32 :: bytes "trim | default:'" := by
          decide
        rw [this]; simp
      have hF : ∀ c ∈ bytes "trim | default:'" ++ X ++ bytes "'", c ≠ 125 := by
        intro c hc
        simp only [List.mem_append] at hc
        rcases hc with (h | h) | h
        · intro h'; subst h'; revert h; decide
        · exact (hX c h).2
        · intro h'; subst h'; revert h; decide
      have hval : occurrenceValue (NewTemplateEngine T) data (x :: xs)
          (bytes " | trim | default:'" ++ X ++ bytes "'") = some X := by
        unfold occurrenceValue
        rw [parseFilterChain_trim_default X hX124, hres]
        have hne : bytes "trim" ≠ bytes "default" := by decide
        simp [applyChain, applyFilter, hne, newEngine_trim, returning, TrimSpace_blank v hblank]
      have := render_curly_filtered (NewTemplateEngine T) data x xs
        (bytes "trim | default:'" ++ X ++ bytes "'") hkc hF X (by rw [← hraw, hval]) hXne
      rw [← hraw] at this
      rw [← this, hb1, hb2]
      simp [List.append_assoc]

/-- Witness for C4: the repository's test `fallback_default_value`, and a
value of two spaces under `trim`. -/
theorem default_fills_empty_witness :
    (NewTemplateEngine ⟨id, id⟩).Render
        (bytes "\x7b\x7b" ++ bytes "name" ++ bytes " | default:'" ++ bytes "User"
          ++ bytes "'\x7d\x7d") [] = some (bytes "User") ∧
    (NewTemplateEngine ⟨id, id⟩).Render
        (bytes "\x7b\x7b" ++ bytes "name" ++ bytes " | trim | default:'" ++ bytes "User"
          ++ bytes "'\x7d\x7d") [(bytes "name", .str (bytes "  "))] = some (bytes "User") :=
  ⟨(default_fills_empty ⟨id, id⟩ [] (bytes "name") (bytes "User") (by decide) (by decide)
      (by decide) (by decide)).2.1 (by decide),
    (default_fills_empty ⟨id, id⟩ [(bytes "name", .str (bytes "  "))] (bytes "name")
      (bytes "User") (by decide) (by decide) (by decide) (by decide)).2.2 (bytes "  ")
      (by decide) (by decide) (by decide)⟩

/-- Counterexample to C6 as stated: on the input `" a"` the filters `trim` and
`uppercase` commute, so the two orders render the same text, whatever the case
tables are. -/
theorem trim_uppercase_counterexample :
    ¬ ∃ T : CaseTable,
      (NewTemplateEngine T).Render (bytes "\x7b\x7bk | trim | uppercase\x7d\x7d")
          [(bytes "k", .str (bytes " a"))]
        ≠ (NewTemplateEngine T).Render (bytes "\x7b\x7bk | uppercase | trim\x7d\x7d")
          [(bytes "k", .str (bytes " a"))] := by
  rintro ⟨T, h⟩
  exact h rfl

/-- C6 as amended.  With the engine of `NewTemplateEngine` and data
`{k: " a"}`, `trim` and `uppercase` give `A` in either order, while reordering
`trim` and `capitalize` changes the result: `{{k | trim | capitalize}}` renders
`A` and `{{k | capitalize | trim}}` renders `a`. -/
theorem filter_order_matters (T : CaseTable) :
    (NewTemplateEngine T).Render (bytes "\x7b\x7bk | trim | uppercase\x7d\x7d")
        [(bytes "k", .str (bytes " a"))] = some (bytes "A") ∧
    (NewTemplateEngine T).Render (bytes "\x7b\x7bk | uppercase | trim\x7d\x7d")
        [(bytes "k", .str (bytes " a"))] = some (bytes "A") ∧
    (NewTemplateEngine T).Render (bytes "\x7b\x7bk | trim | capitalize\x7d\x7d")
        [(bytes "k", .str (bytes " a"))] = some (bytes "A") ∧
    (NewTemplateEngine T).Render (bytes "\x7b\x7bk | capitalize | trim\x7d\x7d")
        [(bytes "k", .str (bytes " a"))] = some (bytes "a") ∧
    (NewTemplateEngine T).Render (bytes "\x7b\x7bk | trim | capitalize\x7d\x7d")
        [(bytes "k", .str (bytes " a"))]
      ≠ (NewTemplateEngine T).Render (bytes "\x7b\x7bk | capitalize | trim\x7d\x7d")
        [(bytes "k", .str (bytes " a"))] := by
  have h3 : (NewTemplateEngine T).Render (bytes "\x7b\x7bk | trim | capitalize\x7d\x7d")
        [(bytes "k", .str (bytes " a"))] = some (bytes "A") := rfl
  have h4 : (NewTemplateEngine T).Render (bytes "\x7b\x7bk | capitalize | trim\x7d\x7d")
        [(bytes "k", .str (bytes " a"))] = some (bytes "a") := rfl
  refine ⟨rfl, rfl, h3, h4, ?_⟩
  rw [h3, h4]
  decide

/-- The part after the key fails on an input that neither continues with
white space or `|` nor starts with the closing delimiter. -/
theorem run_tail_none (g stop : Nat) (closer : Str) (k : Cont) (rest : Str) (pos : Nat)
    (caps : List Int) (h1 : ∀ c ∈ rest.head?, isReSpace c = false ∧ c ≠ 124)
    (h2 : ¬ closer <+: rest) :
    (tailRe g stop closer).run k ⟨pos, rest, caps⟩ = none := by
  rw [tailRe, run_seq, run_cap, run_star_stuck]
  · simp only
    rw [run_seq, run_star_cls_stuck isReSpace _ _ _ _ (fun c hc => (h1 c hc).1)]
    exact run_litStr_none closer _ _ _ _ h2
  · intro K
    rw [run_cap]
    exact filterSeg_none stop _ [] rest pos caps (by simp) h1

/-- One alternative fails on `OPEN key C` when `C` does not start with its
closing delimiter (nor with white space, `|` or a key byte). -/
theorem variant_run_mismatch (g stop : Nat) (opener closer : Str) (k : Cont) (key C : Str)
    (pos : Nat) (caps : List Int) (ct : Str) (hcl : closer = stop :: ct)
    (hstop : isKeyChar stop = false)
    (hkey : ∀ c ∈ key, isKeyChar c = true)
    (hC1 : ∀ c ∈ C.head?, isReSpace c = false ∧ c ≠ 124 ∧ isKeyChar c = false)
    (hC2 : ¬ closer <+: C) :
    (variantRe g opener stop closer).run k ⟨pos, opener ++ (key ++ C), caps⟩ = none := by
  have hhead : ∀ c ∈ (key ++ C).head?, isReSpace c = false := by
    intro c hc
    cases key with
    | nil => exact (hC1 c (by simpa using hc)).1
    | cons x xs =>
      simp at hc; rw [← hc]; exact isKeyChar_not_space (hkey x (by simp))
  rw [variantRe_eq, run_seq, run_litStr, run_seq, run_star_cls_stuck isReSpace _ _ _ _ hhead,
    run_seq, run_cap, run_plus]
  cases key with
  | nil =>
    cases C with
    | nil => exact run_cls_nil _ _ _ _
    | cons c cs =>
      rw [List.nil_append, run_cls_cons]
      simp [(hC1 c (by simp)).2.2]
  | cons x xs =>
    rw [List.cons_append, run_cls_cons]
    simp only [hkey x (by simp), if_true]
    apply run_star_cls_none isKeyChar _ xs C _ _
      (fun rest => (∀ c ∈ rest.head?, isReSpace c = false ∧ c ≠ 124) ∧ ¬ closer <+: rest)
    · intro pos' rest hR
      exact run_tail_none g stop closer k rest pos' _ hR.1 hR.2
    · intro c hc; exact (hC1 c hc).2.2
    · intro ys zs e
      cases zs with
      | nil =>
        exact ⟨fun c hc => ⟨(hC1 c (by simpa using hc)).1, (hC1 c (by simpa using hc)).2.1⟩,
          by simpa using hC2⟩
      | cons z zs' =>
        have hz : isKeyChar z = true := hkey z (by simp [e])
        refine ⟨?_, ?_⟩
        · intro c hc
          simp at hc; rw [← hc]
          exact ⟨isKeyChar_not_space hz, (isKeyChar_ne hz).1⟩
        · rw [hcl, List.cons_append]
          intro hp
          obtain ⟨r, hr⟩ := hp
          rw [List.cons_append] at hr
          have := List.head_eq_of_cons_eq hr
          rw [this] at hstop
          rw [hstop] at hz
          exact absurd hz (by decide)

theorem matchAt_none_of_second (pos a b : Nat) (t : Str)
    (h : b ≠ 123 ∧ b ≠ 91 ∧ b ≠ 60 ∧ b ≠ 37) :
    matchAt placeholderPattern pos (a :: b :: t) = none := by
  unfold matchAt
  rw [pattern_run_select]
  obtain ⟨h1, h2, h3, h4⟩ := h
  simp [h1, h2, h3, h4]

theorem matchAt_none_singleton (pos c : Nat) : matchAt placeholderPattern pos [c] = none := by
  have hp : ∀ x y : Nat, ¬ [x, y] <+: [c] := by
    intro x y hp
    have := hp.length_le
    simp at this
  unfold matchAt
  rw [placeholderPattern_eq, run_alt, run_alt, run_alt, run_alt,
    variant_none_of_opener 1 _ _ _ _ _ _ _ (hp _ _),
    variant_none_of_opener 4 _ _ _ _ _ _ _ (hp _ _),
    variant_none_of_opener 7 _ _ _ _ _ _ _ (hp _ _),
    variant_none_of_opener 10 _ _ _ _ _ _ _ (hp _ _),
    variant_none_of_opener 13 _ _ _ _ _ _ _ (hp _ _)]

theorem matchAt_none_of_pair (pos a b : Nat) (t : Str)
    (h : ¬ (a = 123 ∧ b = 123) ∧ ¬ (a = 91 ∧ b = 91) ∧ ¬ (a = 36 ∧ b = 123) ∧
      ¬ (a = 60 ∧ b = 60) ∧ ¬ (a = 37 ∧ b = 37)) :
    matchAt placeholderPattern pos (a :: b :: t) = none := by
  unfold matchAt
  rw [pattern_run_select]
  obtain ⟨h1, h2, h3, h4, h5⟩ := h
  simp only [h1, h2, h3, h4, h5, if_false]

theorem scanFrom_cons_none (re : Regex) (pos resume c : Nat) (cs : Str)
    (h : matchAt re pos (c :: cs) = none) :
    scanFrom re pos resume (c :: cs) = scanFrom re (pos + 1) resume cs := by
  rw [scanFrom, h]
  split <;> rfl

/-- An attempt at `OPEN key C` fails when `C` does not start with the closing
delimiter that belongs to `OPEN`. -/
theorem matchAt_mismatch {g : Nat} {opener : Str} {stop : Nat} {closer : Str}
    (h : (g, opener, stop, closer) ∈ syntaxTable) (key C : Str) (pos : Nat)
    (hkey : ∀ c ∈ key, isKeyChar c = true)
    (hC1 : ∀ c ∈ C.head?, isReSpace c = false ∧ c ≠ 124 ∧ isKeyChar c = false)
    (hC2 : ¬ closer <+: C) :
    matchAt placeholderPattern pos (opener ++ (key ++ C)) = none := by
  obtain ⟨_, _, ⟨ct, hcl⟩, _, _, hs3⟩ := syntax_facts h
  unfold matchAt
  rw [syntax_select h]
  exact variant_run_mismatch g stop opener closer _ key C pos _ ct hcl hs3 hkey hC1 hC2

/-- No match starts inside a closing delimiter standing at the end of the
input. -/
theorem scanFrom_closer {g : Nat} {opener : Str} {stop : Nat} {closer : Str}
    (h : (g, opener, stop, closer) ∈ syntaxTable) (pos resume : Nat) :
    scanFrom placeholderPattern pos resume closer = [] := by
  have h37 : ∀ p r, scanFrom placeholderPattern p r [37, 37] = [] := by
    intro p r
    have h0 : matchAt placeholderPattern p [37, 37] = none := by
      have hm : (13, [37, 37], 37, [37, 37]) ∈ syntaxTable := by simp [syntaxTable]
      have := matchAt_mismatch hm [] [] p (by simp) (by simp) (by simp)
      simpa using this
    rw [scanFrom_cons_none _ _ _ _ _ h0,
      scanFrom_cons_none _ _ _ _ _ (matchAt_none_singleton _ _)]
    rfl
  simp only [syntaxTable, List.mem_cons, Prod.mk.injEq, List.mem_singleton, List.not_mem_nil,
    or_false] at h
  rcases h with ⟨rfl, rfl, rfl, rfl⟩ | ⟨rfl, rfl, rfl, rfl⟩ | ⟨rfl, rfl, rfl, rfl⟩ |
    ⟨rfl, rfl, rfl, rfl⟩ | ⟨rfl, rfl, rfl, rfl⟩
  · exact scanFrom_no_opener _ _ _ (by decide)
  · exact scanFrom_no_opener _ _ _ (by decide)
  · exact scanFrom_no_opener _ _ _ (by decide)
  · exact scanFrom_no_opener _ _ _ (by decide)
  · exact h37 _ _

/-- The matcher finds nothing in `OPEN key CLOSE'` when `CLOSE'` belongs to
another syntax and does not start with the closing delimiter of `OPEN`. -/
theorem findAll_mismatch {g1 g2 : Nat} {o1 o2 : Str} {s1 s2 : Nat} {c1 c2 : Str}
    (h1 : (g1, o1, s1, c1) ∈ syntaxTable) (h2 : (g2, o2, s2, c2) ∈ syntaxTable)
    (hne : g1 ≠ g2) (hpre : ¬ c1 <+: c2) (key : Str)
    (hkey : ∀ c ∈ key, isKeyChar c = true) :
    FindAllStringSubmatchIndex placeholderPattern (o1 ++ (key ++ c2)) = [] := by
  obtain ⟨_, _, ⟨ct2, hcl2⟩, hs1, hs2, hs3⟩ := syntax_facts h2
  have hC1 : ∀ c ∈ c2.head?, isReSpace c = false ∧ c ≠ 124 ∧ isKeyChar c = false := by
    intro c hc
    rw [hcl2] at hc
    simp at hc
    rw [← hc]
    exact ⟨hs1, hs2, hs3⟩
  have h0 := matchAt_mismatch h1 key c2 0 hkey hC1 hpre
  have hsec : ∀ a b : Nat, o1 = [a, b] → (b = 37 → s2 ≠ 37) →
      matchAt placeholderPattern 1 (b :: (key ++ c2)) = none := by
    intro a b _ hb
    cases key with
    | nil =>
      rw [List.nil_append, hcl2]
      apply matchAt_none_of_pair
      have := isKeyChar_ne (c := s2)
      simp only [syntaxTable, List.mem_cons, Prod.mk.injEq, List.mem_singleton,
        List.not_mem_nil, or_false] at h2
      rcases h2 with ⟨_, _, rfl, _⟩ | ⟨_, _, rfl, _⟩ | ⟨_, _, rfl, _⟩ | ⟨_, _, rfl, _⟩ |
        ⟨_, _, rfl, _⟩ <;> (simp; try omega)
    | cons x xs =>
      rw [List.cons_append]
      apply matchAt_none_of_pair
      have := isKeyChar_ne (hkey x (by simp))
      omega
  have hrest : ∀ pos, scanFrom placeholderPattern pos 0 (key ++ c2) = [] := by
    intro pos
    rw [scanFrom_skip_no_opener key (fun c hc => isOpenerByte_of_key (hkey c hc))]
    exact scanFrom_closer h2 _ _
  unfold FindAllStringSubmatchIndex
  simp only [syntaxTable, List.mem_cons, Prod.mk.injEq, List.mem_singleton, List.not_mem_nil,
    or_false] at h1
  rcases h1 with ⟨rfl, rfl, rfl, rfl⟩ | ⟨rfl, rfl, rfl, rfl⟩ | ⟨rfl, rfl, rfl, rfl⟩ |
    ⟨rfl, rfl, rfl, rfl⟩ | ⟨rfl, rfl, rfl, rfl⟩ <;>
  · simp only [List.cons_append, List.nil_append] at h0 ⊢
    rw [scanFrom_cons_none _ _ _ _ _ h0,
      scanFrom_cons_none _ _ _ _ _ (hsec _ _ rfl (by
        intro hb
        first
          | exact absurd hb (by decide)
          | (simp only [syntaxTable, List.mem_cons, Prod.mk.injEq, List.mem_singleton,
              List.not_mem_nil, or_false] at h2
             rcases h2 with ⟨rfl, _, rfl, _⟩ | ⟨rfl, _, rfl, _⟩ | ⟨rfl, _, rfl, _⟩ |
               ⟨rfl, _, rfl, _⟩ | ⟨rfl, _, rfl, _⟩ <;> first | decide | exact absurd rfl hne)))]
    exact hrest _

/-- Counterexample to C7 as stated: the template that opens with `${` and
closes with `}}` holds the placeholder `${k}`; with `k` bound to `v` it renders
as the value followed by `}` and is not returned unchanged. -/
theorem mismatched_delimiters_counterexample :
    FindAllStringSubmatchIndex placeholderPattern
        ((([36, 123], [125]) : Str × Str).1 ++ bytes "k"
          ++ (([123, 123], [125, 125]) : Str × Str).2) ≠ [] ∧
    (⟨fun _ => none⟩ : engine).Render
        ((([36, 123], [125]) : Str × Str).1 ++ bytes "k"
          ++ (([123, 123], [125, 125]) : Str × Str).2)
        [(bytes "k", .str (bytes "v"))] = some (bytes "v\x7d") := by
  constructor <;> decide

/-- C7 as amended.  For a key `k` (bytes of `[\w.-]`), every engine and every
data mapping: an opening delimiter followed by `k` and by the closing delimiter
of another syntax holds no placeholder occurrence and is returned unchanged by
`Render`, for every pair of different syntaxes except `${` closed by `}}`; the
template `${k}}` holds the placeholder `${k}`, and when `k` resolves to a
non-empty value it renders as that value followed by `}`. -/
theorem mismatched_delimiters (e : engine) (data : Data) (k : Str)
    (hkc : ∀ c ∈ k, isKeyChar c = true) :
    (∀ d1 ∈ delimiters, ∀ d2 ∈ delimiters, d1 ≠ d2 →
      ¬ (d1 = ([36, 123], [125]) ∧ d2 = ([123, 123], [125, 125])) →
      FindAllStringSubmatchIndex placeholderPattern (d1.1 ++ k ++ d2.2) = [] ∧
      e.Render (d1.1 ++ k ++ d2.2) data = some (d1.1 ++ k ++ d2.2)) ∧
    (∀ v : Str, k ≠ [] → lookupValue data k = some v → v ≠ [] →
      e.Render ([36, 123] ++ k ++ [125, 125]) data = some (v ++ [125])) := by
  constructor
  · intro d1 hd1 d2 hd2 hne hex
    have hnil : FindAllStringSubmatchIndex placeholderPattern (d1.1 ++ k ++ d2.2) = [] := by
      rw [delimiters_eq, List.mem_map] at hd1 hd2
      obtain ⟨⟨g1, o1, s1, c1⟩, hq1, rfl⟩ := hd1
      obtain ⟨⟨g2, o2, s2, c2⟩, hq2, rfl⟩ := hd2
      rw [List.append_assoc]
      have hq1' := hq1
      have hq2' := hq2
      simp only [syntaxTable, List.mem_cons, Prod.mk.injEq, List.mem_singleton,
        List.not_mem_nil, or_false] at hq1' hq2'
      rcases hq1' with ⟨rfl, rfl, rfl, rfl⟩ | ⟨rfl, rfl, rfl, rfl⟩ | ⟨rfl, rfl, rfl, rfl⟩ |
        ⟨rfl, rfl, rfl, rfl⟩ | ⟨rfl, rfl, rfl, rfl⟩ <;>
      rcases hq2' with ⟨rfl, rfl, rfl, rfl⟩ | ⟨rfl, rfl, rfl, rfl⟩ | ⟨rfl, rfl, rfl, rfl⟩ |
        ⟨rfl, rfl, rfl, rfl⟩ | ⟨rfl, rfl, rfl, rfl⟩ <;>
      first
        | exact findAll_mismatch hq1 hq2 (by decide) (by decide) k hkc
        | exact absurd rfl hne
        | exact absurd (And.intro rfl rfl) hex
    exact ⟨hnil, render_of_findAll_nil e _ data hnil⟩
  · intro v hk hres hv
    cases k with
    | nil => exact absurd rfl hk
    | cons x xs =>
      have hm : (7, [36, 123], 125, [125]) ∈ syntaxTable := by simp [syntaxTable]
      have := render_plain e data hm [] [] x xs [] [125] (by simp) (by decide) (by simp) hkc
        (by simp) v (by rw [occurrenceValue_plain]; exact hres) hv
      simpa using this

/-- Witness for C7: the key `k`; `{{k]]` is returned unchanged. -/
theorem mismatched_delimiters_witness :
    FindAllStringSubmatchIndex placeholderPattern
        ((([123, 123], [125, 125]) : Str × Str).1 ++ bytes "k"
          ++ (([91, 91], [93, 93]) : Str × Str).2) = [] ∧
    (⟨fun _ => none⟩ : engine).Render
        ((([123, 123], [125, 125]) : Str × Str).1 ++ bytes "k"
          ++ (([91, 91], [93, 93]) : Str × Str).2) [(bytes "k", .str (bytes "v"))]
      = some ((([123, 123], [125, 125]) : Str × Str).1 ++ bytes "k"
          ++ (([91, 91], [93, 93]) : Str × Str).2) :=
  (mismatched_delimiters ⟨fun _ => none⟩ [(bytes "k", .str (bytes "v"))] (bytes "k")
    (by decide)).1 ([123, 123], [125, 125]) (by decide) ([91, 91], [93, 93]) (by decide)
    (by decide) (by decide)

/-- Witness for C2: a text without opening bytes. -/
theorem render_no_occurrence_witness :
    FindAllStringSubmatchIndex placeholderPattern (bytes "plain text ]] >>") = [] ∧
    (⟨fun _ => none⟩ : engine).Render (bytes "plain text ]] >>") []
      = some (bytes "plain text ]] >>") :=
  (render_no_occurrence ⟨fun _ => none⟩ (bytes "plain text ]] >>") []).2 (by decide)

/-- Witness for C10: under `{user: "x"}` the path `user.name` meets a string
where a mapping is needed, under `{user: {}}` it meets a mapping without `name`,
and under `{a: {}}` the path `a` ends on a mapping. -/
theorem lookupValue_failure_witness :
    lookupValue [(bytes "user", .str (bytes "x"))] (bytes "user.name") = some [] ∧
    lookupValue [(bytes "user", .map [])] (bytes "user.name") = some [] ∧
    lookupValue [(bytes "a", .map [])] (bytes "a") = some [] :=
  ⟨(lookupValue_failure [(bytes "user", .str (bytes "x"))] (bytes "user.name")).1
      [bytes "user"] (bytes "name") [] (.str (bytes "x")) (by decide) rfl (Or.inl rfl),
    (lookupValue_failure [(bytes "user", .map [])] (bytes "user.name")).1
      [bytes "user"] (bytes "name") [] (.map []) (by decide) rfl (Or.inr ⟨[], rfl, rfl⟩),
    (lookupValue_failure [(bytes "a", .map [])] (bytes "a")).2 (.map []) rfl (Or.inl rfl)⟩

theorem starLoop_complete (r : Regex) (k : Cont)
    (hr : ∀ (K : Cont) (a b : MState) (m : List Int), Sem r a b → K b = some m →
      ∃ m', r.run K a = some m') :
    ∀ (fuel : Nat) (a c : MState) (m : List Int), Sem (.star r) a c →
      a.rest.length < fuel → k c = some m → ∃ m', starLoop r.run k fuel a = some m' := by
  intro fuel
  induction fuel with
  | zero => intro a c m _ hlt _; exact absurd hlt (Nat.not_lt_zero _)
  | succ n ih =>
    intro a c m hs hlt hk
    cases hs with
    | starNil =>
      rw [starLoop]
      split
      · exact ⟨_, rfl⟩
      · exact ⟨m, hk⟩
    | starCons h1 hpos h2 =>
      rename_i b
      obtain ⟨xs, e1, e2⟩ := h1.consumes
      have hlen : b.rest.length < n := by
        have : 0 < xs.length := by omega
        rw [e1] at hlt
        simp only [List.length_append] at hlt
        omega
      obtain ⟨m1, hm1⟩ := ih b c m h2 hlen hk
      obtain ⟨m2, hm2⟩ := hr (fun st' => if a.pos < st'.pos then starLoop r.run k n st' else none)
        a b m1 h1 (by simp only [hpos, if_true]; exact hm1)
      rw [starLoop, hm2]
      exact ⟨_, rfl⟩

/-- The matcher finds a match whenever the declarative reading allows one: the
counter of `starLoop` never cuts a repetition short. -/
theorem run_complete (r : Regex) : ∀ (k : Cont) (a b : MState) (m : List Int),
    Sem r a b → k b = some m → ∃ m', r.run k a = some m' := by
  induction r with
  | eps =>
    intro k a b m hs hk
    cases hs
    exact ⟨m, by simpa [Regex.run] using hk⟩
  | cls p =>
    intro k a b m hs hk
    cases hs with
    | cls _ pos c cs caps hp => exact ⟨m, by simpa [Regex.run, hp] using hk⟩
  | seq r s ihr ihs =>
    intro k a b m hs hk
    cases hs with
    | seq h1 h2 =>
      obtain ⟨m1, hm1⟩ := ihs k _ _ m h2 hk
      obtain ⟨m2, hm2⟩ := ihr (s.run k) _ _ m1 h1 hm1
      exact ⟨m2, by rw [run_seq]; exact hm2⟩
  | alt r s ihr ihs =>
    intro k a b m hs hk
    rw [run_alt]
    cases hs with
    | altL _ h1 =>
      obtain ⟨m1, hm1⟩ := ihr k _ _ m h1 hk
      rw [hm1]
      exact ⟨_, rfl⟩
    | altR _ h1 =>
      obtain ⟨m1, hm1⟩ := ihs k _ _ m h1 hk
      split
      · exact ⟨_, rfl⟩
      · exact ⟨m1, hm1⟩
  | star r ih =>
    intro k a b m hs hk
    rw [run_star]
    exact starLoop_complete r k ih _ a b m hs (Nat.lt_succ_self _) hk
  | cap i r ih =>
    intro k a b m hs hk
    cases hs with
    | cap _ h1 =>
      rw [run_cap]
      exact ih _ _ _ m h1 hk

/-- C13.  `AddFilter(name, fn)` changes the registry entry of `name` only:
afterwards `name` maps to `fn` and every other name maps to what it mapped to
before.  On the engine of `NewTemplateEngine`, after `AddFilter("title", f)` the
name `titlecase` still holds the built-in title transform, and after
`AddFilter("sentencecase", f)` the name `sentence` still holds the built-in
sentencecase transform. -/
theorem addFilter_frame (e : engine) (name : Str) (fn : FilterFunc) :
    (e.AddFilter name fn).filters name = some fn ∧
    (∀ n, n ≠ name → (e.AddFilter name fn).filters n = e.filters n) ∧
    (∀ (T : CaseTable) (f : FilterFunc),
      ((NewTemplateEngine T).AddFilter (bytes "title") f).filters (bytes "titlecase")
        = some (returning (title T)) ∧
      ((NewTemplateEngine T).AddFilter (bytes "sentencecase") f).filters (bytes "sentence")
        = some (returning (sentencecase T))) := by
  refine ⟨by simp [engine.AddFilter], fun n hn => by simp [engine.AddFilter, hn],
    fun T f => ⟨rfl, rfl⟩⟩

theorem applyFilter_unknown (e : engine) (n val : Str) (h : e.filters n = none) :
    applyFilter e val ⟨n, []⟩ = some val := by
  unfold applyFilter
  split
  · rename_i hc
    exact congrArg some hc.2.symm
  · simp [h]

/-- C12.  An unknown filter name is a no-op: a bare-name invocation whose name
is absent from the registry leaves every value unchanged; and on an engine
without a filter `nosuchfilter`, for a key `k` (one or more bytes of `[\w.-]`)
that resolves to a non-empty `v`, `Render("{{k | nosuchfilter}}", data)` returns
`v` without a panic. -/
theorem unknown_filter_noop (e : engine) (data : Data) (k v : Str) (hk : k ≠ [])
    (hkc : ∀ c ∈ k, isKeyChar c = true) (hres : lookupValue data k = some v) (hv : v ≠ [])
    (hno : e.filters (bytes "nosuchfilter") = none) :
    (∀ (e' : engine) (n val : Str), e'.filters n = none →
      applyFilter e' val ⟨n, []⟩ = some val) ∧
    e.Render (bytes "\x7b\x7b" ++ k ++ bytes " | nosuchfilter\x7d\x7d") data = some v := by
  refine ⟨applyFilter_unknown, ?_⟩
  cases k with
  | nil => exact absurd rfl hk
  | cons x xs =>
    have hb1 : bytes "\x7b\x7b" = [123, 123] := by decide
    have hb2 : bytes " | nosuchfilter\x7d\x7d"
        = 32 :: 124 :: 32 :: bytes "nosuchfilter" ++ [125, 125] := by decide
    have hp : parseFilterChain (32 :: 124 :: 32 :: bytes "nosuchfilter")
        = [⟨bytes "nosuchfilter", []⟩] := by decide
    have hval : occurrenceValue e data (x :: xs) (32 :: 124 :: 32 :: bytes "nosuchfilter")
        = some v := by
      unfold occurrenceValue
      rw [hp, hres]
      simp [applyChain, applyFilter_unknown e _ v hno]
    have := render_curly_filtered e data x xs (bytes "nosuchfilter") hkc (by decide) v hval hv
    rw [← this, hb1, hb2]
    simp [List.append_assoc]

/-- Witness for C12: the key `k` bound to `v`, on the built-in engine. -/
theorem unknown_filter_noop_witness :
    (NewTemplateEngine ⟨id, id⟩).Render
        (bytes "\x7b\x7b" ++ bytes "k" ++ bytes " | nosuchfilter\x7d\x7d")
        [(bytes "k", .str (bytes "v"))] = some (bytes "v") :=
  (unknown_filter_noop (NewTemplateEngine ⟨id, id⟩) [(bytes "k", .str (bytes "v"))] (bytes "k")
    (bytes "v") (by decide) (by decide) (by decide) (by decide) rfl).2

theorem occurrenceValue_congr (e : engine) (d1 d2 : Data)
    (h : ∀ p, lookupValue d1 p = lookupValue d2 p) (key raw : Str) :
    occurrenceValue e d1 key raw = occurrenceValue e d2 key raw := by
  unfold occurrenceValue
  rw [h]

/-- `Render` reads the data mapping through `lookupValue` only. -/
theorem renderLoop_congr (e : engine) (tpl : Str) (d1 d2 : Data)
    (h : ∀ p, lookupValue d1 p = lookupValue d2 p) :
    ∀ (ms : List (List Int)) (last : Int) (b : Str),
      renderLoop e tpl d1 ms last b = renderLoop e tpl d2 ms last b := by
  intro ms
  induction ms with
  | nil => intro last b; simp [renderLoop]
  | cons m ms ih =>
    intro last b
    simp only [renderLoop, occurrenceValue_congr e d1 d2 h, ih]

theorem render_congr (e : engine) (tpl : Str) (d1 d2 : Data)
    (h : ∀ p, lookupValue d1 p = lookupValue d2 p) : e.Render tpl d1 = e.Render tpl d2 := by
  unfold engine.Render
  split
  · rfl
  · exact renderLoop_congr e tpl d1 d2 h _ _ _

theorem lookupValue_bind_empty (d : Data) (k : Str) (hk : mapGet d k = none) (p : Str) :
    lookupValue ((k, .str []) :: d) p = lookupValue d p := by
  unfold lookupValue
  cases hs : Split p 46 with
  | nil => exact absurd hs (Split_ne_nil p 46)
  | cons seg segs =>
    by_cases hkseg : k = seg
    · subst hkseg
      cases segs with
      | nil => simp [lookupLoop, mapGet, hk, stringify]
      | cons s2 rest => simp [lookupLoop, mapGet, hk]
    · simp [lookupLoop, mapGet, hkseg]

/-- C11.  A missing key and a key bound to the empty string are
indistinguishable: when `k` is absent from the top level of `d`, binding `k`
to the empty string changes the result of `lookupValue` for no path, and so
`Render` gives the same output on both mappings, for every engine and
template. -/
theorem missing_vs_empty (d : Data) (k : Str) (hk : mapGet d k = none) :
    (∀ p, lookupValue ((k, .str []) :: d) p = lookupValue d p) ∧
    (∀ (e : engine) (tpl : Str), e.Render tpl ((k, .str []) :: d) = e.Render tpl d) :=
  ⟨lookupValue_bind_empty d k hk,
    fun e tpl => render_congr e tpl _ _ (lookupValue_bind_empty d k hk)⟩

/-- Witness for C11: the key `name` absent from `{otp: "1"}`. -/
theorem missing_vs_empty_witness :
    mapGet [(bytes "otp", .str (bytes "1"))] (bytes "name") = none ∧
    (∀ p, lookupValue ((bytes "name", .str []) :: [(bytes "otp", .str (bytes "1"))]) p
      = lookupValue [(bytes "otp", .str (bytes "1"))] p) :=
  ⟨rfl, (missing_vs_empty [(bytes "otp", .str (bytes "1"))] (bytes "name") rfl).1⟩

theorem digitChar_toNat : ∀ m, m < 10 → (Nat.digitChar m).toNat = 48 + m := by decide

theorem toDigitsCore_ne_nil (fuel n : Nat) (ds : List Char) (h : 0 < fuel ∨ ds ≠ []) :
    Nat.toDigitsCore 10 fuel n ds ≠ [] := by
  induction fuel generalizing n ds with
  | zero =>
    rcases h with h | h
    · exact absurd h (Nat.lt_irrefl 0)
    · simpa [Nat.toDigitsCore] using h
  | succ f ih =>
    rw [Nat.toDigitsCore]
    split
    · simp
    · exact ih _ _ (Or.inr (by simp))

theorem toDigitsCore_value (fuel : Nat) : ∀ (n : Nat) (ds : List Char), n < fuel →
    ((Nat.toDigitsCore 10 fuel n ds).map Char.toNat).foldl (fun acc c => acc * 10 + (c - 48)) 0
      = (ds.map Char.toNat).foldl (fun acc c => acc * 10 + (c - 48)) n := by
  induction fuel with
  | zero => intro n ds h; exact absurd h (Nat.not_lt_zero _)
  | succ f ih =>
    intro n ds h
    have hd : (Nat.digitChar (n % 10)).toNat - 48 = n % 10 := by
      rw [digitChar_toNat _ (Nat.mod_lt _ (by decide))]; omega
    rw [Nat.toDigitsCore]
    split
    · rename_i h0
      simp only [List.map_cons, List.foldl_cons, hd]
      congr 1
      omega
    · rename_i h0
      rw [ih (n / 10) _ (by omega)]
      simp only [List.map_cons, List.foldl_cons, hd]
      congr 1
      omega

theorem toDigitsCore_digits (fuel : Nat) : ∀ (n : Nat) (ds : List Char),
    (∀ c ∈ ds, 48 ≤ c.toNat ∧ c.toNat ≤ 57) →
    ∀ c ∈ Nat.toDigitsCore 10 fuel n ds, 48 ≤ c.toNat ∧ c.toNat ≤ 57 := by
  induction fuel with
  | zero => intro n ds h; simpa [Nat.toDigitsCore] using h
  | succ f ih =>
    intro n ds h
    have hd : 48 ≤ (Nat.digitChar (n % 10)).toNat ∧ (Nat.digitChar (n % 10)).toNat ≤ 57 := by
      rw [digitChar_toNat _ (Nat.mod_lt _ (by decide))]
      have := Nat.mod_lt n (show 0 < 10 by decide)
      omega
    have hcons : ∀ c ∈ Nat.digitChar (n % 10) :: ds, 48 ≤ c.toNat ∧ c.toNat ≤ 57 := by
      intro c hc
      rcases List.mem_cons.mp hc with h1 | h1
      · rw [h1]; exact hd
      · exact h c h1
    rw [Nat.toDigitsCore]
    split
    · exact hcons
    · exact ih _ _ hcons

/-- The text `formatNat` gives is a non-empty string of decimal digits that
denotes the number. -/
theorem formatNat_spec (n : Nat) :
    formatNat n ≠ [] ∧ (∀ c ∈ formatNat n, 48 ≤ c ∧ c ≤ 57) ∧ decimalValue (formatNat n) = n := by
  refine ⟨?_, ?_, ?_⟩
  · unfold formatNat Nat.toDigits
    intro h
    exact toDigitsCore_ne_nil (n + 1) n [] (Or.inl (Nat.succ_pos _)) (List.map_eq_nil_iff.mp h)
  · intro c hc
    unfold formatNat Nat.toDigits at hc
    obtain ⟨ch, hch, rfl⟩ := List.mem_map.mp hc
    exact toDigitsCore_digits (n + 1) n [] (by simp) ch hch
  · unfold decimalValue formatNat Nat.toDigits
    rw [toDigitsCore_value (n + 1) n [] (Nat.lt_succ_self _)]
    rfl

theorem formatInt_ne_nil (n : Int) : formatInt n ≠ [] := by
  cases n with
  | ofNat m => exact (formatNat_spec m).1
  | negSucc m => simp [formatInt]

theorem mapGet_first (pre post : Data) (k : Str) (val : Value) (h : ∀ q ∈ pre, q.1 ≠ k) :
    mapGet (pre ++ (k, val) :: post) k = some val := by
  induction pre with
  | nil => simp [mapGet]
  | cons q qs ih =>
    obtain ⟨k0, v0⟩ := q
    have h0 : k0 ≠ k := h (k0, v0) (by simp)
    rw [List.cons_append, mapGet, if_neg h0]
    exact ih (fun q hq => h q (by simp [hq]))

/-- The lookup of a key without a dot in a mapping whose binding of the key is
`val`: the type switch on `val`. -/
theorem lookupValue_bound (pre post : Data) (k : Str) (val : Value) (hk : 46 ∉ k)
    (h : ∀ q ∈ pre, q.1 ≠ k) :
    lookupValue (pre ++ (k, val) :: post) k = stringify val := by
  unfold lookupValue
  rw [Split_no_sep k 46 hk]
  simp [lookupLoop, mapGet_first pre post k val h]

/-- `Render` on the template `{{key}}` when the key resolves to a non-empty
value. -/
theorem render_curly_plain (e : engine) (data : Data) (k : Str) (hk : k ≠ [])
    (hkc : ∀ c ∈ k, isKeyChar c = true) (val : Str) (hv : lookupValue data k = some val)
    (hne : val ≠ []) :
    e.Render ([123, 123] ++ k ++ [125, 125]) data = some val := by
  cases k with
  | nil => exact absurd rfl hk
  | cons x xs =>
    have := render_plain e data curly_mem_syntaxTable [] [] x xs [] [] (by simp) (by simp)
      (by simp) hkc (by simp) val (by rw [occurrenceValue_plain]; exact hv) hne
    simpa using this

/-- Counterexample to C17 as stated: an integer of a type that the switch of
`lookupValue` does not list (an `int32`, a `uint`) is stringified to the empty
string, so the value 0 of such a type leaves the placeholder unresolved; and a
top-level key that contains a dot is not found under its own name. -/
theorem scalars_stringified_counterexample :
    lookupValue [(bytes "n", .otherInt 5)] (bytes "n") = some [] ∧
    (⟨fun _ => none⟩ : engine).Render (bytes "\x7b\x7bn\x7d\x7d") [(bytes "n", .otherInt 0)]
      = some (bytes "\x7b\x7bn\x7d\x7d") ∧
    lookupValue [(bytes "a.b", .str (bytes "x"))] (bytes "a.b") = some [] := by
  refine ⟨?_, ?_, ?_⟩ <;> decide

/-- C17 as amended.  Terminal scalars of the types that the switch of
`lookupValue` lists are stringified in their natural textual form: in every
mapping, a key `k` without a dot whose binding is a string gives that string,
a boolean gives `true` or `false`, an `int` or `int64` `n` gives the decimal
digits of `n` (after a minus sign when `n` is negative).  These texts are never
empty, so `false` and the `int` or `int64` 0 are substituted by `Render`
instead of leaving the placeholder unresolved, for every engine. -/
theorem scalars_stringified (e : engine) (pre post : Data) (k : Str) (hk : k ≠ [])
    (hkc : ∀ c ∈ k, isKeyChar c = true) (hdot : 46 ∉ k) (hpre : ∀ q ∈ pre, q.1 ≠ k) :
    (∀ s : Str, lookupValue (pre ++ (k, .str s) :: post) k = some s) ∧
    lookupValue (pre ++ (k, .bool true) :: post) k = some (bytes "true") ∧
    lookupValue (pre ++ (k, .bool false) :: post) k = some (bytes "false") ∧
    (∀ n : Nat, lookupValue (pre ++ (k, .int (n : Int)) :: post) k = some (formatNat n) ∧
      lookupValue (pre ++ (k, .int64 (n : Int)) :: post) k = some (formatNat n) ∧
      lookupValue (pre ++ (k, .int (-(n : Int) - 1)) :: post) k
        = some (45 :: formatNat (n + 1)) ∧
      lookupValue (pre ++ (k, .int64 (-(n : Int) - 1)) :: post) k
        = some (45 :: formatNat (n + 1)) ∧
      formatNat n ≠ [] ∧ (∀ c ∈ formatNat n, 48 ≤ c ∧ c ≤ 57) ∧
      decimalValue (formatNat n) = n) ∧
    e.Render ([123, 123] ++ k ++ [125, 125]) (pre ++ (k, .bool false) :: post)
      = some (bytes "false") ∧
    e.Render ([123, 123] ++ k ++ [125, 125]) (pre ++ (k, .int 0) :: post) = some (bytes "0") ∧
    e.Render ([123, 123] ++ k ++ [125, 125]) (pre ++ (k, .int64 0) :: post)
      = some (bytes "0") := by
  have hneg : ∀ n : Nat, -(n : Int) - 1 = Int.negSucc n := by
    intro n; rw [Int.negSucc_eq]; omega
  refine ⟨fun s => lookupValue_bound pre post k _ hdot hpre,
    lookupValue_bound pre post k _ hdot hpre, lookupValue_bound pre post k _ hdot hpre,
    fun n => ⟨lookupValue_bound pre post k _ hdot hpre, lookupValue_bound pre post k _ hdot hpre,
      ?_, ?_, formatNat_spec n⟩, ?_, ?_, ?_⟩
  · rw [lookupValue_bound pre post k _ hdot hpre, hneg]; rfl
  · rw [lookupValue_bound pre post k _ hdot hpre, hneg]; rfl
  · exact render_curly_plain e _ k hk hkc (bytes "false")
      (lookupValue_bound pre post k _ hdot hpre) (by decide)
  · exact render_curly_plain e _ k hk hkc (bytes "0")
      (lookupValue_bound pre post k _ hdot hpre) (by decide)
  · exact render_curly_plain e _ k hk hkc (bytes "0")
      (lookupValue_bound pre post k _ hdot hpre) (by decide)

/-- Witness for C17: the key `n` bound after another key, with no filter
registered. -/
theorem scalars_stringified_witness :
    (⟨fun _ => none⟩ : engine).Render ([123, 123] ++ bytes "n" ++ [125, 125])
        ([(bytes "m", .str (bytes "x"))] ++ (bytes "n", .int 0) :: []) = some (bytes "0") ∧
    lookupValue ([(bytes "m", .str (bytes "x"))] ++ (bytes "n", .int (-(119 : Nat) - 1)) :: [])
      (bytes "n") = some (bytes "-120") :=
  ⟨(scalars_stringified ⟨fun _ => none⟩ [(bytes "m", .str (bytes "x"))] [] (bytes "n")
      (by decide) (by decide) (by decide) (by decide)).2.2.2.2.2.1,
    ((scalars_stringified ⟨fun _ => none⟩ [(bytes "m", .str (bytes "x"))] [] (bytes "n")
      (by decide) (by decide) (by decide) (by decide)).2.2.2.1 119).2.2.1⟩

theorem Sem.minLen_le {r : Regex} {a b : MState} (h : Sem r a b) :
    a.pos + r.minLen ≤ b.pos := by
  induction h with
  | eps a => simp [Regex.minLen]
  | cls p pos c cs caps h => simp [Regex.minLen]
  | seq _ _ ih1 ih2 => simp only [Regex.minLen]; omega
  | altL s _ ih => simp only [Regex.minLen]; omega
  | altR r _ ih => simp only [Regex.minLen]; omega
  | starNil r a => simp [Regex.minLen]
  | starCons _ hlt _ _ ih2 => simp only [Regex.minLen] at ih2 ⊢; omega
  | cap i _ ih => simpa [Regex.minLen] using ih

theorem placeholderPattern_minLen : placeholderPattern.minLen = 4 := by decide

/-- A match of `placeholderPattern` is not empty. -/
theorem matchAt_nonempty (pos : Nat) (rest : Str) (m : List Int)
    (h : matchAt placeholderPattern pos rest = some m) :
    ∃ stop : Nat, m[0]? = some (pos : Int) ∧ m[1]? = some (stop : Int) ∧ pos < stop ∧
      stop ≤ pos + rest.length ∧ SlotsOK (pos + rest.length) m := by
  obtain ⟨stop, h0, h1, _, h3, h4⟩ := matchAt_spec placeholderPattern pos rest m h
  refine ⟨stop, h0, h1, ?_, h3, h4⟩
  unfold matchAt at h
  obtain ⟨st', hs, hk⟩ := run_sound placeholderPattern _ _ _ h
  have hmin := hs.minLen_le
  rw [placeholderPattern_minLen] at hmin
  simp only at hmin
  have hc := hs.slotsOK (pos + rest.length) rfl (slotsOK_replicate _)
  have h1' : m[1]? = some (st'.pos : Int) := by
    simp only [Option.some.injEq] at hk
    rw [← hk, List.getElem?_set]
    simp [hc.1, numSlots]
  rw [h1] at h1'
  simp only [Option.some.injEq, Nat.cast_inj] at h1'
  omega

theorem scanFrom_spansOK (n : Nat) : ∀ (rest : Str) (pos resume : Nat),
    pos + rest.length = n → resume ≤ n →
    spansOK n (resume : Int) (scanFrom placeholderPattern pos resume rest) = true := by
  intro rest
  induction rest with
  | nil =>
    intro pos resume _ hr
    simp only [scanFrom, spansOK, decide_eq_true_eq]
    omega
  | cons c cs ih =>
    intro pos resume hn hr
    simp only [List.length_cons] at hn
    rw [scanFrom]
    split
    · exact ih (pos + 1) resume (by omega) hr
    · rename_i hlt
      split
      · rename_i m hm
        obtain ⟨stop, h0, h1, h2, h3, _⟩ := matchAt_nonempty pos (c :: cs) m hm
        simp only [List.length_cons] at h3
        have hd : (m.getD 1 0).toNat = stop := by
          rw [List.getD_eq_getElem?_getD, h1]; simp
        rw [hd, spansOK]
        simp only [h0, h1, Bool.and_eq_true, decide_eq_true_eq]
        exact ⟨by omega, ih (pos + 1) stop (by omega) (by omega)⟩
      · exact ih (pos + 1) resume (by omega) hr

theorem lookupValue_empty_data (path : Str) : lookupValue [] path = some [] := by
  unfold lookupValue
  cases hs : Split path 46 with
  | nil => exact absurd hs (Split_ne_nil path 46)
  | cons seg segs => simp [lookupLoop, mapGet]

theorem Ordered.slotsOK_mem {n : Nat} : ∀ {last : Nat} {ms : List (List Int)},
    Ordered n last ms → ∀ m ∈ ms, SlotsOK n m := by
  intro last ms h
  induction h with
  | nil _ _ => intro m hm; simp at hm
  | cons _ _ _ _ _ _ _ _ _ _ hok _ ih =>
    intro m hm
    rcases List.mem_cons.mp hm with rfl | hm
    · exact hok
    · exact ih m hm

/-- On ordered matches with well formed slots the loop of `Render` raises no
panic when the value of no occurrence does: no slice is out of bounds. -/
theorem renderLoop_some (e : engine) (tpl : Str) (data : Data) :
    ∀ (ms : List (List Int)) (last : Nat) (b : Str), Ordered tpl.length last ms →
      (∀ m ∈ ms, ∀ key raw, pickGroups tpl m placeholderGroups = some (key, raw) →
        occurrenceValue e data key raw ≠ none) →
      ∃ out, renderLoop e tpl data ms (last : Int) b = some out := by
  intro ms
  induction ms with
  | nil =>
    intro last b ho _
    cases ho with
    | nil _ hl =>
      rw [renderLoop, slice_nat tpl last tpl.length hl (le_refl _)]
      exact ⟨_, rfl⟩
  | cons m ms ih =>
    intro last b ho hv
    cases ho with
    | cons _ s t _ _ h0 h1 hls hse hen hok hrest =>
      obtain ⟨⟨key, raw⟩, hkr⟩ := pickGroups_some tpl m hok placeholderGroups
      have hrec := fun b => ih t b hrest (fun m' hm' => hv m' (List.mem_cons_of_mem _ hm'))
      rw [renderLoop]
      simp only [h0, h1]
      rw [slice_nat tpl last s hls (by omega)]
      simp only [hkr]
      cases hval : occurrenceValue e data key raw with
      | none => exact absurd hval (hv m (List.mem_cons_self _ _) key raw hkr)
      | some val =>
        simp only
        split
        · exact hrec _
        · rw [slice_nat tpl s t hse hen]
          exact hrec _

/-- The loop of `Render` panics when the value of an occurrence does. -/
theorem renderLoop_none (e : engine) (tpl : Str) (data : Data) :
    ∀ (ms : List (List Int)) (last : Nat) (b : Str), Ordered tpl.length last ms →
      (∃ m ∈ ms, ∃ key raw, pickGroups tpl m placeholderGroups = some (key, raw) ∧
        occurrenceValue e data key raw = none) →
      renderLoop e tpl data ms (last : Int) b = none := by
  intro ms
  induction ms with
  | nil =>
    intro last b _ h
    obtain ⟨m, hm, _⟩ := h
    simp at hm
  | cons m ms ih =>
    intro last b ho h
    cases ho with
    | cons _ s t _ _ h0 h1 hls hse hen hok hrest =>
      obtain ⟨⟨key, raw⟩, hkr⟩ := pickGroups_some tpl m hok placeholderGroups
      rw [renderLoop]
      simp only [h0, h1]
      rw [slice_nat tpl last s hls (by omega)]
      simp only [hkr]
      cases hval : occurrenceValue e data key raw with
      | none => rfl
      | some val =>
        have hrest' : ∃ m' ∈ ms, ∃ key raw, pickGroups tpl m' placeholderGroups = some (key, raw) ∧
            occurrenceValue e data key raw = none := by
          obtain ⟨m', hm', key', raw', hp', hv'⟩ := h
          rcases List.mem_cons.mp hm' with rfl | hm'
          · rw [hkr] at hp'
            simp only [Option.some.injEq, Prod.mk.injEq] at hp'
            obtain ⟨rfl, rfl⟩ := hp'
            rw [hval] at hv'
            exact absurd hv' (by simp)
          · exact ⟨m', hm', key', raw', hp', hv'⟩
        simp only
        split
        · exact ih t _ hrest hrest'
        · rw [slice_nat tpl s t hse hen]
          exact ih t _ hrest hrest'

/-- `Render` panics exactly when the value of one of the occurrences does. -/
theorem render_none_iff (e : engine) (tpl : Str) (data : Data) :
    e.Render tpl data = none ↔
      ∃ m ∈ FindAllStringSubmatchIndex placeholderPattern tpl, ∃ key raw,
        pickGroups tpl m placeholderGroups = some (key, raw) ∧
        occurrenceValue e data key raw = none := by
  have ho := findAll_ordered placeholderPattern tpl
  constructor
  · intro hn
    by_contra hc
    have hv : ∀ m ∈ FindAllStringSubmatchIndex placeholderPattern tpl, ∀ key raw,
        pickGroups tpl m placeholderGroups = some (key, raw) →
        occurrenceValue e data key raw ≠ none :=
      fun m hm key raw hp hval => hc ⟨m, hm, key, raw, hp, hval⟩
    unfold engine.Render at hn
    split at hn
    · simp at hn
    · rename_i m ms heq
      rw [heq] at ho hv
      obtain ⟨out, hout⟩ := renderLoop_some e tpl data (m :: ms) 0 [] ho hv
      have hout' : renderLoop e tpl data (m :: ms) 0 [] = some out := by simpa using hout
      rw [hout'] at hn
      simp at hn
  · intro h
    unfold engine.Render
    split
    · rename_i heq
      obtain ⟨m, hm, _⟩ := h
      rw [heq] at hm
      simp at hm
    · rename_i m ms heq
      rw [heq] at ho h
      have := renderLoop_none e tpl data (m :: ms) 0 [] ho h
      simpa using this

theorem applyChain_returns (e : engine)
    (hF : ∀ name fn v, e.filters name = some fn → fn v ≠ none) :
    ∀ (chain : List filter) (v : Str), applyChain e chain v ≠ none := by
  intro chain
  induction chain with
  | nil => intro v; simp [applyChain]
  | cons f fs ih =>
    intro v
    rw [applyChain]
    cases hq : applyFilter e v f with
    | some w => exact ih w
    | none =>
      exfalso
      unfold applyFilter at hq
      split at hq
      · simp at hq
      · split at hq
        · rename_i fn hfn
          exact hF _ fn v hfn hq
        · simp at hq

theorem newEngine_filters_return (T : CaseTable) (name : Str) (fn : FilterFunc) (v : Str)
    (h : (NewTemplateEngine T).filters name = some fn) : fn v ≠ none := by
  simp only [NewTemplateEngine, engine.AddFilter] at h
  split_ifs at h <;> (cases h; simp [returning, engine.get, engine.AddFilter])

/-- Counterexample to C18 as stated: `Render` panics when the `String` method
of a looked-up value panics (a nil `*strings.Builder` bound to `k`), and when a
registered filter does (the nil function registered as `f`). -/
theorem occurrences_ordered_in_bounds_counterexample :
    (⟨fun _ => none⟩ : engine).Render (bytes "\x7b\x7bk\x7d\x7d") [(bytes "k", .stringer none)]
      = none ∧
    ((⟨fun _ => none⟩ : engine).AddFilter (bytes "f") (fun _ => none)).Render
        (bytes "\x7b\x7bk | f\x7d\x7d") [(bytes "k", .str (bytes "v"))] = none := by
  constructor <;> decide

/-- C18 as amended.  For every template the matches handed to `Render` are
ordered and do not overlap and lie inside the template: each span has
`0 <= start < end <= len(template)` and starts at or after the end of the one
before; so no slice that `Render` takes is out of bounds: `Render` panics
exactly when the value of an occurrence does, inside a `String` method or a
registered filter, and never when every `String` method reached and every
registered filter returns. -/
theorem occurrences_ordered_in_bounds (e : engine) (tpl : Str) (data : Data) :
    spansOK tpl.length 0 (FindAllStringSubmatchIndex placeholderPattern tpl) = true ∧
    (∀ m ∈ FindAllStringSubmatchIndex placeholderPattern tpl,
      ∃ key raw, pickGroups tpl m placeholderGroups = some (key, raw)) ∧
    (e.Render tpl data = none ↔
      ∃ m ∈ FindAllStringSubmatchIndex placeholderPattern tpl, ∃ key raw,
        pickGroups tpl m placeholderGroups = some (key, raw) ∧
        occurrenceValue e data key raw = none) ∧
    ((∀ path, lookupValue data path ≠ none) →
      (∀ name fn v, e.filters name = some fn → fn v ≠ none) →
      ∃ out, e.Render tpl data = some out) := by
  refine ⟨?_, ?_, render_none_iff e tpl data, ?_⟩
  · have := scanFrom_spansOK tpl.length tpl 0 0 (by simp) (Nat.zero_le _)
    simpa [FindAllStringSubmatchIndex] using this
  · intro m hm
    obtain ⟨⟨key, raw⟩, hkr⟩ := pickGroups_some tpl m
      ((findAll_ordered placeholderPattern tpl).slotsOK_mem m hm) placeholderGroups
    exact ⟨key, raw, hkr⟩
  · intro hS hF
    cases hr : e.Render tpl data with
    | some out => exact ⟨out, rfl⟩
    | none =>
      exfalso
      obtain ⟨m, _, key, raw, _, hv⟩ := (render_none_iff e tpl data).mp hr
      unfold occurrenceValue at hv
      cases hl : lookupValue data key with
      | none => exact hS key hl
      | some v =>
        rw [hl] at hv
        exact applyChain_returns e hF _ v hv

/-- Witness for C18: the built-in engine on the empty mapping. -/
theorem occurrences_ordered_in_bounds_witness :
    ∃ out, (NewTemplateEngine ⟨id, id⟩).Render (bytes "a \x7b\x7bk | trim\x7d\x7d b") []
      = some out :=
  (occurrences_ordered_in_bounds (NewTemplateEngine ⟨id, id⟩)
    (bytes "a \x7b\x7bk | trim\x7d\x7d b") []).2.2.2
    (fun path => by rw [lookupValue_empty_data]; simp)
    (fun name fn v h => newEngine_filters_return ⟨id, id⟩ name fn v h)

theorem stripQuotes_wrapped (q : Nat) (X : Str) (hq : q = 34 ∨ q = 39) :
    stripQuotes (q :: (X ++ [q])) = X := by
  unfold stripQuotes
  have h1 : (q :: (X ++ [q])).length ≥ 2 := by simp
  have h2 : (q :: (X ++ [q])).getLast? = some q := by
    rw [← List.cons_append, List.getLast?_append]; simp
  have h3 : (q = 34 ∧ q = 34) ∨ (q = 39 ∧ q = 39) := by
    rcases hq with h | h
    · exact Or.inl ⟨h, h⟩
    · exact Or.inr ⟨h, h⟩
  simp only [h1, if_true, List.head?_cons, h2, Option.some.injEq, h3]
  simp

/-- The segment `default:qXq`, with `q` a single or a double quote, parses to
the `default` invocation with argument `X`. -/
theorem parseParts_default_quoted (q : Nat) (X : Str) (hq : q = 34 ∨ q = 39) :
    parseParts [bytes "default:" ++ q :: X ++ [q]] = [⟨bytes "default", X⟩] := by
  have hb3 : bytes "default:" = [100, 101, 102, 97, 117, 108, 116, 58] := by decide
  have hq80 : q < 0x80 := by rcases hq with h | h <;> omega
  have hqs : asciiSpace q = false := by rcases hq with h | h <;> subst h <;> decide
  have ht : TrimSpace (bytes "default:" ++ q :: X ++ [q])
      = 100 :: ([101, 102, 97, 117, 108, 116, 58] ++ q :: X ++ [q]) := by
    rw [hb3]
    have := TrimSpace_fixed 100 q ([101, 102, 97, 117, 108, 116, 58] ++ q :: X) (by decide)
      (by decide) hq80 hqs
    simpa using this
  have hqq : TrimSpace (q :: (X ++ [q])) = q :: (X ++ [q]) :=
    TrimSpace_fixed q q X hq80 hqs hq80 hqs
  rw [parseParts, ht, hb3]
  simp only [List.cons_append, List.nil_append, List.drop_succ_cons, List.drop_zero, hqq,
    stripQuotes_wrapped q X hq, parseParts]
  simp [HasPrefix, List.isPrefixOf]

theorem stripQuotes_unwrapped (a : Str)
    (h : a.length < 2 ∨ ¬ ((a.head? = some 34 ∧ a.getLast? = some 34)
      ∨ (a.head? = some 39 ∧ a.getLast? = some 39))) :
    stripQuotes a = a := by
  unfold stripQuotes
  rcases h with h | h
  · have : ¬ a.length ≥ 2 := by omega
    simp [this]
  · simp only [h, if_false]
    split <;> rfl

theorem HasPrefix_ne_nil (s pre : Str) (hpre : pre ≠ []) (h : HasPrefix s pre = true) :
    s ≠ [] := by
  intro hs
  subst hs
  cases pre with
  | nil => exact hpre rfl
  | cons c cs => simp [HasPrefix, List.isPrefixOf] at h

/-- C15.  Quote stripping of the default argument: for a string `s` without
`|`, the texts `default:'s'` and `default:"s"` parse to the single invocation
`default` with argument `s` (one pair of quotes removed, the inside kept as it
is); and for a segment that starts with `default:` after trimming, when the
trimmed argument is shorter than two bytes or is not wrapped in one pair of
the same quote character, the argument is the trimmed text unchanged, quotes
included. -/
theorem default_quote_stripping (s : Str) (hs : 124 ∉ s) :
    parseFilterChain (bytes "default:'" ++ s ++ bytes "'") = [⟨bytes "default", s⟩] ∧
    parseFilterChain (bytes "default:" ++ 34 :: s ++ [34]) = [⟨bytes "default", s⟩] ∧
    (∀ seg : Str, 124 ∉ seg → HasPrefix (TrimSpace seg) (bytes "default:") = true →
      ((TrimSpace ((TrimSpace seg).drop 8)).length < 2 ∨
        ¬ (((TrimSpace ((TrimSpace seg).drop 8)).head? = some 34 ∧
              (TrimSpace ((TrimSpace seg).drop 8)).getLast? = some 34)
          ∨ ((TrimSpace ((TrimSpace seg).drop 8)).head? = some 39 ∧
              (TrimSpace ((TrimSpace seg).drop 8)).getLast? = some 39))) →
      parseFilterChain seg = [⟨bytes "default", TrimSpace ((TrimSpace seg).drop 8)⟩]) := by
  have hd : 124 ∉ bytes "default:" := by decide
  refine ⟨?_, ?_, ?_⟩
  · have e1 : bytes "default:'" ++ s ++ bytes "'" = bytes "default:" ++ 39 :: s ++ [39] := by
      have h1 : bytes "default:'" = bytes "default:" ++ [39] := by decide
      have h2 : bytes "'" = [39] := by decide
      rw [h1, h2]; simp
    rw [e1, parseFilterChain_eq, Split_no_sep _ 124 (by
      simp only [List.mem_append, List.mem_cons, List.mem_singleton, not_or, List.not_mem_nil]
      exact ⟨⟨hd, by decide, hs⟩, by decide, not_false⟩)]
    exact parseParts_default_quoted 39 s (Or.inr rfl)
  · rw [parseFilterChain_eq, Split_no_sep _ 124 (by
      simp only [List.mem_append, List.mem_cons, List.mem_singleton, not_or, List.not_mem_nil]
      exact ⟨⟨hd, by decide, hs⟩, by decide, not_false⟩)]
    exact parseParts_default_quoted 34 s (Or.inl rfl)
  · intro seg hseg hpre hcond
    have hne : TrimSpace seg ≠ [] := HasPrefix_ne_nil _ _ (by decide) hpre
    rw [parseFilterChain_eq, Split_no_sep seg 124 hseg, parseParts]
    simp only [hne, if_false, hpre, if_true, stripQuotes_unwrapped _ hcond, parseParts]

/-- Witness for C15: `default:'a b'` and `default:"a b"` give `a b`; the
unbalanced `default:'a` keeps its quote. -/
theorem default_quote_stripping_witness :
    parseFilterChain (bytes "default:'" ++ bytes "a b" ++ bytes "'")
      = [⟨bytes "default", bytes "a b"⟩] ∧
    parseFilterChain (bytes "default:" ++ 34 :: bytes "a b" ++ [34])
      = [⟨bytes "default", bytes "a b"⟩] ∧
    parseFilterChain (bytes " default: 'a ") = [⟨bytes "default", bytes "'a"⟩] :=
  ⟨(default_quote_stripping (bytes "a b") (by decide)).1,
    (default_quote_stripping (bytes "a b") (by decide)).2.1,
    (default_quote_stripping (bytes "a b") (by decide)).2.2 (bytes " default: 'a ")
      (by decide) (by decide) (by decide)⟩

/-- Every function in the registry of `NewTemplateEngine` maps the empty string
to the empty string. -/
theorem newEngine_filters_empty (T : CaseTable) (name : Str) (fn : FilterFunc)
    (h : (NewTemplateEngine T).filters name = some fn) : fn [] = some [] := by
  simp only [NewTemplateEngine, engine.AddFilter] at h
  split_ifs at h <;> (cases h; rfl)

theorem applyChain_empty (T : CaseTable) : ∀ chain : List filter,
    (∀ f ∈ chain, f.name = bytes "default" → f.args = []) →
    applyChain (NewTemplateEngine T) chain [] = some [] := by
  intro chain
  induction chain with
  | nil => intro _; rfl
  | cons f fs ih =>
    intro h
    have hf : applyFilter (NewTemplateEngine T) [] f = some [] := by
      unfold applyFilter
      split
      · rename_i hc
        exact congrArg some (h f (by simp) hc.1)
      · split
        · rename_i fn hfn
          exact newEngine_filters_empty T f.name fn hfn
        · rfl
    rw [applyChain, hf]
    exact ih (fun g hg => h g (List.mem_cons_of_mem _ hg))

theorem render_all_empty (e : engine) (tpl : Str) (data : Data)
    (h : ∀ m ∈ FindAllStringSubmatchIndex placeholderPattern tpl, ∀ key raw,
      pickGroups tpl m placeholderGroups = some (key, raw) →
      occurrenceValue e data key raw = some []) :
    e.Render tpl data = some tpl := by
  unfold engine.Render
  have ho := findAll_ordered placeholderPattern tpl
  split
  · rfl
  · rename_i m ms heq
    rw [heq] at ho h
    have := renderLoop_unresolved e tpl data (m :: ms) 0 [] ho h
    simpa using this

/-- C19.  Every filter registered by `NewTemplateEngine` (`uppercase`,
`lowercase`, `trim`, `capitalize`, `title`, `titlecase`, `sentencecase`,
`sentence`) maps the empty string to the empty string; so with that engine and
the empty mapping, a template none of whose placeholders carries a `default`
invocation with a non-empty argument is returned unchanged. -/
theorem builtin_filters_keep_empty (T : CaseTable) (tpl : Str)
    (h : ∀ m ∈ FindAllStringSubmatchIndex placeholderPattern tpl, ∀ key raw,
      pickGroups tpl m placeholderGroups = some (key, raw) →
      ∀ f ∈ parseFilterChain raw, f.name = bytes "default" → f.args = []) :
    (∀ name ∈ [bytes "uppercase", bytes "lowercase", bytes "trim", bytes "capitalize",
        bytes "title", bytes "titlecase", bytes "sentencecase", bytes "sentence"],
      ∃ fn, (NewTemplateEngine T).filters name = some fn ∧ fn [] = some []) ∧
    (∀ name fn, (NewTemplateEngine T).filters name = some fn → fn [] = some []) ∧
    (NewTemplateEngine T).Render tpl [] = some tpl := by
  refine ⟨?_, newEngine_filters_empty T, ?_⟩
  · intro name hname
    simp only [List.mem_cons, List.mem_singleton, List.not_mem_nil, or_false] at hname
    rcases hname with rfl | rfl | rfl | rfl | rfl | rfl | rfl | rfl
    · exact ⟨returning (ToUpper T), rfl, rfl⟩
    · exact ⟨returning (ToLower T), rfl, rfl⟩
    · exact ⟨returning TrimSpace, rfl, rfl⟩
    · exact ⟨returning (capitalize T), rfl, rfl⟩
    · exact ⟨returning (title T), rfl, rfl⟩
    · exact ⟨returning (title T), rfl, rfl⟩
    · exact ⟨returning (sentencecase T), rfl, rfl⟩
    · exact ⟨returning (sentencecase T), rfl, rfl⟩
  · apply render_all_empty
    intro m hm key raw hp
    unfold occurrenceValue
    rw [lookupValue_empty_data]
    exact applyChain_empty T _ (h m hm key raw hp)

/-- Witness for C19: the template `Hi {{name | uppercase | default:''}}`. -/
theorem builtin_filters_keep_empty_witness :
    (NewTemplateEngine ⟨id, id⟩).Render
        (bytes "Hi \x7b\x7bname | uppercase | default:''\x7d\x7d") []
      = some (bytes "Hi \x7b\x7bname | uppercase | default:''\x7d\x7d") :=
  (builtin_filters_keep_empty ⟨id, id⟩
    (bytes "Hi \x7b\x7bname | uppercase | default:''\x7d\x7d") (by
      have hf : FindAllStringSubmatchIndex placeholderPattern
          (bytes "Hi \x7b\x7bname | uppercase | default:''\x7d\x7d")
          = [[3, 36, 5, 9, 9, 34, 9, 34, -1, -1, -1, -1, -1, -1, -1, -1, -1, -1, -1, -1, -1, -1,
              -1, -1, -1, -1, -1, -1, -1, -1, -1, -1]] := by decide
      intro m hm key raw hp
      rw [hf] at hm
      simp only [List.mem_singleton] at hm
      subst hm
      have hg : pickGroups (bytes "Hi \x7b\x7bname | uppercase | default:''\x7d\x7d")
          [3, 36, 5, 9, 9, 34, 9, 34, -1, -1, -1, -1, -1, -1, -1, -1, -1, -1, -1, -1, -1, -1,
              -1, -1, -1, -1, -1, -1, -1, -1, -1, -1] placeholderGroups
          = some (bytes "name", bytes " | uppercase | default:''") := by decide
      rw [hg] at hp
      simp only [Option.some.injEq, Prod.mk.injEq] at hp
      obtain ⟨rfl, rfl⟩ := hp
      decide)).2.2

theorem Sem.seq_inv {r s : Regex} {a c : MState} (h : Sem (.seq r s) a c) :
    ∃ b, Sem r a b ∧ Sem s b c := by
  cases h with
  | seq h1 h2 => exact ⟨_, h1, h2⟩

theorem Sem.alt_inv {r s : Regex} {a b : MState} (h : Sem (.alt r s) a b) :
    Sem r a b ∨ Sem s a b := by
  cases h with
  | altL _ h1 => exact Or.inl h1
  | altR _ h1 => exact Or.inr h1

theorem Sem.cap_inv {i : Nat} {r : Regex} {a c : MState} (h : Sem (.cap i r) a c) :
    ∃ b, Sem r a b ∧ c = ⟨b.pos, b.rest,
      (b.caps.set (2 * i) (a.pos : Int)).set (2 * i + 1) (b.pos : Int)⟩ := by
  cases h with
  | cap _ h1 => exact ⟨_, h1, rfl⟩

/-- The bytes a step consumes all lie in `P` when every class of the
expression does. -/
theorem Sem.consumes_in {r : Regex} {a b : MState} (h : Sem r a b) (P : Nat → Prop)
    (hP : r.charsIn P) :
    ∃ xs, a.rest = xs ++ b.rest ∧ b.pos = a.pos + xs.length ∧ ∀ x ∈ xs, P x := by
  induction h with
  | eps a => exact ⟨[], by simp⟩
  | cls p pos c cs caps h =>
    exact ⟨[c], by simp, by simp, by
      intro x hx
      simp only [List.mem_singleton] at hx
      subst hx
      exact hP x h⟩
  | seq _ _ ih1 ih2 =>
    obtain ⟨xs, h1, h2, h3⟩ := ih1 hP.1
    obtain ⟨ys, h4, h5, h6⟩ := ih2 hP.2
    refine ⟨xs ++ ys, by simp [h1, h4], by simp [h2, h5]; omega, ?_⟩
    intro x hx
    rcases List.mem_append.mp hx with hx | hx
    · exact h3 x hx
    · exact h6 x hx
  | altL s _ ih => exact ih hP.1
  | altR r _ ih => exact ih hP.2
  | starNil r a => exact ⟨[], by simp⟩
  | starCons _ _ _ ih1 ih2 =>
    obtain ⟨xs, h1, h2, h3⟩ := ih1 hP
    obtain ⟨ys, h4, h5, h6⟩ := ih2 hP
    refine ⟨xs ++ ys, by simp [h1, h4], by simp [h2, h5]; omega, ?_⟩
    intro x hx
    rcases List.mem_append.mp hx with hx | hx
    · exact h3 x hx
    · exact h6 x hx
  | cap i _ ih => exact ih hP

/-- A step changes only the slots of the groups of the expression, and never
the number of slots. -/
theorem Sem.caps_frame {r : Regex} {a b : MState} (h : Sem r a b) :
    b.caps.length = a.caps.length ∧
    ∀ j, (∀ i ∈ r.groups, j ≠ 2 * i ∧ j ≠ 2 * i + 1) → b.caps[j]? = a.caps[j]? := by
  induction h with
  | eps a => exact ⟨rfl, fun _ _ => rfl⟩
  | cls p pos c cs caps h => exact ⟨rfl, fun _ _ => rfl⟩
  | seq _ _ ih1 ih2 =>
    refine ⟨by rw [ih2.1, ih1.1], fun j hj => ?_⟩
    rw [ih2.2 j (fun i hi => hj i (by simp [Regex.groups, hi])),
      ih1.2 j (fun i hi => hj i (by simp [Regex.groups, hi]))]
  | altL s _ ih =>
    exact ⟨ih.1, fun j hj => ih.2 j (fun i hi => hj i (by simp [Regex.groups, hi]))⟩
  | altR r _ ih =>
    exact ⟨ih.1, fun j hj => ih.2 j (fun i hi => hj i (by simp [Regex.groups, hi]))⟩
  | starNil r a => exact ⟨rfl, fun _ _ => rfl⟩
  | starCons _ _ _ ih1 ih2 =>
    refine ⟨by rw [ih2.1, ih1.1], fun j hj => ?_⟩
    rw [ih2.2 j hj, ih1.2 j (fun i hi => hj i (by simpa [Regex.groups] using hi))]
  | cap i _ ih =>
    refine ⟨by simp [ih.1], fun j hj => ?_⟩
    have hji := hj i (by simp [Regex.groups])
    simp only
    rw [List.getElem?_set_ne (by omega), List.getElem?_set_ne (by omega)]
    exact ih.2 j (fun i' hi' => hj i' (by simp [Regex.groups, hi']))

/-- A step of an expression without groups leaves every slot alone. -/
theorem Sem.caps_eq {r : Regex} {a b : MState} (h : Sem r a b) (hg : r.groups = []) :
    b.caps = a.caps := by
  apply List.ext_getElem?
  intro j
  exact h.caps_frame.2 j (by rw [hg]; simp)

theorem litStr_groups (xs : Str) : (litStr xs).groups = [] := by
  induction xs with
  | nil => rfl
  | cons b bs ih => simp [litStr, lit, Regex.groups, ih]

theorem getElem?_set_set (l : List Int) (i j k : Nat) (x y : Int) :
    ((l.set i x).set j y)[k]? =
      if j = k then (if j < l.length then some y else none)
      else if i = k then (if i < l.length then some x else none) else l[k]? := by
  rw [List.getElem?_set, List.getElem?_set]
  simp only [List.length_set]

/-- Shape of a match of one alternative: only the slots of its three groups
change; the key group ends where the filter group starts; and the text of the
filter group holds no byte `stop`. -/
theorem variant_sem_shape (g stop : Nat) (opener closer : Str) (a b : MState)
    (h : Sem (variantRe g opener stop closer) a b)
    (hstop : isReSpace stop = false ∧ stop ≠ 124)
    (hlen : 2 * g + 5 < a.caps.length) :
    b.caps.length = a.caps.length ∧
    (∀ j, j < 2 * g ∨ 2 * g + 5 < j → b.caps[j]? = a.caps[j]?) ∧
    ∃ (kS kE fE : Nat) (pre xs post : Str),
      b.caps[2 * g]? = some (kS : Int) ∧ b.caps[2 * g + 1]? = some (kE : Int) ∧
      b.caps[2 * (g + 1)]? = some (kE : Int) ∧ b.caps[2 * (g + 1) + 1]? = some (fE : Int) ∧
      a.pos ≤ kS ∧ kS ≤ kE ∧ a.rest = pre ++ (xs ++ post) ∧ kE = a.pos + pre.length ∧
      fE = kE + xs.length ∧ fE ≤ b.pos ∧ ∀ x ∈ xs, x ≠ stop := by
  have hframe := h.caps_frame
  rw [variantRe_eq] at h
  obtain ⟨a1, h1, h⟩ := h.seq_inv
  obtain ⟨a2, h2, h⟩ := h.seq_inv
  obtain ⟨a3', h3, h4⟩ := h.seq_inv
  obtain ⟨a3, hK, rfl⟩ := h3.cap_inv
  rw [tailRe] at h4
  obtain ⟨t1, h5, h6⟩ := h4.seq_inv
  obtain ⟨t0, hF, rfl⟩ := h5.cap_inv
  obtain ⟨x1, e1, p1⟩ := h1.consumes
  obtain ⟨x2, e2, p2⟩ := h2.consumes
  obtain ⟨x3, e3, p3⟩ := hK.consumes
  obtain ⟨x6, e6, p6⟩ := h6.consumes
  obtain ⟨xs, e4, p4, hxs⟩ := hF.consumes_in (fun c => c ≠ stop) (by
    simp only [Regex.charsIn, lit, plus]
    refine ⟨?_, ?_, ?_, ?_⟩
    · intro c hc h'; subst h'; rw [hstop.1] at hc; exact absurd hc (by decide)
    · intro c hc h'; subst h'; exact hstop.2 (by simpa using hc)
    · intro c hc; simpa using hc
    · intro c hc; simpa using hc)
  have c1 : a1.caps = a.caps := h1.caps_eq (litStr_groups _)
  have c2 : a2.caps = a1.caps := h2.caps_eq rfl
  have c3 : a3.caps = a2.caps := hK.caps_eq rfl
  have cF := hF.caps_frame
  have c6 := h6.caps_eq (by simp [Regex.groups, litStr_groups])
  simp only at e4 p4 cF c6 e6 p6
  have hl3 : a3.caps.length = a.caps.length := by rw [c3, c2, c1]
  have hlt0 : t0.caps.length = a.caps.length := by rw [cF.1]; simp [hl3]
  have hg2 : ∀ i ∈ (Regex.star (.cap (g + 2) (.seq (.star (.cls isReSpace))
      (.seq (lit 124) (plus (.cls (fun c => c != stop))))))).groups, i = g + 2 := by
    intro i hi
    simpa [Regex.groups, lit, plus] using hi
  have ht0 : ∀ j, j ≠ 2 * (g + 2) → j ≠ 2 * (g + 2) + 1 →
      t0.caps[j]? = ((a3.caps.set (2 * g) (a2.pos : Int)).set (2 * g + 1) (a3.pos : Int))[j]? := by
    intro j hj1 hj2
    exact cF.2 j (fun i hi => by rw [hg2 i hi]; exact ⟨hj1, hj2⟩)
  refine ⟨hframe.1, ?_, a2.pos, a3.pos, t0.pos, x1 ++ x2 ++ x3, xs, t0.rest, ?_, ?_, ?_, ?_,
    by omega, by omega, ?_, ?_, by omega, by omega, hxs⟩
  · intro j hj
    apply hframe.2 j
    intro i hi
    have : i = g ∨ i = g + 1 ∨ i = g + 2 := by
      simpa [variantRe, Regex.groups, litStr_groups, lit, plus] using hi
    omega
  · rw [c6, getElem?_set_set, ht0 _ (by omega) (by omega), getElem?_set_set]
    have h1' : ¬ (2 * (g + 1) + 1 = 2 * g) := by omega
    have h2' : ¬ (2 * (g + 1) = 2 * g) := by omega
    have h3' : ¬ (2 * g + 1 = 2 * g) := by omega
    have h4' : 2 * g < a3.caps.length := by omega
    simp only [h1', h2', h3', if_false, if_true, h4']
  · rw [c6, getElem?_set_set, ht0 _ (by omega) (by omega), getElem?_set_set]
    have h1' : ¬ (2 * (g + 1) + 1 = 2 * g + 1) := by omega
    have h2' : ¬ (2 * (g + 1) = 2 * g + 1) := by omega
    have h4' : 2 * g + 1 < a3.caps.length := by omega
    simp only [h1', h2', if_false, if_true, h4']
  · rw [c6, getElem?_set_set]
    have h1' : ¬ (2 * (g + 1) + 1 = 2 * (g + 1)) := by omega
    have h4' : 2 * (g + 1) < t0.caps.length := by omega
    simp only [h1', if_false, if_true, h4']
  · rw [c6, getElem?_set_set]
    have h4' : 2 * (g + 1) + 1 < t0.caps.length := by omega
    simp only [if_true, h4']
  · rw [e1, e2, e3, e4]; simp
  · simp only [List.length_append]; omega

theorem pattern_sem_variant {a b : MState} (h : Sem placeholderPattern a b) :
    ∃ (g : Nat) (opener : Str) (stop : Nat) (closer : Str),
      (g, opener, stop, closer) ∈ syntaxTable ∧ Sem (variantRe g opener stop closer) a b := by
  rw [placeholderPattern_eq] at h
  rcases h.alt_inv with h | h
  · exact ⟨1, _, _, _, by simp [syntaxTable], h⟩
  rcases h.alt_inv with h | h
  · exact ⟨4, _, _, _, by simp [syntaxTable], h⟩
  rcases h.alt_inv with h | h
  · exact ⟨7, _, _, _, by simp [syntaxTable], h⟩
  rcases h.alt_inv with h | h
  · exact ⟨10, _, _, _, by simp [syntaxTable], h⟩
  · exact ⟨13, _, _, _, by simp [syntaxTable], h⟩

/-- Shape of the slots of a match of `placeholderPattern` in `tpl`: one syntax
matched; the key slots of the other syntaxes are unset; the filter group
starts where the key group ends and its text holds no byte `stop` of that
syntax. -/
theorem matchAt_shape (tpl : Str) (pos : Nat) (m : List Int) (hpos : pos ≤ tpl.length)
    (h : matchAt placeholderPattern pos (tpl.drop pos) = some m) :
    ∃ (g : Nat) (opener : Str) (stop : Nat) (closer : Str),
      (g, opener, stop, closer) ∈ syntaxTable ∧ m.length = numSlots ∧
      (∀ j, 2 ≤ j → j < numSlots → (j < 2 * g ∨ 2 * g + 5 < j) → m[j]? = some (-1)) ∧
      ∃ kS kE fE : Nat, m[2 * g]? = some (kS : Int) ∧ m[2 * g + 1]? = some (kE : Int) ∧
        m[2 * g + 2]? = some (kE : Int) ∧ m[2 * g + 3]? = some (fE : Int) ∧
        kS ≤ kE ∧ kE ≤ fE ∧ fE ≤ tpl.length ∧ ∀ x ∈ (tpl.take fE).drop kE, x ≠ stop := by
  unfold matchAt at h
  obtain ⟨b, hs, hk⟩ := run_sound placeholderPattern _ _ _ h
  obtain ⟨g, opener, stop, closer, hq, hv⟩ := pattern_sem_variant hs
  obtain ⟨hg, _, _, hs1, hs2, _⟩ := syntax_facts hq
  obtain ⟨hl, hfr, kS, kE, fE, pre, xs, post, c0, c1, c2, c3, i1, i2, etxt, ekE, efE, ifE, hxs⟩ :=
    variant_sem_shape g stop opener closer _ b hv ⟨hs1, hs2⟩ (by
      simp only [List.length_replicate, numSlots]; omega)
  obtain ⟨ys, ey, py⟩ := hs.consumes
  simp only [List.length_replicate] at hl
  simp only at hfr etxt ekE i1 ey py
  simp only [Option.some.injEq] at hk
  have hm : ∀ j, 2 ≤ j → m[j]? = b.caps[j]? := by
    intro j hj
    rw [← hk, getElem?_set_set]
    have h1 : ¬ (1 = j) := by omega
    have h0 : ¬ (0 = j) := by omega
    simp only [h1, h0, if_false]
  have hbpos : b.pos ≤ tpl.length := by
    have := congrArg List.length ey
    simp only [List.length_drop, List.length_append] at this
    omega
  refine ⟨g, opener, stop, closer, hq, by rw [← hk]; simp [hl], ?_, kS, kE, fE, ?_, ?_, ?_, ?_,
    i2, by omega, by omega, ?_⟩
  · intro j hj2 hj32 hj
    rw [hm j hj2, hfr j hj, List.getElem?_replicate]
    simp [hj32]
  · rw [hm _ (by omega)]; exact c0
  · rw [hm _ (by omega)]; exact c1
  · rw [hm _ (by omega)]; exact c2
  · rw [hm _ (by omega)]; exact c3
  · have ht : tpl = (tpl.take pos ++ pre) ++ (xs ++ post) := by
      rw [List.append_assoc, ← etxt, List.take_append_drop]
    have hlen : (tpl.take pos ++ pre).length = pos + pre.length := by
      simp only [List.length_append, List.length_take]
      omega
    rw [take_drop_mid' tpl (tpl.take pos ++ pre) xs post kE fE ht (by omega) (by omega)]
    exact hxs

theorem scanFrom_mem (re : Regex) : ∀ (rest : Str) (pos resume : Nat) (m : List Int),
    m ∈ scanFrom re pos resume rest →
    ∃ i, i ≤ rest.length ∧ matchAt re (pos + i) (rest.drop i) = some m := by
  intro rest
  induction rest with
  | nil => intro pos resume m h; simp [scanFrom] at h
  | cons c cs ih =>
    intro pos resume m h
    have hrec : ∀ r, m ∈ scanFrom re (pos + 1) r cs →
        ∃ i, i ≤ (c :: cs).length ∧ matchAt re (pos + i) ((c :: cs).drop i) = some m := by
      intro r hr
      obtain ⟨i, hi, hm⟩ := ih (pos + 1) r m hr
      exact ⟨i + 1, by simp; omega, by
        rw [List.drop_succ_cons]
        rw [← hm]; congr 1; omega⟩
    rw [scanFrom] at h
    split at h
    · exact hrec _ h
    · split at h
      · rename_i m' hm'
        rcases List.mem_cons.mp h with h | h
        · subst h
          exact ⟨0, by simp, by simpa using hm'⟩
        · exact hrec _ h
      · exact hrec _ h

/-- The group loop of `Render` on slots of the shape above: it picks the groups
of the syntax that matched. -/
theorem pickGroups_of_shape (tpl : Str) (m : List Int) (g : Nat)
    (hg : g = 1 ∨ g = 4 ∨ g = 7 ∨ g = 10 ∨ g = 13) (hlen : m.length = numSlots)
    (hother : ∀ j, 2 ≤ j → j < numSlots → (j < 2 * g ∨ 2 * g + 5 < j) → m[j]? = some (-1))
    (kS kE fE : Nat) (h0 : m[2 * g]? = some (kS : Int)) (h1 : m[2 * g + 1]? = some (kE : Int))
    (h2 : m[2 * g + 2]? = some (kE : Int)) (h3 : m[2 * g + 3]? = some (fE : Int))
    (i1 : kS ≤ kE) (i2 : kE ≤ fE) (i3 : fE ≤ tpl.length) :
    pickGroups tpl m placeholderGroups
      = some ((tpl.take kE).drop kS, if kE < fE then (tpl.take fE).drop kE else []) := by
  have ha1 : (kS : Int) ≠ -1 := by omega
  have hb1 : (kE : Int) ≠ -1 := by omega
  have hd1 : (fE : Int) ≠ -1 := by omega
  have hs1 := slice_nat tpl kS kE i1 (by omega)
  have hs2 := slice_nat tpl kE fE i2 i3
  have hlen' : m.length = 32 := hlen
  have o2 := hother 2 (by omega) (by simp [numSlots])
  have o8 := hother 8 (by omega) (by simp [numSlots])
  have o14 := hother 14 (by omega) (by simp [numSlots])
  have o20 := hother 20 (by omega) (by simp [numSlots])
  rcases hg with rfl | rfl | rfl | rfl | rfl
  · simp only [Nat.reduceMul, Nat.reduceAdd] at h0 h1 h2 h3
    simp [pickGroups, placeholderGroups, hlen', h0, h1, h2, h3, hs1, hs2, ha1, hb1, hd1]
    split <;> simp_all
  · simp only [Nat.reduceMul, Nat.reduceAdd] at h0 h1 h2 h3
    have := o2 (by omega)
    simp [pickGroups, placeholderGroups, hlen', h0, h1, h2, h3, hs1, hs2, ha1, hb1, hd1, this]
    split <;> simp_all
  · simp only [Nat.reduceMul, Nat.reduceAdd] at h0 h1 h2 h3
    have := o2 (by omega)
    have := o8 (by omega)
    simp [pickGroups, placeholderGroups, hlen', h0, h1, h2, h3, hs1, hs2, ha1, hb1, hd1, *]
    split <;> simp_all
  · simp only [Nat.reduceMul, Nat.reduceAdd] at h0 h1 h2 h3
    have := o2 (by omega)
    have := o8 (by omega)
    have := o14 (by omega)
    simp [pickGroups, placeholderGroups, hlen', h0, h1, h2, h3, hs1, hs2, ha1, hb1, hd1, *]
    split <;> simp_all
  · simp only [Nat.reduceMul, Nat.reduceAdd] at h0 h1 h2 h3
    have := o2 (by omega)
    have := o8 (by omega)
    have := o14 (by omega)
    have := o20 (by omega)
    simp [pickGroups, placeholderGroups, hlen', h0, h1, h2, h3, hs1, hs2, ha1, hb1, hd1, *]
    split <;> simp_all

theorem findAll_percent_default :
    FindAllStringSubmatchIndex placeholderPattern (bytes "%%k | default:'10%'%%") = [] := by
  decide

/-- C20.  For every occurrence the matcher finds in a template, exactly one
syntax has its key group set; `Render` picks the groups of that syntax
without failing, and the raw filter text it picks holds no closing-bracket
byte of that syntax (125 for the two brace syntaxes, 93, 62, 37 for the
others).  So `Render` returns the template "%%k | default:'10%'%%" unchanged
for every engine and every data mapping. -/
theorem filter_text_excludes_closer :
    (∀ (tpl : Str) (m : List Int), m ∈ FindAllStringSubmatchIndex placeholderPattern tpl →
      ∃ (g : Nat) (opener : Str) (stop : Nat) (closer : Str) (key raw : Str),
        (g, opener, stop, closer) ∈ syntaxTable ∧ m[2 * g]? ≠ some (-1) ∧
        (∀ q ∈ syntaxTable, q.1 ≠ g → m[2 * q.1]? = some (-1)) ∧
        pickGroups tpl m placeholderGroups = some (key, raw) ∧ stop ∉ raw) ∧
    (∀ (e : engine) (data : Data),
      e.Render (bytes "%%k | default:'10%'%%") data = some (bytes "%%k | default:'10%'%%")) := by
  refine ⟨?_, fun e data => render_of_findAll_nil e _ data findAll_percent_default⟩
  intro tpl m hm
  obtain ⟨i, hi, hmi⟩ := scanFrom_mem placeholderPattern tpl 0 0 m hm
  rw [Nat.zero_add] at hmi
  obtain ⟨g, opener, stop, closer, hq, hlen, hother, kS, kE, fE, h0, h1, h2, h3, i1, i2, i3, hx⟩ :=
    matchAt_shape tpl i m hi hmi
  have hg := (syntax_facts hq).1
  refine ⟨g, opener, stop, closer, _, _, hq, ?_, ?_,
    pickGroups_of_shape tpl m g hg hlen hother kS kE fE h0 h1 h2 h3 i1 i2 i3, ?_⟩
  · rw [h0]
    intro hc
    simp only [Option.some.injEq] at hc
    omega
  · intro q hq' hne
    have hg' := (@syntax_facts q.1 q.2.1 q.2.2.1 q.2.2.2 hq').1
    apply hother
    · omega
    · simp only [numSlots]; omega
    · omega
  · intro hmem
    split at hmem
    · exact hx stop hmem rfl
    · simp at hmem

theorem filter_text_excludes_closer_witness :
    ∃ (g : Nat) (opener : Str) (stop : Nat) (closer : Str) (key raw : Str),
      (g, opener, stop, closer) ∈ syntaxTable ∧
      ([0, 9, -1, -1, -1, -1, -1, -1, 2, 3, 3, 7, 3, 7, -1, -1, -1, -1, -1, -1, -1, -1, -1,
        -1, -1, -1, -1, -1, -1, -1, -1, -1] : List Int)[2 * g]? ≠ some (-1) ∧
      (∀ q ∈ syntaxTable, q.1 ≠ g →
        ([0, 9, -1, -1, -1, -1, -1, -1, 2, 3, 3, 7, 3, 7, -1, -1, -1, -1, -1, -1, -1, -1, -1,
          -1, -1, -1, -1, -1, -1, -1, -1, -1] : List Int)[2 * q.1]? = some (-1)) ∧
      pickGroups (bytes "[[a | b]]")
        [0, 9, -1, -1, -1, -1, -1, -1, 2, 3, 3, 7, 3, 7, -1, -1, -1, -1, -1, -1, -1, -1, -1,
          -1, -1, -1, -1, -1, -1, -1, -1, -1] placeholderGroups = some (key, raw) ∧
      stop ∉ raw :=
  filter_text_excludes_closer.1 (bytes "[[a | b]]") _ (by decide)

theorem encodeRune_append_ne (x y b : Nat) : EncodeRune x ++ [b] ≠ EncodeRune y := by
  unfold EncodeRune
  split_ifs <;> simp <;> omega

theorem capitalize_ascii (T : CaseTable) (c : Nat) (t : Str) (hc : c < 0x80) :
    capitalize T (c :: t) = (if 97 ≤ c ∧ c ≤ 122 then c - 32 else c) :: t := by
  have h1 : c ≤ 0x7F := by omega
  simp [capitalize, byteToString, EncodeRune, h1, ToUpper, hc]

theorem capitalizeFirstRune_ascii (T : CaseTable) (c : Nat) (t : Str) (hc : c < 0x80) :
    capitalizeFirstRune T (c :: t) = (if 97 ≤ c ∧ c ≤ 122 then c - 32 else c) :: t := by
  have h1 : c ≤ 0x7F := by omega
  have h2 : (if 97 ≤ c ∧ c ≤ 122 then c - 32 else c) ≤ 0x7F := by split <;> omega
  simp only [capitalizeFirstRune, DecodeRuneInString, hc, if_true, unicodeToUpper, h1,
    EncodeRune, h2, List.drop_succ_cons, List.drop_zero, List.singleton_append]

/-- C16.  The closure `capitalize` converts the first BYTE of its input to a
string and puts that in upper case.  On the empty input and on inputs whose
first byte is ASCII this is the input with its first character in upper case.
On the two bytes C3 A9 (the letter e with acute accent) it gives the encoding
of the upper case of U+00C3 followed by the stray byte A9, which is no
encoding of a single rune, where the first character in upper case is the
encoding of the upper case of U+00E9. -/
theorem capitalize_first_byte (T : CaseTable) :
    capitalize T [] = [] ∧
    (∀ (c : Nat) (t : Str), c < 0x80 → capitalize T (c :: t) = capitalizeFirstRune T (c :: t)) ∧
    capitalize T [0xC3, 0xA9] = EncodeRune (T.upper 0xC3) ++ [0xA9] ∧
    capitalizeFirstRune T [0xC3, 0xA9] = EncodeRune (T.upper 0xE9) ∧
    (∀ y, capitalize T [0xC3, 0xA9] ≠ EncodeRune y) ∧
    capitalize T [0xC3, 0xA9] ≠ capitalizeFirstRune T [0xC3, 0xA9] := by
  have h1 : capitalize T [0xC3, 0xA9] = EncodeRune (T.upper 0xC3) ++ [0xA9] := by
    simp [capitalize, byteToString, EncodeRune, ToUpper, Map, runesFrom, DecodeRuneInString,
      unicodeToUpper]
  have h2 : capitalizeFirstRune T [0xC3, 0xA9] = EncodeRune (T.upper 0xE9) := by
    simp [capitalizeFirstRune, DecodeRuneInString, unicodeToUpper]
  refine ⟨rfl, ?_, h1, h2, ?_, ?_⟩
  · intro c t hc
    rw [capitalize_ascii T c t hc, capitalizeFirstRune_ascii T c t hc]
  · intro y
    rw [h1]
    exact encodeRune_append_ne _ _ _
  · rw [h1, h2]
    exact encodeRune_append_ne _ _ _

theorem capitalize_first_byte_witness :
    capitalize ⟨fun r => if 0xE0 ≤ r ∧ r ≤ 0xFE then r - 32 else r, fun r => r⟩ (bytes "abc")
      = bytes "Abc" ∧
    capitalize ⟨fun r => if 0xE0 ≤ r ∧ r ≤ 0xFE then r - 32 else r, fun r => r⟩ [0xC3, 0xA9]
      = [0xC3, 0x83, 0xA9] ∧
    capitalizeFirstRune ⟨fun r => if 0xE0 ≤ r ∧ r ≤ 0xFE then r - 32 else r, fun r => r⟩
      [0xC3, 0xA9] = [0xC3, 0x89] :=
  ⟨by decide, by
    rw [(capitalize_first_byte _).2.2.1]; decide, by
    rw [(capitalize_first_byte _).2.2.2.1]; decide⟩

theorem IsSpace_RuneError : IsSpace RuneError = false := by decide

theorem IsSpace_ascii (c : Nat) (hc : c < 0x80) : IsSpace c = asciiSpace c := by
  have h1 : (c == 0x85) = false := by simp; omega
  have h2 : (c == 0xA0) = false := by simp; omega
  have h3 : (c == 0x1680) = false := by simp; omega
  have h4 : (decide (0x2000 ≤ c)) = false := by simp; omega
  have h5 : (c == 0x2028) = false := by simp; omega
  have h6 : (c == 0x2029) = false := by simp; omega
  have h7 : (c == 0x202F) = false := by simp; omega
  have h8 : (c == 0x205F) = false := by simp; omega
  have h9 : (c == 0x3000) = false := by simp; omega
  simp only [IsSpace, h1, h2, h3, h4, h5, h6, h7, h8, h9, Bool.or_false, Bool.false_and]

theorem RuneStart_ascii (c : Nat) (hc : c < 0x80) : RuneStart c = true := by
  simp only [RuneStart, bne_iff_ne, ne_eq]
  omega

theorem not_cont_of_RuneStart (b : Nat) (h : RuneStart b = true) : ¬ (0x80 ≤ b ∧ b ≤ 0xBF) := by
  simp only [RuneStart, bne_iff_ne, ne_eq] at h
  omega

/-- The three ways `DecodeRuneInString` ends on a non-empty string: an ASCII
byte; an invalid byte, of width one; a valid encoding of two to four bytes,
which depends on those bytes only and holds no ASCII byte. -/
theorem decode_cases (c : Nat) (t : Str) :
    (c < 0x80 ∧ DecodeRuneInString (c :: t) = (c, 1)) ∨
    (0x80 ≤ c ∧ DecodeRuneInString (c :: t) = (RuneError, 1)) ∨
    (0x80 ≤ c ∧ ∃ (w rest : Str) (r : Nat), t = w ++ rest ∧ w ≠ [] ∧ 0x80 ≤ r ∧
      DecodeRuneInString (c :: t) = (r, w.length + 1) ∧
      (∀ b ∈ w, 0x80 ≤ b ∧ b ≤ 0xBF) ∧
      ∀ x, DecodeRuneInString (c :: (w ++ x)) = (r, w.length + 1)) := by
  by_cases h1 : c < 0x80
  · left
    exact ⟨h1, by simp [DecodeRuneInString, h1]⟩
  right
  have hc : 0x80 ≤ c := by omega
  by_cases h2 : c < 0xC2
  · left
    exact ⟨hc, by simp [DecodeRuneInString, h1, h2]⟩
  by_cases h3 : c < 0xE0
  · rcases t with _ | ⟨s1, t1⟩
    · left; exact ⟨hc, by simp [DecodeRuneInString, h1, h2, h3]⟩
    by_cases hv : 0x80 ≤ s1 ∧ s1 ≤ 0xBF
    · right
      refine ⟨hc, [s1], t1, (c % 32) * 64 + s1 % 64, rfl, by simp, by omega, ?_, ?_, ?_⟩
      · simp [DecodeRuneInString, h1, h2, h3, hv]
      · intro b hb
        simp only [List.mem_singleton] at hb
        subst hb; exact hv
      · intro x
        simp [DecodeRuneInString, h1, h2, h3, hv]
    · left
      exact ⟨hc, by simp only [DecodeRuneInString, h1, h2, h3, hv, if_false, if_true]⟩
  by_cases h4 : c < 0xF0
  · rcases t with _ | ⟨s1, _ | ⟨s2, t2⟩⟩
    · left; exact ⟨hc, by simp [DecodeRuneInString, h1, h2, h3, h4]⟩
    · left; exact ⟨hc, by simp [DecodeRuneInString, h1, h2, h3, h4]⟩
    by_cases hv : (if c = 0xE0 then 0xA0 else 0x80) ≤ s1 ∧ s1 ≤ (if c = 0xED then 0x9F else 0xBF)
        ∧ 0x80 ≤ s2 ∧ s2 ≤ 0xBF
    · right
      have hs1 : 0x80 ≤ s1 ∧ s1 ≤ 0xBF := by
        obtain ⟨a, b, _, _⟩ := hv
        split at a <;> split at b <;> omega
      have hr : 0x80 ≤ (c % 16) * 4096 + (s1 % 64) * 64 + s2 % 64 := by
        obtain ⟨a, b, _, _⟩ := hv
        split at a <;> omega
      refine ⟨hc, [s1, s2], t2, (c % 16) * 4096 + (s1 % 64) * 64 + s2 % 64, rfl, by simp,
        hr, ?_, ?_, ?_⟩
      · simp only [DecodeRuneInString, h1, h2, h3, h4, hv, if_false, if_true]
        simp
      · intro b hb
        simp only [List.mem_cons, List.mem_singleton, List.not_mem_nil, or_false] at hb
        rcases hb with rfl | rfl
        · exact hs1
        · exact ⟨hv.2.2.1, hv.2.2.2⟩
      · intro x
        simp only [List.cons_append, List.nil_append, DecodeRuneInString, h1, h2, h3, h4, hv,
          if_false, if_true]
        simp
    · left
      exact ⟨hc, by simp only [DecodeRuneInString, h1, h2, h3, h4, hv, if_false, if_true]⟩
  by_cases h5 : c < 0xF5
  · rcases t with _ | ⟨s1, _ | ⟨s2, _ | ⟨s3, t3⟩⟩⟩
    · left; exact ⟨hc, by simp [DecodeRuneInString, h1, h2, h3, h4, h5]⟩
    · left; exact ⟨hc, by simp [DecodeRuneInString, h1, h2, h3, h4, h5]⟩
    · left; exact ⟨hc, by simp [DecodeRuneInString, h1, h2, h3, h4, h5]⟩
    by_cases hv : (if c = 0xF0 then 0x90 else 0x80) ≤ s1 ∧ s1 ≤ (if c = 0xF4 then 0x8F else 0xBF)
        ∧ 0x80 ≤ s2 ∧ s2 ≤ 0xBF ∧ 0x80 ≤ s3 ∧ s3 ≤ 0xBF
    · right
      have hs1 : 0x80 ≤ s1 ∧ s1 ≤ 0xBF := by
        obtain ⟨a, b, _⟩ := hv
        split at a <;> split at b <;> omega
      have hr : 0x80 ≤ (c % 8) * 262144 + (s1 % 64) * 4096 + (s2 % 64) * 64 + s3 % 64 := by
        obtain ⟨a, b, _⟩ := hv
        split at a <;> omega
      refine ⟨hc, [s1, s2, s3], t3, (c % 8) * 262144 + (s1 % 64) * 4096 + (s2 % 64) * 64 + s3 % 64,
        rfl, by simp, hr, ?_, ?_, ?_⟩
      · simp only [DecodeRuneInString, h1, h2, h3, h4, h5, hv, if_false, if_true]
        simp
      · intro b hb
        simp only [List.mem_cons, List.mem_singleton, List.not_mem_nil, or_false] at hb
        rcases hb with rfl | rfl | rfl
        · exact hs1
        · exact ⟨hv.2.2.1, hv.2.2.2.1⟩
        · exact ⟨hv.2.2.2.2.1, hv.2.2.2.2.2⟩
      · intro x
        simp only [List.cons_append, List.nil_append, DecodeRuneInString, h1, h2, h3, h4, h5, hv,
          if_false, if_true]
        simp
    · left
      exact ⟨hc, by simp only [DecodeRuneInString, h1, h2, h3, h4, h5, hv, if_false, if_true]⟩
  · left
    exact ⟨hc, by simp [DecodeRuneInString, h1, h2, h3, h4, h5]⟩

theorem decode_single (c : Nat) (suffix : Str) (hc : 0x80 ≤ c)
    (hs : suffix = [] ∨ ∃ b r, suffix = b :: r ∧ RuneStart b = true) :
    DecodeRuneInString (c :: suffix) = (RuneError, 1) := by
  rcases decode_cases c suffix with ⟨h, _⟩ | ⟨_, h⟩ | ⟨_, w, rest, r, ht, hw, _, _, hb, _⟩
  · omega
  · exact h
  · exfalso
    rcases w with _ | ⟨b0, w0⟩
    · exact hw rfl
    rcases hs with hs | ⟨b, r0, hs, hb0⟩
    · rw [hs] at ht; simp at ht
    · rw [hs] at ht
      simp only [List.cons_append, List.cons.injEq] at ht
      rw [ht.1] at hb0
      exact not_cont_of_RuneStart b0 hb0 (hb b0 (by simp))

theorem decode_prefix (q rest : Str) (hq : q ≠ []) :
    (DecodeRuneInString q).1 = (DecodeRuneInString (q ++ rest)).1 ∨
    (DecodeRuneInString q).1 = RuneError := by
  rcases q with _ | ⟨c, t⟩
  · exact absurd rfl hq
  rcases decode_cases c t with ⟨h, e⟩ | ⟨_, e⟩ | ⟨_, w, r0, r, ht, _, _, e, _, hx⟩
  · left
    rw [e]
    simp [DecodeRuneInString, h]
  · right; rw [e]
  · left
    subst ht
    rw [e, List.cons_append, List.append_assoc, hx]

theorem decode_full_append (cand rest : Str)
    (hw : (DecodeRuneInString cand).2 = cand.length) (hl : 2 ≤ cand.length) :
    DecodeRuneInString (cand ++ rest) = DecodeRuneInString cand := by
  rcases cand with _ | ⟨c, t⟩
  · simp at hl
  rcases decode_cases c t with ⟨_, e⟩ | ⟨_, e⟩ | ⟨_, w, r0, r, ht, _, _, e, _, hx⟩
  · rw [e] at hw; simp only [List.length_cons] at hw hl; omega
  · rw [e] at hw; simp only [List.length_cons] at hw hl; omega
  · subst ht
    rw [e] at hw
    simp only [List.length_cons, List.length_append] at hw
    have : r0 = [] := List.length_eq_zero.mp (by omega)
    subst this
    rw [e, List.cons_append, List.append_assoc, hx]

theorem decode_full_head (cand : Str)
    (hw : (DecodeRuneInString cand).2 = cand.length) (hl : 2 ≤ cand.length) :
    ∃ c t, cand = c :: t ∧ 0x80 ≤ c := by
  rcases cand with _ | ⟨c, t⟩
  · simp at hl
  refine ⟨c, t, rfl, ?_⟩
  by_contra hc
  have : DecodeRuneInString (c :: t) = (c, 1) := by
    simp [DecodeRuneInString, show c < 0x80 by omega]
  rw [this] at hw
  simp only [List.length_cons] at hw hl
  omega

theorem lastRuneStart_spec : ∀ (n : Nat) (rev : Str) (j : Nat), lastRuneStart n rev = some j →
    ∃ (mid : Str) (b : Nat) (pre : Str), rev = mid ++ b :: pre ∧ j = mid.length + 1 ∧
      RuneStart b = true := by
  intro n
  induction n with
  | zero => intro rev j h; simp [lastRuneStart] at h
  | succ n ih =>
    intro rev j h
    rcases rev with _ | ⟨b, rev⟩
    · simp [lastRuneStart] at h
    rw [lastRuneStart] at h
    split at h
    · rename_i hb
      simp only [Option.some.injEq] at h
      exact ⟨[], b, rev, rfl, by simp [← h], hb⟩
    · simp only [Option.map_eq_some'] at h
      obtain ⟨j0, hj0, hj⟩ := h
      obtain ⟨mid, b0, pre, e, ej, hb0⟩ := ih rev j0 hj0
      exact ⟨b :: mid, b0, pre, by rw [e]; rfl, by simp [← hj, ej], hb0⟩

/-- The three ways `DecodeLastRuneInString` ends on a non-empty string, given
last byte first as `c :: rev`: an ASCII byte; an invalid ending, of width
one; a valid encoding `(c :: mid).reverse` of two to four bytes that starts
with a rune-start byte. -/
theorem decodeLast_cases (c : Nat) (rev : Str) :
    (c < 0x80 ∧ DecodeLastRuneInString (c :: rev).reverse = (c, 1)) ∨
    (0x80 ≤ c ∧ DecodeLastRuneInString (c :: rev).reverse = (RuneError, 1)) ∨
    (0x80 ≤ c ∧ ∃ (mid pre : Str), rev = mid ++ pre ∧ mid ≠ [] ∧
      DecodeLastRuneInString (c :: rev).reverse = DecodeRuneInString (c :: mid).reverse ∧
      (DecodeRuneInString (c :: mid).reverse).2 = mid.length + 1 ∧
      ∃ b r, (c :: mid).reverse = b :: r ∧ RuneStart b = true) := by
  by_cases hc : c < 0x80
  · left
    refine ⟨hc, ?_⟩
    simp only [DecodeLastRuneInString, List.reverse_reverse, hc, if_true]
  right
  have hc8 : 0x80 ≤ c := by omega
  cases hl : lastRuneStart 3 rev with
  | none =>
    left
    refine ⟨hc8, ?_⟩
    simp only [DecodeLastRuneInString, List.reverse_reverse, hc, if_false, hl]
  | some j =>
    obtain ⟨mid0, b, pre, e, ej, hb⟩ := lastRuneStart_spec 3 rev j hl
    have htake : rev.take j = mid0 ++ [b] := by
      rw [e, ej]
      have : mid0 ++ b :: pre = (mid0 ++ [b]) ++ pre := by simp
      rw [this, List.take_left' (by simp)]
    by_cases hw : (DecodeRuneInString (c :: (mid0 ++ [b])).reverse).2 = mid0.length + 1 + 1
    · right
      refine ⟨hc8, mid0 ++ [b], pre, by rw [e]; simp, by simp, ?_, by simpa using hw,
        b, (c :: mid0).reverse, by simp, hb⟩
      simp only [DecodeLastRuneInString, List.reverse_reverse, hc, if_false, hl, htake]
      rw [if_pos (by simpa using hw)]
    · left
      refine ⟨hc8, ?_⟩
      simp only [DecodeLastRuneInString, List.reverse_reverse, hc, if_false, hl, htake]
      rw [if_neg (by simpa using hw)]

theorem trimRightLoop_skip (s : Str) : ∀ (rev : Str) (k : Nat),
    trimRightLoop s k rev = trimRightLoop s 0 (rev.drop k) := by
  intro rev
  induction rev with
  | nil => intro k; cases k <;> simp [trimRightLoop]
  | cons c rev ih =>
    intro k
    cases k with
    | zero => rfl
    | succ k => rw [trimRightLoop, ih k, List.drop_succ_cons]

theorem getD_append_cons (a b : Str) (c : Nat) : (a ++ c :: b).getD a.length 0 = c := by
  induction a with
  | nil => rfl
  | cons x xs ih => simpa using ih

theorem take_append_cons (a b : Str) (c : Nat) : (a ++ c :: b).take (a.length + 1) = a ++ [c] := by
  have : a ++ c :: b = (a ++ [c]) ++ b := by simp
  rw [this, List.take_left' (by simp)]

/-- The loop of `TrimRightFunc` stops at a rune that is not white space: the
result is the string up to and including that rune. -/
theorem trimRightLoop_stop (s : Str) (c : Nat) (rev suffix : Str)
    (hs : s = (c :: rev).reverse ++ suffix)
    (hsuf : suffix = [] ∨ ∃ b r, suffix = b :: r ∧ RuneStart b = true)
    (hns : IsSpace (DecodeLastRuneInString (c :: rev).reverse).1 = false) :
    trimRightLoop s 0 (c :: rev) = (c :: rev).reverse := by
  rw [trimRightLoop]
  simp only [hns, Bool.false_eq_true, if_false]
  have hs1 : s = rev.reverse ++ c :: suffix := by rw [hs]; simp
  rcases decodeLast_cases c rev with ⟨hc, e⟩ | ⟨hc, e⟩ | ⟨hc, mid, pre, hrev, hmid, e, hw, b, r, hcand, hb⟩
  · rw [e]
    have hi : (c :: rev).length - 1 = rev.reverse.length := by simp
    simp only [hi]
    rw [hs1, getD_append_cons, if_neg (by omega), take_append_cons]
    simp
  · rw [e]
    have hi : (c :: rev).length - 1 = rev.reverse.length := by simp
    simp only [hi]
    rw [hs1, getD_append_cons, if_pos (by omega), List.drop_left, decode_single c suffix hc hsuf,
      take_append_cons]
    simp
  · rw [e, hw]
    have hs2 : s = pre.reverse ++ b :: (r ++ suffix) := by
      have h0 : (c :: (mid ++ pre)).reverse = pre.reverse ++ (c :: mid).reverse := by simp
      rw [hs, hrev, h0, hcand]; simp
    have hi : (c :: rev).length - (mid.length + 1) = pre.reverse.length := by
      rw [hrev]; simp
    have hlen : 2 ≤ ((c :: mid).reverse).length := by
      rcases mid with _ | ⟨m, ms⟩
      · exact absurd rfl hmid
      · simp
    have hw' : (DecodeRuneInString (c :: mid).reverse).2 = ((c :: mid).reverse).length := by
      rw [hw]; simp
    obtain ⟨c0, t0, e0, hc0⟩ := decode_full_head _ hw' hlen
    have hb0 : 0x80 ≤ b := by
      rw [hcand] at e0
      simp only [List.cons.injEq] at e0
      omega
    simp only [hi]
    rw [hs2, getD_append_cons, if_pos hb0, List.drop_left, ← List.cons_append, ← hcand,
      decode_full_append _ suffix hw' hlen, hw, hrev]
    have : pre.reverse ++ ((c :: mid).reverse ++ suffix)
        = (pre.reverse ++ (c :: mid).reverse) ++ suffix := by simp
    rw [this, List.take_left' (by simp)]
    simp

/-- The loop of `TrimRightFunc` steps over a white-space rune: it goes on with
the bytes before that rune, and what it has stepped over starts with a
rune-start byte. -/
theorem trimRightLoop_go (s : Str) (c : Nat) (rev suffix : Str)
    (hs : s = (c :: rev).reverse ++ suffix)
    (hsp : IsSpace (DecodeLastRuneInString (c :: rev).reverse).1 = true) :
    ∃ (pre suffix2 : Str), trimRightLoop s 0 (c :: rev) = trimRightLoop s 0 pre ∧
      pre.length ≤ rev.length ∧ s = pre.reverse ++ suffix2 ∧
      ∃ b r, suffix2 = b :: r ∧ RuneStart b = true := by
  rw [trimRightLoop]
  simp only [hsp, if_true]
  rcases decodeLast_cases c rev with ⟨hc, e⟩ | ⟨hc, e⟩ | ⟨hc, mid, pre, hrev, hmid, e, hw, b, r, hcand, hb⟩
  · rw [e]
    exact ⟨rev, c :: suffix, rfl, le_refl _, by rw [hs]; simp, c, suffix, rfl,
      RuneStart_ascii c hc⟩
  · rw [e, IsSpace_RuneError] at hsp
    exact absurd hsp (by simp)
  · rw [e, hw, trimRightLoop_skip]
    refine ⟨pre, (c :: mid).reverse ++ suffix, ?_, ?_, ?_, b, r ++ suffix, by rw [hcand]; rfl, hb⟩
    · rw [hrev]
      simp
    · rw [hrev]; simp
    · rw [hs, hrev]; simp

theorem trimRightLoop_spec (s : Str) : ∀ (n : Nat) (rev suffix : Str), rev.length ≤ n →
    s = rev.reverse ++ suffix →
    (suffix = [] ∨ ∃ b r, suffix = b :: r ∧ RuneStart b = true) →
    (∃ post, s = trimRightLoop s 0 rev ++ post) ∧
    (trimRightLoop s 0 rev = [] ∨
      IsSpace (DecodeLastRuneInString (trimRightLoop s 0 rev)).1 = false) := by
  intro n
  induction n with
  | zero =>
    intro rev suffix hn _ _
    have : rev = [] := List.length_eq_zero.mp (by omega)
    subst this
    exact ⟨⟨s, by simp [trimRightLoop]⟩, Or.inl (by simp [trimRightLoop])⟩
  | succ n ih =>
    intro rev suffix hn hs hsuf
    rcases rev with _ | ⟨c, rev⟩
    · exact ⟨⟨s, by simp [trimRightLoop]⟩, Or.inl (by simp [trimRightLoop])⟩
    cases hsp : IsSpace (DecodeLastRuneInString (c :: rev).reverse).1 with
    | true =>
      obtain ⟨pre, suffix2, e, hl, hs2, hb⟩ := trimRightLoop_go s c rev suffix hs hsp
      rw [e]
      exact ih pre suffix2 (by simp only [List.length_cons] at hn; omega) hs2 (Or.inr hb)
    | false =>
      rw [trimRightLoop_stop s c rev suffix hs hsuf hsp]
      exact ⟨⟨suffix, hs⟩, Or.inr hsp⟩

/-- The result of `TrimRightFunc(s, unicode.IsSpace)` is a prefix of `s` that is
empty or ends with a rune that is not white space. -/
theorem trimRightSpace_spec (s : Str) :
    (∃ post, s = trimRightSpace s ++ post) ∧
    (trimRightSpace s = [] ∨ IsSpace (DecodeLastRuneInString (trimRightSpace s)).1 = false) :=
  trimRightLoop_spec s s.length s.reverse [] (by simp) (by simp) (Or.inl rfl)

/-- The result of `TrimLeftFunc(s, unicode.IsSpace)` is a suffix of `s` that is
empty or starts with a rune that is not white space. -/
theorem trimLeftSpace_spec : ∀ (s : Str) (skip : Nat),
    (∃ pre, s = pre ++ trimLeftSpace skip s) ∧
    (trimLeftSpace skip s = [] ∨
      IsSpace (DecodeRuneInString (trimLeftSpace skip s)).1 = false) := by
  intro s
  induction s with
  | nil => intro skip; cases skip <;> exact ⟨⟨[], rfl⟩, Or.inl rfl⟩
  | cons c t ih =>
    intro skip
    cases skip with
    | succ k =>
      rw [trimLeftSpace]
      obtain ⟨⟨pre, hp⟩, h2⟩ := ih k
      exact ⟨⟨c :: pre, by rw [List.cons_append, ← hp]⟩, h2⟩
    | zero =>
      rw [trimLeftSpace]
      cases hsp : IsSpace (DecodeRuneInString (c :: t)).1 with
      | true =>
        simp only [if_true]
        obtain ⟨⟨pre, hp⟩, h2⟩ := ih ((DecodeRuneInString (c :: t)).2 - 1)
        exact ⟨⟨c :: pre, by rw [List.cons_append, ← hp]⟩, h2⟩
      | false =>
        simp only [Bool.false_eq_true, if_false]
        exact ⟨⟨[], rfl⟩, Or.inr hsp⟩

theorem decodeLast_ascii (c : Nat) (rev : Str) (hc : c < 0x80) :
    DecodeLastRuneInString (c :: rev).reverse = (c, 1) := by
  simp only [DecodeLastRuneInString, List.reverse_reverse, hc, if_true]

/-- The second loop of `TrimSpace` returns a prefix that is empty or ends with
a rune that is not white space. -/
theorem trimSpaceRight_spec : ∀ rev : Str,
    (∃ post, rev.reverse = trimSpaceRight rev ++ post) ∧
    (trimSpaceRight rev = [] ∨
      IsSpace (DecodeLastRuneInString (trimSpaceRight rev)).1 = false) := by
  intro rev
  induction rev with
  | nil => exact ⟨⟨[], rfl⟩, Or.inl rfl⟩
  | cons c rev ih =>
    rw [trimSpaceRight]
    by_cases hc : c ≥ 0x80
    · simp only [hc, if_true]
      exact trimRightSpace_spec _
    · simp only [hc, if_false]
      cases hsp : asciiSpace c with
      | true =>
        simp only [if_true]
        obtain ⟨⟨post, hp⟩, h2⟩ := ih
        exact ⟨⟨post ++ [c], by rw [List.reverse_cons, hp, List.append_assoc]⟩, h2⟩
      | false =>
        simp only [Bool.false_eq_true, if_false]
        refine ⟨⟨[], by simp⟩, Or.inr ?_⟩
        rw [decodeLast_ascii c rev (by omega), IsSpace_ascii c (by omega)]
        exact hsp

/-- What `strings.TrimSpace` returns is a part of its argument that is empty
or both starts and ends with a rune that is not white space. -/
theorem TrimSpace_spec : ∀ p : Str,
    (∃ pre post, p = pre ++ (TrimSpace p ++ post)) ∧
    (TrimSpace p = [] ∨
      (IsSpace (DecodeRuneInString (TrimSpace p)).1 = false ∧
        IsSpace (DecodeLastRuneInString (TrimSpace p)).1 = false)) := by
  intro p
  induction p with
  | nil => exact ⟨⟨[], [], rfl⟩, Or.inl rfl⟩
  | cons c t ih =>
    rw [TrimSpace]
    by_cases hc : c ≥ 0x80
    · simp only [hc, if_true]
      obtain ⟨⟨pre, hp⟩, h1⟩ := trimLeftSpace_spec (c :: t) 0
      obtain ⟨⟨post, hq⟩, h2⟩ := trimRightSpace_spec (trimLeftSpace 0 (c :: t))
      refine ⟨⟨pre, post, by rw [← hq, ← hp]⟩, ?_⟩
      rcases h2 with h2 | h2
      · exact Or.inl h2
      · by_cases hne : trimRightSpace (trimLeftSpace 0 (c :: t)) = []
        · exact Or.inl hne
        · refine Or.inr ⟨?_, h2⟩
          have h0 : trimLeftSpace 0 (c :: t) ≠ [] := by
            intro e0
            have hq2 := hq
            rw [e0] at hq2
            exact hne (by rw [e0]; exact (List.append_eq_nil.mp hq2.symm).1)
          have h1' : IsSpace (DecodeRuneInString (trimLeftSpace 0 (c :: t))).1 = false := by
            rcases h1 with h1 | h1
            · exact absurd h1 h0
            · exact h1
          rcases decode_prefix _ post hne with e | e
          · rw [e, ← hq]; exact h1'
          · rw [e]; exact IsSpace_RuneError
    · simp only [hc, if_false]
      cases hsp : asciiSpace c with
      | true =>
        simp only [if_true]
        obtain ⟨⟨pre, post, hp⟩, h2⟩ := ih
        exact ⟨⟨c :: pre, post, by rw [List.cons_append, ← hp]⟩, h2⟩
      | false =>
        simp only [Bool.false_eq_true, if_false]
        obtain ⟨⟨post, hp⟩, h2⟩ := trimSpaceRight_spec (c :: t).reverse
        rw [List.reverse_reverse] at hp
        refine ⟨⟨[], post, hp⟩, ?_⟩
        rcases h2 with h2 | h2
        · exact Or.inl h2
        · rcases hq : trimSpaceRight (c :: t).reverse with _ | ⟨c0, t0⟩
          · exact Or.inl rfl
          · right
            rw [hq] at hp h2
            simp only [List.cons_append, List.cons.injEq] at hp
            refine ⟨?_, h2⟩
            rw [← hp.1]
            have : DecodeRuneInString (c :: t0) = (c, 1) := by
              simp [DecodeRuneInString, show c < 0x80 by omega]
            rw [this, IsSpace_ascii c (by omega)]
            exact hsp

theorem TrimSpace_mem (p : Str) (x : Nat) (h : x ∈ TrimSpace p) : x ∈ p := by
  obtain ⟨⟨pre, post, hp⟩, _⟩ := TrimSpace_spec p
  rw [hp]
  simp [h]

theorem Split_mem_no_sep (sep : Nat) : ∀ (s seg : Str), seg ∈ Split s sep → sep ∉ seg := by
  intro s
  induction s with
  | nil =>
    intro seg h
    simp only [Split, List.mem_singleton] at h
    subst h; simp
  | cons c t ih =>
    intro seg h
    rw [Split] at h
    by_cases hc : c = sep
    · simp only [hc, if_true, List.mem_cons] at h
      rcases h with rfl | h
      · simp
      · exact ih seg h
    · simp only [hc, if_false] at h
      cases hs : Split t sep with
      | nil => exact absurd hs (Split_ne_nil t sep)
      | cons h0 tl =>
        rw [hs] at h
        simp only [List.mem_cons] at h
        rcases h with rfl | h
        · have := ih h0 (by rw [hs]; simp)
          simp only [List.mem_cons, not_or]
          exact ⟨fun e => hc e.symm, this⟩
        · exact ih seg (by rw [hs]; simp [h])

theorem Split_append_no_sep (sep : Nat) (b : Str) : ∀ a : Str, sep ∉ a →
    ∃ h0 tl, Split b sep = h0 :: tl ∧ Split (a ++ b) sep = (a ++ h0) :: tl := by
  intro a
  induction a with
  | nil =>
    intro _
    cases hs : Split b sep with
    | nil => exact absurd hs (Split_ne_nil b sep)
    | cons h0 tl => exact ⟨h0, tl, rfl, by simp [hs]⟩
  | cons c t ih =>
    intro h
    have hc : ¬ c = sep := fun e => h (by simp [e])
    obtain ⟨h0, tl, e1, e2⟩ := ih (fun e => h (by simp [e]))
    refine ⟨h0, tl, e1, ?_⟩
    rw [List.cons_append, Split, e2]
    simp [hc]

theorem parsedArgument_eq (seg : Str) :
    parsedArgument seg = stripQuotes (TrimSpace (seg.drop 8)) := by
  unfold parsedArgument stripQuotes
  rcases TrimSpace (seg.drop 8) with _ | ⟨q, _ | ⟨x, xs⟩⟩
  · rfl
  · simp
  · have hl : (q :: x :: xs).length ≥ 2 := by simp
    simp only [hl, if_true, List.head?_cons, List.getLast?_cons_cons, Option.some.injEq]
    have htake : (List.take ((q :: x :: xs).length - 1) (q :: x :: xs)).drop 1
        = (x :: xs).dropLast := by
      simp [List.dropLast_eq_take]
    rw [htake]
    by_cases h1 : (q = 34 ∨ q = 39) ∧ (x :: xs).getLast? = some q
    · rw [if_pos h1, if_pos]
      rcases h1 with ⟨hq | hq, hl⟩
      · left; exact ⟨hq, by rw [hl, hq]⟩
      · right; exact ⟨hq, by rw [hl, hq]⟩
    · rw [if_neg h1, if_neg]
      rintro (⟨hq, hl⟩ | ⟨hq, hl⟩)
      · exact h1 ⟨Or.inl hq, by rw [hl, hq]⟩
      · exact h1 ⟨Or.inr hq, by rw [hl, hq]⟩

theorem parseParts_eq_map (parts : List Str) :
    parseParts parts
      = (((parts.map TrimSpace).filter (fun seg => !seg.isEmpty)).map invocationOf) := by
  induction parts with
  | nil => rfl
  | cons p ps ih =>
    rw [parseParts, ih, List.map_cons]
    by_cases h : TrimSpace p = []
    · simp [h]
    · have hne : (!(TrimSpace p).isEmpty) = true := by
        cases hq : TrimSpace p with
        | nil => exact absurd hq h
        | cons a b => rfl
      rw [if_neg h]
      simp only [List.filter, hne, List.map_cons]
      unfold invocationOf
      rw [parsedArgument_eq]
      split <;> rfl

theorem parseParts_mem (parts : List Str) (f : filter) (h : f ∈ parseParts parts) :
    f.name = bytes "default" ∨ ∃ p ∈ parts, TrimSpace p ≠ [] ∧ f.name = TrimSpace p := by
  induction parts with
  | nil => simp [parseParts] at h
  | cons p ps ih =>
    rw [parseParts] at h
    have hrec : f ∈ parseParts ps →
        f.name = bytes "default" ∨ ∃ q ∈ p :: ps, TrimSpace q ≠ [] ∧ f.name = TrimSpace q := by
      intro h0
      rcases ih h0 with h1 | ⟨q, hq, h1⟩
      · exact Or.inl h1
      · exact Or.inr ⟨q, by simp [hq], h1⟩
    by_cases h0 : TrimSpace p = []
    · rw [if_pos h0] at h
      exact hrec h
    · rw [if_neg h0] at h
      split at h
      · rcases List.mem_cons.mp h with e | h
        · left; rw [e]
        · exact hrec h
      · rcases List.mem_cons.mp h with e | h
        · right
          exact ⟨p, by simp, h0, by rw [e]⟩
        · exact hrec h

theorem runesFrom_skip : ∀ (s : Str) (k : Nat), runesFrom k s = runesFrom 0 (s.drop k) := by
  intro s
  induction s with
  | nil => intro k; cases k <;> simp [runesFrom]
  | cons c t ih =>
    intro k
    cases k with
    | zero => rfl
    | succ k => rw [runesFrom, ih k, List.drop_succ_cons]

theorem runesFrom_cons (c : Nat) (t : Str) :
    runesFrom 0 (c :: t) = (DecodeRuneInString (c :: t)).1
      :: runesFrom 0 (t.drop ((DecodeRuneInString (c :: t)).2 - 1)) := by
  rw [runesFrom, runesFrom_skip]

/-- In a text of `|` and white space only, every segment between `|` is white
space only. -/
theorem segments_blank : ∀ (n : Nat) (raw : Str), raw.length ≤ n →
    onlyBarsAndSpace raw = true → ∀ seg ∈ Split raw 124, isBlank seg = true := by
  intro n
  induction n with
  | zero =>
    intro raw hn _ seg hseg
    have : raw = [] := List.length_eq_zero.mp (by omega)
    subst this
    simp only [Split, List.mem_singleton] at hseg
    subst hseg; rfl
  | succ n ih =>
    intro raw hn hraw seg hseg
    rcases raw with _ | ⟨c, t⟩
    · simp only [Split, List.mem_singleton] at hseg
      subst hseg; rfl
    simp only [List.length_cons] at hn
    unfold onlyBarsAndSpace at hraw
    rw [runesFrom_cons, List.all_cons, Bool.and_eq_true] at hraw
    obtain ⟨hhead, htail⟩ := hraw
    rcases decode_cases c t with ⟨hc, e⟩ | ⟨hc, e⟩ | ⟨hc, w, rest, r, ht, hw, hr, e, hb, hx⟩
    · rw [e] at hhead htail
      simp only [Nat.sub_self, List.drop_zero] at htail
      have iht := ih t (by omega) htail
      by_cases h124 : c = 124
      · subst h124
        rw [Split] at hseg
        simp only [if_true, List.mem_cons] at hseg
        rcases hseg with rfl | hseg
        · rfl
        · exact iht seg hseg
      · have hsp : IsSpace c = true := by
          simp only [Bool.or_eq_true, beq_iff_eq] at hhead
          rcases hhead with h | h
          · exact absurd h h124
          · exact h
        obtain ⟨h0, tl, e1, e2⟩ := Split_append_no_sep 124 t [c] (by simp; omega)
        rw [List.singleton_append] at e2
        rw [e2] at hseg
        rcases List.mem_cons.mp hseg with rfl | hseg
        · unfold isBlank
          have hd : DecodeRuneInString ([c] ++ h0) = (c, 1) := by
            simp [DecodeRuneInString, hc]
          rw [List.singleton_append] at hd ⊢
          rw [runesFrom_cons, hd, List.all_cons, hsp]
          simp only [Nat.sub_self, List.drop_zero, Bool.true_and]
          exact iht h0 (by rw [e1]; simp)
        · exact iht seg (by rw [e1]; simp [hseg])
    · rw [e] at hhead
      exact absurd hhead (by decide)
    · rw [e] at hhead htail
      simp only [Nat.add_sub_cancel] at htail
      subst ht
      rw [List.drop_left] at htail
      have iht := ih rest (by simp only [List.length_append] at hn; omega) htail
      have hsp : IsSpace r = true := by
        simp only [Bool.or_eq_true, beq_iff_eq] at hhead
        rcases hhead with h | h
        · omega
        · exact h
      have hno : 124 ∉ c :: w := by
        simp only [List.mem_cons, not_or]
        refine ⟨by omega, fun hm => ?_⟩
        have := hb 124 hm
        omega
      obtain ⟨h0, tl, e1, e2⟩ := Split_append_no_sep 124 rest (c :: w) hno
      rw [List.cons_append] at e2
      rw [e2] at hseg
      rcases List.mem_cons.mp hseg with rfl | hseg
      · unfold isBlank
        rw [List.cons_append, runesFrom_cons, hx h0, List.all_cons, hsp]
        simp only [Nat.add_sub_cancel, List.drop_left, Bool.true_and]
        exact iht h0 (by rw [e1]; simp)
      · exact iht seg (by rw [e1]; simp [hseg])

theorem parseParts_blank (parts : List Str) (h : ∀ p ∈ parts, isBlank p = true) :
    parseParts parts = [] := by
  induction parts with
  | nil => rfl
  | cons p ps ih =>
    rw [parseParts, if_pos (TrimSpace_blank p (h p (by simp)))]
    exact ih (fun q hq => h q (by simp [hq]))

/-- C14.  `parseFilterChain` returns, in source order, one invocation for each
segment of the raw text between `|` that is not empty after trimming, and
none for the others: `default` with its parsed argument when the trimmed
segment starts with `default:`, else a bare invocation named by the trimmed
segment.  Every name returned is non-empty, starts and ends with a rune that
is not white space, and holds no `|`.  A raw text of `|` and white space only
(the empty text included) gives the empty chain. -/
theorem parseFilterChain_segments (raw : Str) :
    parseFilterChain raw = chainOfSegments raw ∧
    (∀ f ∈ parseFilterChain raw, f.name ≠ [] ∧
      IsSpace (DecodeRuneInString f.name).1 = false ∧
      IsSpace (DecodeLastRuneInString f.name).1 = false ∧ 124 ∉ f.name) ∧
    (∀ f ∈ parseFilterChain raw, f.name ≠ bytes "default" →
      f.args = [] ∧ ∃ seg ∈ Split raw 124, f.name = TrimSpace seg) ∧
    (onlyBarsAndSpace raw = true → parseFilterChain raw = []) := by
  refine ⟨?_, ?_, ?_, ?_⟩
  · rw [parseFilterChain_eq, parseParts_eq_map]
    rfl
  · intro f hf
    rw [parseFilterChain_eq] at hf
    rcases parseParts_mem _ f hf with h | ⟨p, hp, hne, hname⟩
    · rw [h]
      exact ⟨by decide, by decide, by decide, by decide⟩
    · rw [hname]
      obtain ⟨_, h2⟩ := TrimSpace_spec p
      rcases h2 with h2 | ⟨h2, h3⟩
      · exact absurd h2 hne
      · exact ⟨hne, h2, h3, fun hm => Split_mem_no_sep 124 raw p hp (TrimSpace_mem p 124 hm)⟩
  · intro f hf hnd
    rw [parseFilterChain_eq, parseParts_eq_map] at hf
    simp only [List.mem_map, List.mem_filter] at hf
    obtain ⟨seg, ⟨⟨p, hp, hseg⟩, _⟩, hinv⟩ := hf
    unfold invocationOf at hinv
    split at hinv
    · rw [← hinv] at hnd
      exact absurd rfl hnd
    · rw [← hinv]
      exact ⟨rfl, p, hp, hseg.symm⟩
  · intro h
    rw [parseFilterChain_eq]
    exact parseParts_blank _ (segments_blank raw.length raw (le_refl _) h)

/-- Witness for C14: the chain of ` trim || default:'x' | uppercase `; the
name facts at the invocation `b` of `a | b`; the empty chain of ` | `. -/
theorem parseFilterChain_segments_witness :
    parseFilterChain (bytes " trim || default:'x' | uppercase ")
      = [⟨bytes "trim", []⟩, ⟨bytes "default", bytes "x"⟩, ⟨bytes "uppercase", []⟩] ∧
    (bytes "b" ≠ [] ∧ IsSpace (DecodeRuneInString (bytes "b")).1 = false ∧
      IsSpace (DecodeLastRuneInString (bytes "b")).1 = false ∧ 124 ∉ bytes "b") ∧
    parseFilterChain (bytes " | ") = [] :=
  ⟨(parseFilterChain_segments (bytes " trim || default:'x' | uppercase ")).1.trans (by decide),
    (parseFilterChain_segments (bytes "a | b")).2.1 ⟨bytes "b", []⟩ (by decide),
    (parseFilterChain_segments (bytes " | ")).2.2.2 (by decide)⟩

end Templatex
